import Mathlib

/-!
Verification of the surrealcode analysis engine (src/analysis/analyzer.go)
against its specification.  The Go code is shallowly embedded: the subset of
the `go/ast` node kinds that the analyzer inspects is modelled as an
inductive type, the metric computations are translated function by function,
and the stateful passes (duplicate detection, dead-code reachability,
Tarjan recursion detection) are modelled by explicit state passing over
association lists standing for Go maps.
-/

/-- Subset of `go/ast` expression/statement nodes traversed by the analyzer.
Children are listed in the order `ast.Walk` visits them.  List-valued
bodies keep their Go shape; optional fields (`Init`, `Cond`, `Post`,
`Else`, `Tag`, ...) are `Option`s.  Operators are carried as their
`token.String()` rendering, exactly the strings the Go code switches on. -/
inductive GoNode where
  | ident (name : String)
  | basicLit (value : String)
  | binaryExpr (op : String) (x y : GoNode)
  | unaryExpr (op : String) (x : GoNode)
  | callExpr (fn : GoNode) (arg : Option GoNode)
  | exprStmt (x : GoNode)
  | assignStmt (lhs rhs : GoNode)
  | returnStmt (result : Option GoNode)
  | blockStmt (stmts : List GoNode)
  | ifStmt (ini : Option GoNode) (cond : GoNode) (body : GoNode) (els : Option GoNode)
  | forStmt (ini : Option GoNode) (cond : Option GoNode) (post : Option GoNode) (body : GoNode)
  | rangeStmt (x : GoNode) (body : GoNode)
  | switchStmt (ini : Option GoNode) (tag : Option GoNode) (body : GoNode)
  | selectStmt (body : GoNode)
  | caseClause (exprs : List GoNode) (stmts : List GoNode)
  | commClause (comm : Option GoNode) (stmts : List GoNode)

namespace GoNode

/-- Immediate children of a node, in `ast.Walk` order.  This is what the
analyzer's `children` helper computes via a depth-one `ast.Inspect`. -/
def childrenOf : GoNode → List GoNode
  | .ident _ => []
  | .basicLit _ => []
  | .binaryExpr _ x y => [x, y]
  | .unaryExpr _ x => [x]
  | .callExpr f a => f :: a.toList
  | .exprStmt x => [x]
  | .assignStmt l r => [l, r]
  | .returnStmt e => e.toList
  | .blockStmt ss => ss
  | .ifStmt i c b e => i.toList ++ [c, b] ++ e.toList
  | .forStmt i c p b => i.toList ++ c.toList ++ p.toList ++ [b]
  | .rangeStmt x b => [x, b]
  | .switchStmt i t b => i.toList ++ t.toList ++ [b]
  | .selectStmt b => [b]
  | .caseClause es ss => es ++ ss
  | .commClause c ss => c.toList ++ ss

mutual
/-- All nodes of a subtree in preorder: the visit order of `ast.Inspect`
with a visitor that always returns `true`. -/
def preorder : GoNode → List GoNode
  | .ident s => [.ident s]
  | .basicLit v => [.basicLit v]
  | .binaryExpr op x y => .binaryExpr op x y :: (preorder x ++ preorder y)
  | .unaryExpr op x => .unaryExpr op x :: preorder x
  | .callExpr f a => .callExpr f a :: (preorder f ++ preorderOpt a)
  | .exprStmt x => .exprStmt x :: preorder x
  | .assignStmt l r => .assignStmt l r :: (preorder l ++ preorder r)
  | .returnStmt e => .returnStmt e :: preorderOpt e
  | .blockStmt ss => .blockStmt ss :: preorderList ss
  | .ifStmt i c b e =>
      .ifStmt i c b e :: (preorderOpt i ++ preorder c ++ preorder b ++ preorderOpt e)
  | .forStmt i c p b =>
      .forStmt i c p b :: (preorderOpt i ++ preorderOpt c ++ preorderOpt p ++ preorder b)
  | .rangeStmt x b => .rangeStmt x b :: (preorder x ++ preorder b)
  | .switchStmt i t b => .switchStmt i t b :: (preorderOpt i ++ preorderOpt t ++ preorder b)
  | .selectStmt b => .selectStmt b :: preorder b
  | .caseClause es ss => .caseClause es ss :: (preorderList es ++ preorderList ss)
  | .commClause c ss => .commClause c ss :: (preorderOpt c ++ preorderList ss)

def preorderList : List GoNode → List GoNode
  | [] => []
  | n :: ns => preorder n ++ preorderList ns

def preorderOpt : Option GoNode → List GoNode
  | none => []
  | some n => preorder n
end

end GoNode

section PrototypeChecks

example : (GoNode.preorder (.binaryExpr "&&" (.ident "a") (.ident "b"))).length = 3 := by
  decide

example :
    (GoNode.preorder (.blockStmt [.exprStmt (.ident "a"), .returnStmt none])).length = 4 := by
  decide

end PrototypeChecks

/-- Type expressions as handled by `simpleTypeString` (identifier, pointer,
qualified selector, slice).  Kinds the Go function sends to its
`fmt.Sprintf` default case are outside this subset. -/
inductive GoTypeExpr where
  | ident (name : String)
  | star (x : GoTypeExpr)
  | selector (x : GoTypeExpr) (sel : String)
  | array (elt : GoTypeExpr)
deriving DecidableEq

/-- `simpleTypeString` from analyzer.go: renders a type expression. -/
def simpleTypeString : GoTypeExpr → String
  | .ident n => n
  | .star x => "*" ++ simpleTypeString x
  | .selector x sel => simpleTypeString x ++ "." ++ sel
  | .array elt => "[]" ++ simpleTypeString elt

/-- One parameter/receiver field (`ast.Field`): declared names plus a type.
A field with an empty name list is an unnamed parameter such as `func f(int)`. -/
structure GoField where
  names : List String
  type : GoTypeExpr

/-- A function declaration (`ast.FuncDecl`): name, optional receiver field,
parameter and result fields, and body.  `ast.Walk` visits the name
identifier, the receiver, parameter and result identifiers, and the body,
so all of them feed the metric traversals below. -/
structure GoFuncDecl where
  name : String
  recv : Option GoField
  params : List GoField
  results : List GoField
  body : GoNode

/-- The identifier nodes `ast.Walk` reaches inside a type expression
(`StarExpr`/`ArrayType`/`SelectorExpr` wrappers match none of the
analyzer's switch cases, only the identifiers inside them do). -/
def typeIdentNodes : GoTypeExpr → List GoNode
  | .ident n => [.ident n]
  | .star x => typeIdentNodes x
  | .selector x sel => typeIdentNodes x ++ [.ident sel]
  | .array elt => typeIdentNodes elt

/-- Nodes of a field visible to the analyzer's switches: name identifiers
then the identifiers of the type. -/
def fieldNodes (f : GoField) : List GoNode :=
  f.names.map GoNode.ident ++ typeIdentNodes f.type

/-- All nodes visited by `ast.Inspect` on a whole `FuncDecl` that can match
one of the analyzer's switch cases: receiver field, the function's name
identifier, parameter and result fields, then the body subtree in
preorder. -/
def declNodes (d : GoFuncDecl) : List GoNode :=
  (d.recv.map fieldNodes).getD [] ++ [GoNode.ident d.name] ++
    d.params.flatMap fieldNodes ++ d.results.flatMap fieldNodes ++
    GoNode.preorder d.body

/-- Does a node bump cyclomatic complexity?  Mirrors the switch in
`ComputeComplexity`: if/for/range/case-clause/comm-clause/select count,
and a binary expression counts iff its operator is `&&` or `||`. -/
def cycloP : GoNode → Bool
  | .ifStmt _ _ _ _ => true
  | .forStmt _ _ _ _ => true
  | .rangeStmt _ _ => true
  | .caseClause _ _ => true
  | .commClause _ _ => true
  | .selectStmt _ => true
  | .binaryExpr op _ _ => op == "&&" || op == "||"
  | _ => false

/-- `ComputeComplexity` from analyzer.go, applied (as in `AnalyzeFile`) to
the whole function declaration: base 1 plus one per matching node of the
`ast.Inspect` traversal. -/
def ComputeComplexity (d : GoFuncDecl) : Nat :=
  1 + (declNodes d).countP (fun n => cycloP n)

/-- Accumulator of `ComputeCognitiveComplexity`'s recursive visitor:
score, branching and logical-operator counters plus the maximum depth
at which any node was visited. -/
structure CogOut where
  score : Nat
  branch : Nat
  logic : Nat
  maxD : Nat
deriving DecidableEq

def CogOut.zero (depth : Nat) : CogOut := ⟨0, 0, 0, depth⟩

/-- Merge child results into the result for a node visited at `depth`. -/
def CogOut.combine (depth : Nat) (parts : List CogOut) : CogOut :=
  { score := (parts.map score).sum
    branch := (parts.map branch).sum
    logic := (parts.map logic).sum
    maxD := parts.foldl (fun m p => max m p.maxD) depth }

mutual
/-- The recursive visitor of `ComputeCognitiveComplexity`.  If, for, range
and switch statements score and nest their bodies one level deeper (an if
statement's `Init` and a switch statement's `Init` are not visited, exactly
as in the Go code); `&&`/`||` score without nesting; every other node just
forwards its children at the same depth. -/
def cogVisit : GoNode → Nat → CogOut
  | .ifStmt _ c b e, depth =>
      let parts := [cogVisit c depth, cogVisit b (depth + 1)] ++ cogVisitOpt e (depth + 1)
      let o := CogOut.combine depth parts
      { o with score := o.score + 1, branch := o.branch + 1 }
  | .forStmt i c p b, depth =>
      let parts := cogVisitOpt i depth ++ cogVisitOpt c depth ++ cogVisitOpt p depth ++
        [cogVisit b (depth + 1)]
      let o := CogOut.combine depth parts
      { o with score := o.score + 1, branch := o.branch + 1 }
  | .rangeStmt x b, depth =>
      let o := CogOut.combine depth [cogVisit x depth, cogVisit b (depth + 1)]
      { o with score := o.score + 1, branch := o.branch + 1 }
  | .switchStmt _ t b, depth =>
      let o := CogOut.combine depth (cogVisitOpt t depth ++ [cogVisit b (depth + 1)])
      { o with score := o.score + 1, branch := o.branch + 1 }
  | .binaryExpr op x y, depth =>
      let o := CogOut.combine depth [cogVisit x depth, cogVisit y depth]
      if op == "&&" || op == "||" then
        { o with score := o.score + 1, logic := o.logic + 1 }
      else o
  | .ident _, depth => CogOut.zero depth
  | .basicLit _, depth => CogOut.zero depth
  | .unaryExpr _ x, depth => CogOut.combine depth [cogVisit x depth]
  | .callExpr f a, depth => CogOut.combine depth ([cogVisit f depth] ++ cogVisitOpt a depth)
  | .exprStmt x, depth => CogOut.combine depth [cogVisit x depth]
  | .assignStmt l r, depth => CogOut.combine depth [cogVisit l depth, cogVisit r depth]
  | .returnStmt e, depth => CogOut.combine depth (cogVisitOpt e depth)
  | .blockStmt ss, depth => CogOut.combine depth (cogVisitList ss depth)
  | .selectStmt b, depth => CogOut.combine depth [cogVisit b depth]
  | .caseClause es ss, depth =>
      CogOut.combine depth (cogVisitList es depth ++ cogVisitList ss depth)
  | .commClause c ss, depth =>
      CogOut.combine depth (cogVisitOpt c depth ++ cogVisitList ss depth)

def cogVisitList : List GoNode → Nat → List CogOut
  | [], _ => []
  | n :: ns, depth => cogVisit n depth :: cogVisitList ns depth

def cogVisitOpt : Option GoNode → Nat → List CogOut
  | none, _ => []
  | some n, depth => [cogVisit n depth]
end

/-- Result record of `ComputeCognitiveComplexity`. -/
structure CognitiveComplexityMetrics where
  score : Nat
  nestedDepth : Nat
  logicalOps : Nat
  branchingScore : Nat
deriving DecidableEq

/-- `ComputeCognitiveComplexity` from analyzer.go: run the visitor on the
function body at depth 0, then add one to the score when any branching
was seen. -/
def ComputeCognitiveComplexity (d : GoFuncDecl) : CognitiveComplexityMetrics :=
  let o := cogVisit d.body 0
  { score := o.score + (if 0 < o.branch then 1 else 0)
    nestedDepth := o.maxD
    logicalOps := o.logic
    branchingScore := o.branch }

section PrototypeChecks2

example :
    ComputeComplexity ⟨"f", none, [], [],
      .blockStmt [.exprStmt (.binaryExpr "&&" (.ident "a") (.ident "b"))]⟩ = 2 := by
  decide

example :
    (ComputeCognitiveComplexity ⟨"f", none, [], [],
      .blockStmt [.exprStmt (.binaryExpr "&&" (.ident "a") (.ident "b"))]⟩).branchingScore
      = 0 := by
  decide

end PrototypeChecks2

/-!
### A symbolic model of `float64` special values

The Halstead computation works with Go `float64`.  Counts are integers, so
products and quotients are modelled by exact rationals; what matters for
the degenerate cases is IEEE-754 special-value propagation, which the model
tracks precisely: `math.Log2 0 = -Inf`, `0 * ±Inf = NaN`, `0 / 0 = NaN`.
`math.Log2` of a power of two is exact in Go (its `Frexp` fast path), hence
`fin`; any other positive argument yields a finite double whose rounded
value this model does not track (`unknown`). -/
inductive GoFloat where
  | nan
  | inf (neg : Bool)
  | fin (q : ℚ)
  | unknown
deriving DecidableEq

/-- IEEE multiplication on the model, conservative (`unknown`) whenever an
untracked finite value is involved. -/
def mulF : GoFloat → GoFloat → GoFloat
  | .nan, _ => .nan
  | _, .nan => .nan
  | .unknown, _ => .unknown
  | _, .unknown => .unknown
  | .fin a, .fin b => .fin (a * b)
  | .fin a, .inf s => if a = 0 then .nan else .inf (xor s (decide (a < 0)))
  | .inf s, .fin a => if a = 0 then .nan else .inf (xor s (decide (a < 0)))
  | .inf s, .inf t => .inf (xor s t)

/-- IEEE division on the model (`x / 0` is `±Inf` for `x ≠ 0` and NaN for
`0 / 0`), conservative on untracked values. -/
def divF : GoFloat → GoFloat → GoFloat
  | .nan, _ => .nan
  | _, .nan => .nan
  | .unknown, _ => .unknown
  | _, .unknown => .unknown
  | .fin a, .fin b =>
      if b = 0 then (if a = 0 then .nan else .inf (decide (a < 0)))
      else .fin (a / b)
  | .fin _, .inf _ => .fin 0
  | .inf s, .fin a => .inf (xor s (decide (a < 0)))
  | .inf _, .inf _ => .nan

/-- Fuel-driven helper for `natLog2Exact?`: repeatedly halve an even
number, counting the halvings, and succeed exactly on reaching 1. -/
def pow2LogFuel : Nat → Nat → Option Nat
  | _, 0 => none
  | 0, _ => none
  | _ + 1, 1 => some 0
  | fuel + 1, n + 2 =>
      if (n + 2) % 2 = 0 then (pow2LogFuel fuel ((n + 2) / 2)).map (fun k => k + 1)
      else none

/-- The exact base-two logarithm of a natural number, when it is a power
of two (`n` halvings are always enough fuel). -/
def natLog2Exact? (n : Nat) : Option Nat :=
  pow2LogFuel n n

/-- The exact base-two logarithm of a rational, when it is an integral
power of two. -/
def ratLog2Exact? (q : ℚ) : Option Int :=
  if q.den = 1 then (natLog2Exact? q.num.toNat).map (fun k => (k : Int))
  else if q.num = 1 then (natLog2Exact? q.den).map (fun k => -(k : Int))
  else none

/-- `math.Log2` on the model: `-Inf` at `0`, NaN on negatives, exact on
powers of two, an untracked finite double elsewhere. -/
def goLog2 (q : ℚ) : GoFloat :=
  if q = 0 then .inf true
  else if q < 0 then .nan
  else
    match ratLog2Exact? q with
    | some k => .fin (k : ℚ)
    | none => .unknown

/-- The three fields `ComputeHalsteadMetrics` fills in
`surrealtypes.HalsteadMetrics`. -/
structure HalsteadMetrics where
  volume : GoFloat
  difficulty : GoFloat
  effort : GoFloat
deriving DecidableEq

/-- Operator string a node contributes to the Halstead operator map
(binary and unary operator expressions only). -/
def halsteadOpOf : GoNode → Option String
  | .binaryExpr op _ _ => some op
  | .unaryExpr op _ => some op
  | _ => none

/-- Operand string a node contributes to the Halstead operand map
(identifier names and literal values). -/
def halsteadOperandOf : GoNode → Option String
  | .ident n => some n
  | .basicLit v => some v
  | _ => none

/-- The multiset of operator strings collected by `ComputeHalsteadMetrics`'s
`ast.Inspect` over the whole declaration. -/
def halsteadOps (d : GoFuncDecl) : List String :=
  (declNodes d).filterMap halsteadOpOf

/-- The multiset of operand strings collected by `ComputeHalsteadMetrics`'s
`ast.Inspect` over the whole declaration (so the function name, receiver
and parameter identifiers count alongside the body). -/
def halsteadOperands (d : GoFuncDecl) : List String :=
  (declNodes d).filterMap halsteadOperandOf

/-- `ComputeHalsteadMetrics` from analyzer.go.  `n1`/`n2` are distinct
operator and operand strings, `N1`/`N2` total occurrences;
`volume = float64(N1+N2) * Log2(float64(n1+n2))` and
`difficulty = float64(n1) * float64(N2) / (2.0 * float64(n2))`, with no
guard for `n1+n2 = 0` or `n2 = 0`. -/
def ComputeHalsteadMetrics (d : GoFuncDecl) : HalsteadMetrics :=
  let n1 := (halsteadOps d).dedup.length
  let n2 := (halsteadOperands d).dedup.length
  let bigN1 := (halsteadOps d).length
  let bigN2 := (halsteadOperands d).length
  let volume := mulF (.fin ((bigN1 : ℚ) + (bigN2 : ℚ))) (goLog2 ((n1 : ℚ) + (n2 : ℚ)))
  let difficulty :=
    divF (mulF (.fin (n1 : ℚ)) (.fin (bigN2 : ℚ))) (mulF (.fin 2) (.fin (n2 : ℚ)))
  let effort := mulF difficulty volume
  ⟨volume, difficulty, effort⟩

/-!
### Duplicate detection
-/

/-- The string a node contributes to `extractFunctionBody`'s canonical
rendering: identifier names, literal values and binary operator symbols
each followed by a space, and a fixed `"return "` token for return
statements.  Comments are not part of the syntax tree walked here. -/
def canonTokenOf : GoNode → Option String
  | .ident n => some (n ++ " ")
  | .basicLit v => some (v ++ " ")
  | .binaryExpr op _ _ => some (op ++ " ")
  | .returnStmt _ => some "return "
  | _ => none

/-- `strings.TrimSpace`: drop leading and trailing whitespace characters. -/
def trimSpace (s : String) : String :=
  ⟨((s.data.dropWhile Char.isWhitespace).reverse.dropWhile Char.isWhitespace).reverse⟩

/-- `extractFunctionBody` from analyzer.go: concatenate the canonical
tokens of the body in `ast.Inspect` preorder and trim surrounding
whitespace. -/
def extractFunctionBody (d : GoFuncDecl) : String :=
  trimSpace (String.join ((GoNode.preorder d.body).filterMap canonTokenOf))

/-- `rabinKarpHash` from analyzer.go: polynomial base-31 hash over the
bytes of the string with `uint64` wrap-around.  The model folds over the
characters' code points, which coincide with Go's bytes on the ASCII
strings the canonicalizer produces from ASCII sources. -/
def rabinKarpHash (s : String) : Nat :=
  s.data.foldl (fun h c => (h * 31 + c.toNat) % 18446744073709551616) 0

/-- The `seen` map of a `CodeDuplicationDetector`: hash to first-seen
canonical body. -/
abbrev SeenMap := List (Nat × String)

/-- `CodeDuplicationDetector.DetectDuplication`: flag iff the hash is
already in `seen`; otherwise record it and report `false`. -/
def DetectDuplication (seen : SeenMap) (d : GoFuncDecl) : Bool × SeenMap :=
  let body := extractFunctionBody d
  let hash := rabinKarpHash body
  if (seen.lookup hash).isSome then (true, seen) else (false, (hash, body) :: seen)

section PrototypeChecks3

example :
    (ComputeHalsteadMetrics ⟨"f", none, [⟨[], .ident "int"⟩], [], .blockStmt []⟩).volume
      = .fin 2 := by
  have h1 : (halsteadOps ⟨"f", none, [⟨[], .ident "int"⟩], [], .blockStmt []⟩).dedup.length
      = 0 := by decide
  have h2 :
      (halsteadOperands ⟨"f", none, [⟨[], .ident "int"⟩], [], .blockStmt []⟩).dedup.length
      = 2 := by decide
  have h3 : (halsteadOps ⟨"f", none, [⟨[], .ident "int"⟩], [], .blockStmt []⟩).length
      = 0 := by decide
  have h4 : (halsteadOperands ⟨"f", none, [⟨[], .ident "int"⟩], [], .blockStmt []⟩).length
      = 2 := by decide
  simp only [ComputeHalsteadMetrics, h1, h2, h3, h4]
  norm_num [mulF, goLog2, ratLog2Exact?, natLog2Exact?, pow2LogFuel]

example :
    rabinKarpHash "a" = 97 := by decide

example :
    (DetectDuplication [] ⟨"f", none, [], [],
      .blockStmt [.returnStmt (some (.ident "x"))]⟩).1 = false := by
  decide

end PrototypeChecks3

/-!
### Function records and per-file extraction
-/

/-- The fields of `surrealtypes.FunctionCall` that the analysis passes
read or write (`ReferencedGlobals`/`Dependencies` and the embedded metrics
block are untouched by the passes studied here and omitted). -/
structure FunctionCall where
  caller : String
  file : String
  pkg : String
  params : List String
  returns : List String
  callees : List String
  isMethod : Bool
  structName : String
  isRecursive : Bool
  isDuplicate : Bool
deriving DecidableEq

/-- The name `AnalyzeFile` (lines 137-143) gives a declaration: receiver
type, a dot and the function name for methods, the bare name otherwise.
The package name does not enter. -/
def funcFullName (d : GoFuncDecl) : String :=
  match d.recv with
  | some f => simpleTypeString f.type ++ "." ++ d.name
  | none => d.name

/-- The record `AnalyzeFile` builds for a declaration before the metrics
pass: `Caller` is the receiver-qualified name, parameter and return types
are rendered per field with `simpleTypeString`, and `Callees` is
initialized empty and never filled by this file's extraction. -/
def extractFunction (path pkg : String) (d : GoFuncDecl) : FunctionCall :=
  { caller := funcFullName d
    file := path
    pkg := pkg
    params := d.params.map (fun f => simpleTypeString f.type)
    returns := d.results.map (fun f => simpleTypeString f.type)
    callees := []
    isMethod := d.recv.isSome
    structName := (d.recv.map (fun f => simpleTypeString f.type)).getD ""
    isRecursive := false
    isDuplicate := false }

/-- `findFunctionDecl` from analyzer.go: first declaration whose
receiver-qualified name matches. -/
def findFunctionDecl (decls : List GoFuncDecl) (name : String) : Option GoFuncDecl :=
  decls.find? (fun d => funcFullName d == name)

/-- The metrics loop at the end of `AnalyzeFile`, restricted to the state
it threads: for each record, re-find its declaration and set
`IsDuplicate` when the file's `CodeDuplicationDetector` has seen the
body's hash. -/
def analyzeFileFunctionsLoop (decls : List GoFuncDecl) :
    List FunctionCall → SeenMap → List FunctionCall
  | [], _ => []
  | fn :: rest, seen =>
      match findFunctionDecl decls fn.caller with
      | some fd =>
          let r := DetectDuplication seen fd
          let fn' := if r.1 then { fn with isDuplicate := true } else fn
          fn' :: analyzeFileFunctionsLoop decls rest r.2
      | none => fn :: analyzeFileFunctionsLoop decls rest seen

/-- The function records `AnalyzeFile` returns for one file: extraction of
every declaration, then the metrics loop run with a detector freshly
created for this call (`detector := NewCodeDuplicationDetector()`). -/
def analyzeFileFunctions (path pkg : String) (decls : List GoFuncDecl) : List FunctionCall :=
  analyzeFileFunctionsLoop decls (decls.map (extractFunction path pkg)) []

/-!
### Merging into the cross-file function map (`GetAnalysis`)
-/

/-- A Go `map[string]FunctionCall` as an association list with pairwise
distinct keys (enforced by hypotheses where it matters). -/
abbrev FunctionMap := List (String × FunctionCall)

/-- Go map assignment `m[k] = v`: overwrite if present, append otherwise. -/
def setAssoc (m : FunctionMap) (k : String) (v : FunctionCall) : FunctionMap :=
  if (m.lookup k).isSome then m.map (fun p => if p.1 = k then (k, v) else p)
  else m ++ [(k, v)]

/-- The merge loop of `GetAnalysis`: `functionMap[fn.Caller] = fn` for each
record of a file. -/
def mergeFunctionMap (m : FunctionMap) (fns : List FunctionCall) : FunctionMap :=
  fns.foldl (fun acc fn => setAssoc acc fn.caller fn) m

/-!
### Dead-code detection
-/

/-- `isExported` from analyzer.go: first character uppercase (Go inspects
the first byte; on the ASCII identifiers modelled here byte and character
coincide). -/
def isExported (fname : String) : Bool :=
  match fname.data with
  | [] => false
  | c :: _ => c.isUpper

/-- Total number of callee entries of a map, used to bound the DFS fuel. -/
def totalCallees (functions : FunctionMap) : Nat :=
  (functions.map (fun p => p.2.callees.length)).sum

/-- `markReachable` from analyzer.go: depth-first marking.  Already-marked
names stop the recursion; a marked name that is a key propagates to its
callees, but only those whose name contains no dot.  The Go recursion
always terminates because the mark set grows; the model makes the same
argument explicit with fuel, and `DetectDeadCode` supplies enough fuel
that the cutoff is never hit. -/
def markReachable (fuel : Nat) (fname : String) (functions : FunctionMap)
    (reachable : List String) : List String :=
  match fuel with
  | 0 => reachable
  | fuel + 1 =>
      if fname ∈ reachable then reachable
      else
        let reachable := fname :: reachable
        match functions.lookup fname with
        | some fn =>
            fn.callees.foldl
              (fun acc c =>
                if c.data.contains '.' then acc else markReachable fuel c functions acc)
              reachable
        | none => reachable

/-- Result of `DetectDeadCode`. -/
structure DeadCodeInfo where
  reachable : List String
  unusedFunctions : List String
deriving DecidableEq

/-- `DetectDeadCode` from analyzer.go: mark every entry point and every
exported key reachable (propagating through dot-free callees), then list
as unused every key that is unreachable, unexported and not an entry
point. -/
def DetectDeadCode (functions : FunctionMap) (entryPoints : List String) : DeadCodeInfo :=
  let fuel := functions.length + totalCallees functions + 2
  let r1 := entryPoints.foldl (fun acc e => markReachable fuel e functions acc) []
  let r2 := functions.foldl
    (fun acc p => if isExported p.1 then markReachable fuel p.1 functions acc else acc) r1
  let unused := functions.filterMap
    (fun p => if ¬(p.1 ∈ r2) ∧ ¬isExported p.1 = true ∧ ¬(p.1 ∈ entryPoints)
      then some p.1 else none)
  ⟨r2, unused⟩

/-!
### Maintainability
-/

/-- The readability inputs of `calculateMaintainability`
(`CodeReadabilityMetrics` in analyzer.go); densities are real-valued. -/
structure CodeReadabilityMetrics where
  functionLength : Nat
  nestingDepth : Nat
  commentDensity : ℝ
  cyclomaticPoints : Nat
  branchDensity : ℝ

/-- `calculateMaintainability` from analyzer.go:
`171 - 5.2*math.Log(float64(complexity)) - 0.23*float64(r.NestingDepth)`,
modelled over the reals. -/
noncomputable def calculateMaintainability (r : CodeReadabilityMetrics)
    (complexity : Nat) : ℝ :=
  171 - 5.2 * Real.log complexity - 0.23 * r.nestingDepth

/-!
### Recursion detection (Tarjan's SCC, `detectRecursion`)
-/

/-- Per-node bookkeeping of `detectRecursion` (`functionNode` in
analyzer.go, minus the redundant `name` field). -/
structure FunctionNode where
  index : Nat
  lowlink : Nat
  inStack : Bool
deriving DecidableEq

/-- The mutable state threaded through `tarjan`: the function map being
annotated, the discovery counter, the explicit stack (list head = stack
top) and the visited-node map. -/
structure TarjanState where
  functions : FunctionMap
  index : Nat
  stack : List String
  recData : List (String × FunctionNode)
deriving DecidableEq

/-- A record with its `IsRecursive` flag raised, the only mutation
`detectRecursion` applies to the map's values. -/
def raiseRec (fc : FunctionCall) : FunctionCall :=
  { fc with isRecursive := true }

/-- Update the value stored under a key of an association list (Go map
assignment to an existing key). -/
def updateAssoc {β : Type} (l : List (String × β)) (k : String) (v : β) :
    List (String × β) :=
  l.map (fun p => if p.1 = k then (k, v) else p)

/-- `rec.lowlink = min(rec.lowlink, v)` on the node stored for `k`. -/
def updateLowlinkMin (s : TarjanState) (k : String) (v : Nat) : TarjanState :=
  { s with recData :=
      s.recData.map (fun p => if p.1 = k then (k, { p.2 with lowlink := min p.2.lowlink v })
        else p) }

/-- Flip the `inStack` flag of `n` off. -/
def markNotInStack (recData : List (String × FunctionNode)) (n : String) :
    List (String × FunctionNode) :=
  recData.map (fun p => if p.1 = n then (n, { p.2 with inStack := false }) else p)

/-- The pop loop at the end of `tarjan` when a root is found: pop from the
stack down to `caller`, clearing `inStack` and collecting the component. -/
def popLoop (caller : String) : List String → List (String × FunctionNode) →
    List String × List String × List (String × FunctionNode)
  | [], recData => ([], [], recData)
  | n :: rest, recData =>
      let recData' := markNotInStack recData n
      if n = caller then ([n], rest, recData')
      else
        let r := popLoop caller rest recData'
        (n :: r.1, r.2.1, r.2.2)

/-- One member of a popped component: re-read the current record and store
it with `IsRecursive` raised (a missing key is left alone, as the Go map
read-then-write does). -/
def raiseStep (fs : FunctionMap) (n : String) : FunctionMap :=
  match fs.lookup n with
  | some fc => updateAssoc fs n (raiseRec fc)
  | none => fs

/-- Root handling of `tarjan`: pop the strongly connected component and,
when it has more than one member, raise `IsRecursive` on each member that
is a key of the map (re-reading the current record, as the Go code
does). -/
def popSCC (caller : String) (s : TarjanState) : TarjanState :=
  let r := popLoop caller s.stack s.recData
  let sccNodes := r.1
  let functions :=
    if 1 < sccNodes.length then
      sccNodes.foldl raiseStep s.functions
    else s.functions
  ⟨functions, s.index, r.2.1, r.2.2⟩

/-- One iteration of `tarjan`'s callee loop over the snapshot `fnSnap`
taken when the loop began.  A self-call stores the snapshot with
`IsRecursive` raised; an unvisited callee is visited by the supplied
continuation (a `tarjan` call one nesting level deeper) and its lowlink
folded in; a visited callee still on the stack folds in its index. -/
def calleeStep (visit : String → TarjanState → TarjanState) (caller : String)
    (fnSnap : FunctionCall) (st : TarjanState) (c : String) : TarjanState :=
  if c = caller then
    ⟨updateAssoc st.functions caller (raiseRec fnSnap), st.index, st.stack, st.recData⟩
  else
    match st.recData.lookup c with
    | none =>
        let st' := visit c st
        let cl :=
          match st'.recData.lookup c with
          | some d => d.lowlink
          | none => 0
        updateLowlinkMin st' caller cl
    | some d =>
        if d.inStack then updateLowlinkMin st caller d.index else st

/-- The recursive `tarjan` closure of `detectRecursion`.  On entry the
caller is indexed, pushed and recorded; its callees are processed from the
snapshot record; finally, if the caller is a root, its component is
popped.  The fuel only bounds the *nesting* of `tarjan` calls — each
nested call visits a node not yet in `recData`, so `detectRecursion`'s
fuel is never exhausted. -/
def tarjanVisit : Nat → String → TarjanState → TarjanState
  | 0, _, s => s
  | fuel + 1, caller, s =>
      let rec0 : FunctionNode := ⟨s.index, s.index, true⟩
      let s1 : TarjanState :=
        ⟨s.functions, s.index + 1, caller :: s.stack, (caller, rec0) :: s.recData⟩
      let s2 :=
        match s1.functions.lookup caller with
        | some fn => fn.callees.foldl (calleeStep (tarjanVisit fuel) caller fn) s1
        | none => s1
      match s2.recData.lookup caller with
      | some rc => if rc.lowlink = rc.index then popSCC caller s2 else s2
      | none => s2

/-- `detectRecursion` from analyzer.go: run `tarjan` from every key that
has not been visited yet and return the annotated map.  The initial fuel
bounds the nesting depth of `tarjan` calls; since every nested call
permanently claims an unvisited node, one unit per key or callee name
plus one is always enough. -/
def detectRecursion (functions : FunctionMap) : FunctionMap :=
  let fuel := functions.length + totalCallees functions + 1
  let s0 : TarjanState := ⟨functions, 0, [], []⟩
  (functions.map (fun p => p.1) |>.foldl
    (fun s k =>
      match s.recData.lookup k with
      | some _ => s
      | none => tarjanVisit fuel k s)
    s0).functions

/-!
### The directory pipeline (`GetAnalysis`)
-/

/-- What `GetAnalysis` builds before post-processing, for the parts the
claims mention: the merged function map, and the unused-function names
found by `DetectDeadCode`. -/
structure AnalysisReport where
  functionMap : FunctionMap
  unusedFunctions : List String
deriving DecidableEq

/-- The per-file loop of `GetAnalysis`: each file's `AnalyzeFile` result
(modelled by its outcome, an error or a list of records) is merged into
the map — but a single error makes the whole call return that error
immediately (`return surrealtypes.AnalysisReport{}, err`). -/
def collectFiles : List (Except String (List FunctionCall)) → FunctionMap →
    Except String FunctionMap
  | [], acc => .ok acc
  | .error e :: _, _ => .error e
  | .ok fns :: rest, acc => collectFiles rest (mergeFunctionMap acc fns)

/-- The entry points `GetAnalysis` hard-codes for dead-code detection. -/
def defaultEntryPoints : List String := ["main", "complex"]

/-- `GetAnalysis` from analyzer.go, over the already-parsed per-file
outcomes: merge every file (aborting on the first failed file), run
recursion detection on the merged map, then dead-code detection. -/
def getAnalysis (files : List (Except String (List FunctionCall))) :
    Except String AnalysisReport :=
  match collectFiles files [] with
  | .error e => .error e
  | .ok m =>
      let m := detectRecursion m
      let dead := DetectDeadCode m defaultEntryPoints
      .ok ⟨m, dead.unusedFunctions⟩

section PrototypeChecks4

example :
    (detectRecursion
        [("f", { caller := "f", file := "a.go", pkg := "p", params := [], returns := [],
                 callees := ["f"], isMethod := false, structName := "",
                 isRecursive := false, isDuplicate := false })]).lookup "f"
      = some { caller := "f", file := "a.go", pkg := "p", params := [], returns := [],
               callees := ["f"], isMethod := false, structName := "",
               isRecursive := true, isDuplicate := false } := by
  decide

example :
    (detectRecursion
        [("a", { caller := "a", file := "x.go", pkg := "p", params := [], returns := [],
                 callees := ["b"], isMethod := false, structName := "",
                 isRecursive := false, isDuplicate := false }),
         ("b", { caller := "b", file := "x.go", pkg := "p", params := [], returns := [],
                 callees := ["c"], isMethod := false, structName := "",
                 isRecursive := false, isDuplicate := false }),
         ("c", { caller := "c", file := "x.go", pkg := "p", params := [], returns := [],
                 callees := ["a"], isMethod := false, structName := "",
                 isRecursive := false, isDuplicate := false })]).map
        (fun p => (p.1, p.2.isRecursive))
      = [("a", true), ("b", true), ("c", true)] := by
  decide

example :
    (detectRecursion
        [("main", { caller := "main", file := "x.go", pkg := "p", params := [], returns := [],
                    callees := ["log.Println"], isMethod := false, structName := "",
                    isRecursive := false, isDuplicate := false })]).map
        (fun p => (p.1, p.2.isRecursive))
      = [("main", false)] := by
  decide

example :
    (DetectDeadCode
        [("main", { caller := "main", file := "x.go", pkg := "p", params := [], returns := [],
                    callees := ["used"], isMethod := false, structName := "",
                    isRecursive := false, isDuplicate := false }),
         ("used", { caller := "used", file := "x.go", pkg := "p", params := [], returns := [],
                    callees := [], isMethod := false, structName := "",
                    isRecursive := false, isDuplicate := false }),
         ("unused", { caller := "unused", file := "x.go", pkg := "p", params := [], returns := [],
                      callees := [], isMethod := false, structName := "",
                      isRecursive := false, isDuplicate := false })]
        ["main"]).unusedFunctions
      = ["unused"] := by
  decide

end PrototypeChecks4

/-!
## C9 — maintainability is non-increasing in cyclomatic complexity
-/

/-- C9: for a fixed readability-metrics input, `calculateMaintainability`
is monotonically non-increasing in the cyclomatic complexity: whenever
`1 ≤ c1 ≤ c2`, the index at `c2` is at most the index at `c1`. -/
theorem C9_maintainability_monotone (r : CodeReadabilityMetrics) (c1 c2 : Nat)
    (h1 : 1 ≤ c1) (h12 : c1 ≤ c2) :
    calculateMaintainability r c2 ≤ calculateMaintainability r c1 := by
  unfold calculateMaintainability
  have hc1 : (0 : ℝ) < (c1 : ℝ) := by exact_mod_cast Nat.lt_of_lt_of_le Nat.zero_lt_one h1
  have hc2 : (0 : ℝ) < (c2 : ℝ) := lt_of_lt_of_le hc1 (by exact_mod_cast h12)
  have hlog : Real.log c1 ≤ Real.log c2 :=
    (Real.log_le_log_iff hc1 hc2).mpr (by exact_mod_cast h12)
  linarith

/-- Witness for C9 at a concrete input: complexities 1 and 2 with all
readability inputs zero. -/
theorem C9_maintainability_monotone_witness :
    calculateMaintainability ⟨0, 0, 0, 0, 0⟩ 2 ≤ calculateMaintainability ⟨0, 0, 0, 0, 0⟩ 1 :=
  C9_maintainability_monotone ⟨0, 0, 0, 0, 0⟩ 1 2 (by norm_num) (by norm_num)

/-!
## C4 — cyclomatic complexity versus cognitive branching score
-/

/-- The declaration `func f() { a && b }`: the short-circuit operator is
counted by `ComputeComplexity` but not by the cognitive branching score. -/
def c4Decl : GoFuncDecl :=
  ⟨"f", none, [], [], .blockStmt [.exprStmt (.binaryExpr "&&" (.ident "a") (.ident "b"))]⟩

/-- C4 counterexample: on `func f() { a && b }` the cyclomatic complexity
is 2 while branching score + 1 is 1, so the claimed identity fails. -/
theorem C4_counterexample :
    ComputeComplexity c4Decl = 2 ∧
      (ComputeCognitiveComplexity c4Decl).branchingScore + 1 = 1 ∧
      ComputeComplexity c4Decl ≠ (ComputeCognitiveComplexity c4Decl).branchingScore + 1 := by
  refine ⟨by decide, by decide, by decide⟩

mutual
/-- Bodies on which the two counts do agree: no switch/select statements,
no case or comm clauses, no `&&`/`||` operators, and no if-statement
init clause (which `ComputeComplexity` traverses but the cognitive
visitor skips). -/
def tame : GoNode → Bool
  | .ident _ => true
  | .basicLit _ => true
  | .binaryExpr op x y => !(op == "&&" || op == "||") && tame x && tame y
  | .unaryExpr _ x => tame x
  | .callExpr f a => tame f && tameOpt a
  | .exprStmt x => tame x
  | .assignStmt l r => tame l && tame r
  | .returnStmt e => tameOpt e
  | .blockStmt ss => tameList ss
  | .ifStmt i c b e => i.isNone && tame c && tame b && tameOpt e
  | .forStmt i c p b => tameOpt i && tameOpt c && tameOpt p && tame b
  | .rangeStmt x b => tame x && tame b
  | .switchStmt _ _ _ => false
  | .selectStmt _ => false
  | .caseClause _ _ => false
  | .commClause _ _ => false

def tameList : List GoNode → Bool
  | [] => true
  | n :: ns => tame n && tameList ns

def tameOpt : Option GoNode → Bool
  | none => true
  | some n => tame n
end

theorem CogOut.branch_combine (depth : Nat) (parts : List CogOut) :
    (CogOut.combine depth parts).branch = (parts.map CogOut.branch).sum := rfl

/-- On tame nodes the cognitive branching count equals the number of
cyclomatic nodes of the preorder traversal, at every nesting depth. -/
theorem tame_branch_eq_count :
    (∀ n : GoNode, tame n = true → ∀ depth,
        (cogVisit n depth).branch = (GoNode.preorder n).countP (fun m => cycloP m)) ∧
      (∀ ns : List GoNode, tameList ns = true → ∀ depth,
        ((cogVisitList ns depth).map CogOut.branch).sum =
          (GoNode.preorderList ns).countP (fun m => cycloP m)) ∧
      (∀ e : Option GoNode, tameOpt e = true → ∀ depth,
        ((cogVisitOpt e depth).map CogOut.branch).sum =
          (GoNode.preorderOpt e).countP (fun m => cycloP m)) := by
  refine tame.mutual_induct
    (fun n => tame n = true → ∀ depth,
      (cogVisit n depth).branch = (GoNode.preorder n).countP (fun m => cycloP m))
    (fun ns => tameList ns = true → ∀ depth,
      ((cogVisitList ns depth).map CogOut.branch).sum =
        (GoNode.preorderList ns).countP (fun m => cycloP m))
    (fun e => tameOpt e = true → ∀ depth,
      ((cogVisitOpt e depth).map CogOut.branch).sum =
        (GoNode.preorderOpt e).countP (fun m => cycloP m))
    ?_ ?_ ?_ ?_ ?_ ?_ ?_ ?_ ?_ ?_ ?_ ?_ ?_ ?_ ?_ ?_ ?_ ?_ ?_ ?_ <;>
  · intros
    simp_all [cogVisit, cogVisitList, cogVisitOpt, GoNode.preorder, GoNode.preorderList,
      GoNode.preorderOpt, tame, tameList, tameOpt, CogOut.branch_combine, CogOut.zero,
      cycloP, List.countP_cons, List.countP_append]
    try omega

theorem countP_cyclo_typeIdent (t : GoTypeExpr) :
    (typeIdentNodes t).countP (fun m => cycloP m) = 0 := by
  induction t <;> simp_all [typeIdentNodes, cycloP, List.countP_append, List.countP_cons]

theorem countP_cyclo_identMap (ns : List String) :
    (ns.map GoNode.ident).countP (fun m => cycloP m) = 0 := by
  induction ns <;> simp_all [cycloP, List.countP_cons]

theorem countP_cyclo_fieldNodes (f : GoField) :
    (fieldNodes f).countP (fun m => cycloP m) = 0 := by
  rw [fieldNodes, List.countP_append, countP_cyclo_typeIdent, countP_cyclo_identMap]

theorem countP_cyclo_fields (fs : List GoField) :
    (fs.flatMap fieldNodes).countP (fun m => cycloP m) = 0 := by
  induction fs with
  | nil => rfl
  | cons f fs ih => rw [List.flatMap_cons, List.countP_append, countP_cyclo_fieldNodes, ih]

/-- C4 amended: on every function whose declaration contains no
switch/select statements, no case or comm clauses, no `&&`/`||`
operators, and no if-statement init clause, the cyclomatic complexity
equals the cognitive branching score plus one. -/
theorem C4_amended (d : GoFuncDecl) (h : tame d.body = true) :
    ComputeComplexity d = (ComputeCognitiveComplexity d).branchingScore + 1 := by
  have hb := tame_branch_eq_count.1 d.body h 0
  have hrecv : ((d.recv.map fieldNodes).getD []).countP (fun m => cycloP m) = 0 := by
    cases d.recv with
    | none => rfl
    | some f => simpa using countP_cyclo_fieldNodes f
  have hname : ([GoNode.ident d.name]).countP (fun m => cycloP m) = 0 := by
    simp [List.countP_cons, cycloP]
  simp only [ComputeComplexity, ComputeCognitiveComplexity, declNodes, List.countP_append,
    hrecv, hname, countP_cyclo_fields, hb]
  omega

/-- A tame declaration — `func g() { if c { return } }` — for the C4
witness. -/
def c4TameDecl : GoFuncDecl :=
  ⟨"g", none, [], [],
    .blockStmt [.ifStmt none (.ident "c") (.blockStmt [.returnStmt none]) none]⟩

/-- Witness for the amended C4 at a concrete tame declaration. -/
theorem C4_amended_witness :
    ComputeComplexity c4TameDecl = (ComputeCognitiveComplexity c4TameDecl).branchingScore + 1 :=
  C4_amended c4TameDecl (by decide)

/-!
## C5 — Halstead metrics in the degenerate cases
-/

/-- Operator strings contributed by the body alone. -/
def bodyOperators (d : GoFuncDecl) : List String :=
  (GoNode.preorder d.body).filterMap halsteadOpOf

/-- Operand strings contributed by the body alone. -/
def bodyOperands (d : GoFuncDecl) : List String :=
  (GoNode.preorder d.body).filterMap halsteadOperandOf

/-- The declaration `func f(int) {}` whose body contributes no operators
and no operands. -/
def c5Decl : GoFuncDecl := ⟨"f", none, [⟨[], .ident "int"⟩], [], .blockStmt []⟩

/-- C5 counterexample: the body of `func f(int) {}` contributes no
operators and no operands, yet `ComputeHalsteadMetrics` returns volume
`2·log2 2 = 2`, not `0` — the name and parameter identifiers are counted,
no guard is involved, and the result refutes "returns 0 for volume". -/
theorem C5_counterexample :
    bodyOperators c5Decl = [] ∧ bodyOperands c5Decl = [] ∧
      (ComputeHalsteadMetrics c5Decl).volume = .fin 2 ∧
      GoFloat.fin 2 ≠ GoFloat.fin 0 := by
  refine ⟨by decide, by decide, ?_, by decide⟩
  have h1 : (halsteadOps c5Decl).dedup.length = 0 := by decide
  have h2 : (halsteadOperands c5Decl).dedup.length = 2 := by decide
  have h3 : (halsteadOps c5Decl).length = 0 := by decide
  have h4 : (halsteadOperands c5Decl).length = 2 := by decide
  simp only [ComputeHalsteadMetrics, h1, h2, h3, h4]
  norm_num [mulF, goLog2, ratLog2Exact?, natLog2Exact?, pow2LogFuel]

theorem dedup_length_zero {α : Type} [DecidableEq α] {l : List α}
    (h : l.dedup.length = 0) : l = [] := by
  cases l with
  | nil => rfl
  | cons a l =>
      exfalso
      have hmem : a ∈ (a :: l).dedup := List.mem_dedup.mpr (List.mem_cons_self a l)
      rw [List.length_eq_zero.mp h] at hmem
      exact List.not_mem_nil a hmem

/-- C5 amended: `ComputeHalsteadMetrics` has no guard, but none is ever
exercised: the function's name identifier always counts as an operand, so
the distinct-operand count `n2` is at least one on every declaration —
`log2(0)` and `0/0` are unreachable; and whenever `n1 = 0` and `n2 = 1`
(an empty body with no parameters, for instance) volume, difficulty and
effort are all exactly `0`, because `log2 1 = 0`. -/
theorem C5_amended :
    (∀ d : GoFuncDecl, 1 ≤ (halsteadOperands d).dedup.length) ∧
      (∀ d : GoFuncDecl, (halsteadOps d).dedup.length = 0 →
        (halsteadOperands d).dedup.length = 1 →
        ComputeHalsteadMetrics d = ⟨.fin 0, .fin 0, .fin 0⟩) := by
  constructor
  · intro d
    have hmem : d.name ∈ halsteadOperands d := by
      refine List.mem_filterMap.mpr ⟨GoNode.ident d.name, ?_, rfl⟩
      unfold declNodes
      simp [List.mem_append]
    have : d.name ∈ (halsteadOperands d).dedup := List.mem_dedup.mpr hmem
    exact List.length_pos.mpr (List.ne_nil_of_mem this)
  · intro d h1 h2
    have hops : halsteadOps d = [] := dedup_length_zero h1
    have h3 : (halsteadOps d).length = 0 := by rw [hops]; rfl
    simp only [ComputeHalsteadMetrics, h1, h2, h3, hops]
    norm_num [mulF, divF, goLog2, ratLog2Exact?, natLog2Exact?, pow2LogFuel]

/-- Witness for the amended C5: the nonempty-operand bound at the
counterexample declaration, and the all-zero result at `func f() {}`. -/
theorem C5_amended_witness :
    1 ≤ (halsteadOperands c5Decl).dedup.length ∧
      ComputeHalsteadMetrics ⟨"f", none, [], [], .blockStmt []⟩ = ⟨.fin 0, .fin 0, .fin 0⟩ :=
  ⟨C5_amended.1 c5Decl,
    C5_amended.2 ⟨"f", none, [], [], .blockStmt []⟩ (by decide) (by decide)⟩


/-!
## C7 — duplicate detection over a sequence of calls
-/

/-- A sequence of `DetectDuplication` calls on one detector instance,
returning the flags in call order. -/
def runDetector : List GoFuncDecl → SeenMap → List Bool
  | [], _ => []
  | d :: ds, seen =>
      let r := DetectDuplication seen d
      r.1 :: runDetector ds r.2

/-- Canonical-body hash of a declaration. -/
def bodyHash (d : GoFuncDecl) : Nat := rabinKarpHash (extractFunctionBody d)

/-- A placeholder declaration for out-of-range list indexing. -/
def defaultDecl : GoFuncDecl := ⟨"", none, [], [], .blockStmt []⟩

theorem detectDuplication_fst (seen : SeenMap) (d : GoFuncDecl) :
    (DetectDuplication seen d).1 = (seen.lookup (bodyHash d)).isSome := by
  simp only [DetectDuplication, bodyHash]
  by_cases hs : ((seen.lookup (rabinKarpHash (extractFunctionBody d))).isSome = true) <;>
    simp [hs]

theorem detectDuplication_snd_lookup (seen : SeenMap) (d : GoFuncDecl) (h : Nat) :
    (((DetectDuplication seen d).2.lookup h).isSome = true) ↔
      ((seen.lookup h).isSome = true ∨ h = bodyHash d) := by
  simp only [DetectDuplication, bodyHash]
  by_cases hs : ((seen.lookup (rabinKarpHash (extractFunctionBody d))).isSome = true)
  · simp only [if_pos hs]
    constructor
    · exact Or.inl
    · rintro (hh | rfl)
      · exact hh
      · exact hs
  · simp only [if_neg hs]
    by_cases he : h = rabinKarpHash (extractFunctionBody d)
    · simp [List.lookup, he]
    · have hbe : (h == rabinKarpHash (extractFunctionBody d)) = false := by
        simpa using he
      simp [List.lookup, hbe, he]

theorem runDetector_getD_spec :
    ∀ (ds : List GoFuncDecl) (seen : SeenMap) (i : Nat), i < ds.length →
      ((runDetector ds seen).getD i false = true ↔
        (seen.lookup (bodyHash (ds.getD i defaultDecl))).isSome = true ∨
          ∃ j, j < i ∧ bodyHash (ds.getD j defaultDecl) = bodyHash (ds.getD i defaultDecl)) := by
  intro ds
  induction ds with
  | nil => intro seen i hi; exact absurd hi (by simp)
  | cons d ds ih =>
      intro seen i hi
      match i with
      | 0 =>
          simp only [runDetector, List.getD_cons_zero]
          rw [detectDuplication_fst]
          simp
      | i + 1 =>
          have hi' : i < ds.length := by simpa using hi
          simp only [runDetector, List.getD_cons_succ]
          rw [ih _ i hi', detectDuplication_snd_lookup]
          constructor
          · rintro ((hl | hd) | ⟨j, hj, hh⟩)
            · exact Or.inl hl
            · exact Or.inr ⟨0, Nat.succ_pos i, by simpa [List.getD_cons_zero] using hd.symm⟩
            · exact Or.inr ⟨j + 1, by omega, by simpa using hh⟩
          · rintro (hl | ⟨j, hj, hh⟩)
            · exact Or.inl (Or.inl hl)
            · match j with
              | 0 =>
                  exact Or.inl (Or.inr (by simpa [List.getD_cons_zero] using hh.symm))
              | j + 1 =>
                  exact Or.inr ⟨j, by omega, by simpa using hh⟩

/-- C7: over any sequence of calls to `DetectDuplication` on one detector
instance started empty, the i-th function is flagged if and only if some
earlier function in the sequence has the same canonical-body hash — so the
first function presenting a hash is never flagged, and a later function
with an identical body (comments are not part of the tree) is. -/
theorem C7_detect_duplication_iff (ds : List GoFuncDecl) (i : Nat) (hi : i < ds.length) :
    ((runDetector ds []).getD i false = true ↔
      ∃ j, j < i ∧ bodyHash (ds.getD j defaultDecl) = bodyHash (ds.getD i defaultDecl)) := by
  rw [runDetector_getD_spec ds [] i hi]
  simp [List.lookup]

/-- Witness for C7: in the sequence `f`, `g`, `h` where `h`'s body is
syntactically identical to `f`'s, the third call is flagged exactly
because an earlier identical body exists. -/
theorem C7_detect_duplication_iff_witness :
    ((runDetector
        [⟨"f", none, [], [], .blockStmt [.returnStmt (some (.ident "x"))]⟩,
         ⟨"g", none, [], [], .blockStmt [.returnStmt (some (.basicLit "1"))]⟩,
         ⟨"h", none, [], [], .blockStmt [.returnStmt (some (.ident "x"))]⟩] []).getD 2 false
      = true ↔
      ∃ j, j < 2 ∧
        bodyHash ([⟨"f", none, [], [], .blockStmt [.returnStmt (some (.ident "x"))]⟩,
          ⟨"g", none, [], [], .blockStmt [.returnStmt (some (.basicLit "1"))]⟩,
          ⟨"h", none, [], [], .blockStmt [.returnStmt (some (.ident "x"))]⟩].getD j defaultDecl)
          = bodyHash (⟨"h", none, [], [], .blockStmt [.returnStmt (some (.ident "x"))]⟩)) :=
  C7_detect_duplication_iff _ 2 (by decide)

/-!
## C10 — duplicate detection is scoped to one file
-/

/-- A placeholder record for out-of-range list indexing. -/
def defaultFC : FunctionCall :=
  ⟨"", "", "", [], [], [], false, "", false, false⟩

theorem runDetector_length (ds : List GoFuncDecl) (seen : SeenMap) :
    (runDetector ds seen).length = ds.length := by
  induction ds generalizing seen with
  | nil => rfl
  | cons d ds ih => simp [runDetector, ih]

theorem findFunctionDecl_self (decls : List GoFuncDecl)
    (hnd : (decls.map funcFullName).Nodup) :
    ∀ d ∈ decls, findFunctionDecl decls (funcFullName d) = some d := by
  induction decls with
  | nil => intro d hd; exact absurd hd (List.not_mem_nil d)
  | cons e es ih =>
      intro d hd
      rcases List.mem_cons.mp hd with rfl | hd'
      · simp [findFunctionDecl, List.find?]
      · have hne : funcFullName e ≠ funcFullName d := by
          intro heq
          have : funcFullName d ∈ es.map funcFullName :=
            List.mem_map.mpr ⟨d, hd', rfl⟩
          rw [← heq] at this
          exact (List.nodup_cons.mp hnd).1 this
        have : (funcFullName e == funcFullName d) = false := by simpa using hne
        simp only [findFunctionDecl, List.find?, this]
        exact ih (List.nodup_cons.mp hnd).2 d hd'

theorem analyzeFileFunctionsLoop_eq (decls : List GoFuncDecl) (path pkg : String) :
    ∀ (suffix : List GoFuncDecl) (seen : SeenMap),
      (∀ d ∈ suffix, findFunctionDecl decls (funcFullName d) = some d) →
      analyzeFileFunctionsLoop decls (suffix.map (extractFunction path pkg)) seen =
        List.zipWith (fun fn flag => if flag then { fn with isDuplicate := true } else fn)
          (suffix.map (extractFunction path pkg)) (runDetector suffix seen) := by
  intro suffix
  induction suffix with
  | nil => intro seen _; rfl
  | cons d ds ih =>
      intro seen hfind
      have hd : findFunctionDecl decls (funcFullName d) = some d :=
        hfind d (List.mem_cons_self d ds)
      have hcaller : (extractFunction path pkg d).caller = funcFullName d := rfl
      simp only [List.map_cons, analyzeFileFunctionsLoop, hcaller, hd, runDetector,
        List.zipWith_cons_cons]
      rw [ih _ (fun e he => hfind e (List.mem_cons_of_mem d he))]

theorem getD_zipWith {α β γ : Type} (f : α → β → γ) (as : List α) (bs : List β)
    (i : Nat) (da : α) (db : β) (dc : γ) (ha : i < as.length) (hb : i < bs.length) :
    (List.zipWith f as bs).getD i dc = f (as.getD i da) (bs.getD i db) := by
  induction as generalizing bs i with
  | nil => exact absurd ha (by simp)
  | cons a as ih =>
      cases bs with
      | nil => exact absurd hb (by simp)
      | cons b bs =>
          match i with
          | 0 => rfl
          | i + 1 =>
              simp only [List.zipWith_cons_cons, List.getD_cons_succ]
              exact ih bs i (by simpa using ha) (by simpa using hb)

/-- C10: `AnalyzeFile` flags duplicates with a detector created fresh for
that call, so a function record is flagged if and only if an *earlier
function of the same file* has the same canonical-body hash; functions in
other files never influence the flag (the statement holds for every file
in isolation, whatever other files are analyzed). -/
theorem C10_duplicate_scoped_to_file (path pkg : String) (decls : List GoFuncDecl)
    (hnd : (decls.map funcFullName).Nodup) (i : Nat) (hi : i < decls.length) :
    (((analyzeFileFunctions path pkg decls).getD i defaultFC).isDuplicate = true ↔
      ∃ j, j < i ∧ bodyHash (decls.getD j defaultDecl) = bodyHash (decls.getD i defaultDecl)) := by
  have hloop := analyzeFileFunctionsLoop_eq decls path pkg decls []
    (findFunctionDecl_self decls hnd)
  rw [analyzeFileFunctions, hloop]
  rw [getD_zipWith _ _ _ i (extractFunction path pkg defaultDecl) false defaultFC
    (by simpa using hi) (by rw [runDetector_length]; exact hi)]
  have hget : (decls.map (extractFunction path pkg)).getD i
      (extractFunction path pkg defaultDecl) = extractFunction path pkg (decls.getD i defaultDecl) := by
    rw [List.getD_map]
  rw [hget]
  have hdup : ∀ (fn : FunctionCall) (flag : Bool), fn.isDuplicate = false →
      ((if flag then { fn with isDuplicate := true } else fn).isDuplicate = true ↔ flag = true) := by
    intro fn flag hfn
    cases flag <;> simp [hfn]
  rw [hdup _ _ rfl]
  exact runDetector_getD_spec decls [] i hi |>.trans (by simp [List.lookup])

/-- Witness for C10: two one-function files with syntactically identical
bodies — the record of the second file's function is not flagged (no
earlier function in its own file shares the hash). -/
theorem C10_duplicate_scoped_to_file_witness :
    (((analyzeFileFunctions "b.go" "q"
        [⟨"g", none, [], [], .blockStmt [.returnStmt (some (.ident "x"))]⟩]).getD 0
        defaultFC).isDuplicate = true ↔
      ∃ j, j < 0 ∧
        bodyHash ([⟨"g", none, [], [], .blockStmt [.returnStmt (some (.ident "x"))]⟩].getD j
          defaultDecl)
          = bodyHash (⟨"g", none, [], [], .blockStmt [.returnStmt (some (.ident "x"))]⟩)) :=
  C10_duplicate_scoped_to_file "b.go" "q"
    [⟨"g", none, [], [], .blockStmt [.returnStmt (some (.ident "x"))]⟩]
    (by decide) 0 (by decide)

/-!
## C3 — the key of the merged call-graph map
-/

theorem lookup_mem {β : Type} {l : List (String × β)} {k : String} {v : β}
    (h : l.lookup k = some v) : (k, v) ∈ l := by
  induction l with
  | nil => exact absurd h (by simp [List.lookup])
  | cons p l ih =>
      rw [List.lookup] at h
      by_cases he : k = p.1
      · rw [show (k == p.1) = true from by simpa using he] at h
        have : p = (k, v) := by
          cases p
          simp_all
        simp [this]
      · rw [show (k == p.1) = false from by simpa using he] at h
        exact List.mem_cons_of_mem p (ih h)

theorem setAssoc_mem {m : FunctionMap} {k : String} {v : FunctionCall} {p : String × FunctionCall}
    (h : p ∈ setAssoc m k v) : p ∈ m ∨ p = (k, v) := by
  unfold setAssoc at h
  by_cases hs : ((m.lookup k).isSome = true)
  · rw [if_pos hs] at h
    rcases List.mem_map.mp h with ⟨q, hq, rfl⟩
    by_cases he : q.1 = k
    · simp [he]
    · simp [he, hq]
  · rw [if_neg hs] at h
    rcases List.mem_append.mp h with hm | hm
    · exact Or.inl hm
    · exact Or.inr (by simpa using hm)

theorem mergeFunctionMap_mem {fns : List FunctionCall} :
    ∀ {m : FunctionMap} {p : String × FunctionCall}, p ∈ mergeFunctionMap m fns →
      p ∈ m ∨ ∃ fc ∈ fns, p = (fc.caller, fc) := by
  induction fns with
  | nil => intro m p h; exact Or.inl h
  | cons fn fns ih =>
      intro m p h
      rw [mergeFunctionMap, List.foldl_cons] at h
      rcases ih h with hm | ⟨fc, hfc, rfl⟩
      · rcases setAssoc_mem hm with hm' | rfl
        · exact Or.inl hm'
        · exact Or.inr ⟨fn, List.mem_cons_self fn fns, rfl⟩
      · exact Or.inr ⟨fc, List.mem_cons_of_mem fn hfc, rfl⟩

theorem analyzeFileFunctionsLoop_callers (decls : List GoFuncDecl) :
    ∀ (fns : List FunctionCall) (seen : SeenMap),
      (analyzeFileFunctionsLoop decls fns seen).map (fun fc => fc.caller) =
        fns.map (fun fc => fc.caller) := by
  intro fns
  induction fns with
  | nil => intro seen; rfl
  | cons fn fns ih =>
      intro seen
      rw [analyzeFileFunctionsLoop]
      cases hfd : findFunctionDecl decls fn.caller with
      | none => simp [ih]
      | some fd =>
          simp only [List.map_cons, ih]
          congr 1
          by_cases hflag : ((DetectDuplication seen fd).1 = true) <;> simp [hflag]

theorem analyzeFileFunctions_caller {path pkg : String} {decls : List GoFuncDecl}
    {fc : FunctionCall} (h : fc ∈ analyzeFileFunctions path pkg decls) :
    ∃ d ∈ decls, fc.caller = funcFullName d := by
  have hcallers := analyzeFileFunctionsLoop_callers decls (decls.map (extractFunction path pkg)) []
  have : fc.caller ∈ (analyzeFileFunctions path pkg decls).map (fun fc => fc.caller) :=
    List.mem_map.mpr ⟨fc, h, rfl⟩
  rw [analyzeFileFunctions, hcallers, List.map_map] at this
  rcases List.mem_map.mp this with ⟨d, hd, hc⟩
  exact ⟨d, hd, hc.symm⟩

/-- One file of input to the directory pipeline: path, package name and
the file's declarations. -/
abbrev FileInput := String × String × List GoFuncDecl

/-- The merged map `GetAnalysis` builds over a list of files (before
recursion/dead-code post-processing). -/
def mergeMapOfFiles (files : List FileInput) : FunctionMap :=
  files.foldl (fun m f => mergeFunctionMap m (analyzeFileFunctions f.1 f.2.1 f.2.2)) []

theorem mergeMapOfFiles_mem {files : List FileInput} :
    ∀ {m : FunctionMap} {p : String × FunctionCall},
      p ∈ files.foldl (fun m f => mergeFunctionMap m (analyzeFileFunctions f.1 f.2.1 f.2.2)) m →
      p ∈ m ∨ ∃ f ∈ files, ∃ fc ∈ analyzeFileFunctions f.1 f.2.1 f.2.2, p = (fc.caller, fc) := by
  induction files with
  | nil => intro m p h; exact Or.inl h
  | cons f fs ih =>
      intro m p h
      rw [List.foldl_cons] at h
      rcases ih h with hm | ⟨g, hg, fc, hfc, rfl⟩
      · rcases mergeFunctionMap_mem hm with hm' | ⟨fc, hfc, rfl⟩
        · exact Or.inl hm'
        · exact Or.inr ⟨f, List.mem_cons_self f fs, fc, hfc, rfl⟩
      · exact Or.inr ⟨g, List.mem_cons_of_mem f hg, fc, hfc, rfl⟩

/-- C3 amended: every key of the merged call-graph map is the
receiver-qualified name of some declaration of some analyzed file —
`ReceiverType.FuncName` for methods, plain `FuncName` otherwise, with no
package prefix — and the stored record's `Caller` field equals its key. -/
theorem C3_amended (files : List FileInput) (k : String) (fc : FunctionCall)
    (h : (mergeMapOfFiles files).lookup k = some fc) :
    fc.caller = k ∧
      ∃ f ∈ files, ∃ d ∈ f.2.2, k = funcFullName d := by
  have hmem := lookup_mem h
  rcases mergeMapOfFiles_mem hmem with hm | ⟨f, hf, fc', hfc', heq⟩
  · exact absurd hm (List.not_mem_nil _)
  · obtain ⟨h1, h2⟩ := Prod.mk.injEq .. ▸ heq
    rcases analyzeFileFunctions_caller hfc' with ⟨d, hd, hcall⟩
    subst h2
    exact ⟨h1.symm, f, hf, d, hd, h1 ▸ hcall⟩

/-- The one-function file `package p; func f() {}` used to refute C3. -/
def c3Decl : GoFuncDecl := ⟨"f", none, [], [], .blockStmt []⟩

/-- C3 counterexample: for `package p; func f() {}` the merged map stores
the record under `"f"`, its `Caller` is `"f"`, and nothing is stored
under the package-qualified `"p.f"`. -/
theorem C3_counterexample :
    (mergeMapOfFiles [("a.go", "p", [c3Decl])]).lookup "f"
        = some (extractFunction "a.go" "p" c3Decl) ∧
      (extractFunction "a.go" "p" c3Decl).caller = "f" ∧
      (mergeMapOfFiles [("a.go", "p", [c3Decl])]).lookup "p.f" = none ∧
      "f" ≠ "p.f" := by
  refine ⟨by decide, by decide, by decide, by decide⟩

/-- Witness for the amended C3 at the counterexample file. -/
theorem C3_amended_witness :
    (extractFunction "a.go" "p" c3Decl).caller = "f" ∧
      ∃ f ∈ [(("a.go", "p", [c3Decl]) : FileInput)], ∃ d ∈ f.2.2, "f" = funcFullName d :=
  C3_amended [("a.go", "p", [c3Decl])] "f" (extractFunction "a.go" "p" c3Decl) (by decide)

/-!
## C8 — a parse failure aborts the whole run
-/

/-- C8 amended: when any analyzed file fails to parse, `GetAnalysis`
aborts: it returns the first file's error and no report at all — it does
not record the failure and continue with the remaining files. -/
theorem C8_parse_failure_aborts (files : List (Except String (List FunctionCall)))
    (e : String) (pre post : List (Except String (List FunctionCall)))
    (hfiles : files = pre ++ .error e :: post)
    (hpre : ∀ r ∈ pre, ∃ fns, r = .ok fns) :
    getAnalysis files = .error e := by
  subst hfiles
  have hcollect : ∀ (acc : FunctionMap),
      collectFiles (pre ++ .error e :: post) acc = .error e := by
    induction pre with
    | nil => intro acc; rfl
    | cons r pre ih =>
        intro acc
        rcases hpre r (List.mem_cons_self r pre) with ⟨fns, rfl⟩
        rw [List.cons_append, collectFiles]
        exact ih (fun r hr => hpre r (List.mem_cons_of_mem _ hr)) _
  rw [getAnalysis, hcollect []]

/-- C8 counterexample: with three files of which the second fails to
parse, `GetAnalysis` returns the error — no report is produced even
though two files analyzed fine. -/
theorem C8_counterexample :
    getAnalysis [.ok [], .error "failed to parse b.go", .ok []]
      = .error "failed to parse b.go" ∧
      ∀ report : AnalysisReport,
        getAnalysis [.ok [], .error "failed to parse b.go", .ok []] ≠ .ok report := by
  constructor
  · rfl
  · intro report h
    have h2 : (Except.error "failed to parse b.go" : Except String AnalysisReport)
        = .ok report := h
    exact Except.noConfusion h2

/-- Witness for the amended C8 at the three-file input. -/
theorem C8_parse_failure_aborts_witness :
    getAnalysis [.ok [], .error "failed to parse b.go", .ok []]
      = .error "failed to parse b.go" :=
  C8_parse_failure_aborts _ "failed to parse b.go" [.ok []] [.ok []] rfl
    (fun r hr => by
      rcases List.mem_singleton.mp hr with rfl
      exact ⟨[], rfl⟩)

/-!
## C6 — dead-code detection
-/

/-- One propagation edge of `markReachable`: `a` is a key whose record
lists `b` as a callee, and `b` contains no dot. -/
def deadStep (fns : FunctionMap) (a b : String) : Prop :=
  ∃ fc, fns.lookup a = some fc ∧ b ∈ fc.callees ∧ (b.data.contains '.') = false

/-- Reachability along propagation edges. -/
def Reaches (fns : FunctionMap) : String → String → Prop :=
  Relation.ReflTransGen (deadStep fns)

/-- The seed set of `DetectDeadCode`: declared entry points together with
exported keys of the map. -/
def deadSeed (fns : FunctionMap) (entryPoints : List String) (s : String) : Prop :=
  s ∈ entryPoints ∨ ((fns.lookup s).isSome = true ∧ isExported s = true)

theorem lookup_isSome_iff_mem_keys {β : Type} (l : List (String × β)) (k : String) :
    ((l.lookup k).isSome = true) ↔ k ∈ l.map Prod.fst := by
  induction l with
  | nil => simp [List.lookup]
  | cons p l ih =>
      rw [List.lookup]
      by_cases he : k = p.1
      · rw [show (k == p.1) = true from by simpa using he]
        simp [he]
      · rw [show (k == p.1) = false from by simpa using he]
        simp [he, ih]

theorem markReachable_mono (fns : FunctionMap) :
    ∀ (fuel : Nat) (f : String) (acc : List String),
      acc ⊆ markReachable fuel f fns acc := by
  intro fuel
  induction fuel with
  | zero => intro f acc; exact fun x hx => hx
  | succ fuel ih =>
      intro f acc
      rw [markReachable]
      by_cases hf : f ∈ acc
      · rw [if_pos hf]; exact fun x hx => hx
      · rw [if_neg hf]
        cases hlk : fns.lookup f with
        | none => exact fun x hx => List.mem_cons_of_mem f hx
        | some fn =>
            have hfold : ∀ (cs : List String) (acc0 : List String),
                acc0 ⊆ cs.foldl (fun a c =>
                  if c.data.contains '.' then a else markReachable fuel c fns a) acc0 := by
              intro cs
              induction cs with
              | nil => intro acc0; exact fun x hx => hx
              | cons c cs ihc =>
                  intro acc0
                  rw [List.foldl_cons]
                  by_cases hc : (c.data.contains '.') = true
                  · rw [if_pos hc]; exact ihc acc0
                  · rw [if_neg hc]
                    exact fun x hx => ihc _ (ih c acc0 hx)
            exact fun x hx => hfold fn.callees (f :: acc) (List.mem_cons_of_mem f hx)

theorem markReachable_foldl_mono (fns : FunctionMap) (fuel : Nat) (cs : List String) :
    ∀ acc0 : List String,
      acc0 ⊆ cs.foldl (fun a c =>
        if c.data.contains '.' then a else markReachable fuel c fns a) acc0 := by
  induction cs with
  | nil => intro acc0; exact fun x hx => hx
  | cons c cs ihc =>
      intro acc0
      rw [List.foldl_cons]
      by_cases hc : (c.data.contains '.') = true
      · rw [if_pos hc]; exact ihc acc0
      · rw [if_neg hc]
        exact fun x hx => ihc _ (markReachable_mono fns fuel c acc0 hx)

theorem markReachable_self_mem (fns : FunctionMap) (fuel : Nat) (f : String)
    (acc : List String) (hfuel : 1 ≤ fuel) :
    f ∈ markReachable fuel f fns acc := by
  match fuel with
  | fuel + 1 =>
      rw [markReachable]
      by_cases hf : f ∈ acc
      · rw [if_pos hf]; exact hf
      · rw [if_neg hf]
        cases hlk : fns.lookup f with
        | none => exact List.mem_cons_self f acc
        | some fn =>
            exact markReachable_foldl_mono fns fuel fn.callees (f :: acc)
              (List.mem_cons_self f acc)

theorem markReachable_sound (fns : FunctionMap) :
    ∀ (fuel : Nat) (f : String) (acc : List String) (x : String),
      x ∈ markReachable fuel f fns acc → x ∈ acc ∨ Reaches fns f x := by
  intro fuel
  induction fuel with
  | zero => intro f acc x hx; exact Or.inl hx
  | succ fuel ih =>
      intro f acc x hx
      rw [markReachable] at hx
      by_cases hf : f ∈ acc
      · rw [if_pos hf] at hx; exact Or.inl hx
      · rw [if_neg hf] at hx
        cases hlk : fns.lookup f with
        | none =>
            rw [hlk] at hx
            rcases List.mem_cons.mp hx with rfl | hx'
            · exact Or.inr Relation.ReflTransGen.refl
            · exact Or.inl hx'
        | some fn =>
            rw [hlk] at hx
            have hfold : ∀ (cs : List String) (acc0 : List String),
                (∀ c ∈ cs, (c.data.contains '.') = false → deadStep fns f c) →
                x ∈ cs.foldl (fun a c =>
                  if c.data.contains '.' then a else markReachable fuel c fns a) acc0 →
                x ∈ acc0 ∨ Reaches fns f x := by
              intro cs
              induction cs with
              | nil => intro acc0 _ hx0; exact Or.inl hx0
              | cons c cs ihc =>
                  intro acc0 hstep hx0
                  rw [List.foldl_cons] at hx0
                  by_cases hc : (c.data.contains '.') = true
                  · rw [if_pos hc] at hx0
                    exact ihc acc0 (fun e he hef => hstep e (List.mem_cons_of_mem c he) hef) hx0
                  · rw [if_neg hc] at hx0
                    rcases ihc _ (fun e he hef => hstep e (List.mem_cons_of_mem c he) hef) hx0
                      with hin | hr
                    · rcases ih c acc0 x hin with hin' | hr'
                      · exact Or.inl hin'
                      · refine Or.inr (Relation.ReflTransGen.head ?_ hr')
                        exact hstep c (List.mem_cons_self c cs) (by simpa using hc)
                    · exact Or.inr hr
            have hx1 := hfold fn.callees (f :: acc)
              (fun c hc hcf => ⟨fn, hlk, hc, hcf⟩) hx
            rcases hx1 with hin | hr
            · rcases List.mem_cons.mp hin with rfl | hin'
              · exact Or.inr Relation.ReflTransGen.refl
              · exact Or.inl hin'
            · exact Or.inr hr

/-- Names that a `markReachable` cascade can ever newly mark while
recursing: keys of the map and callee names. -/
def deadUniv (fns : FunctionMap) : List String :=
  fns.map Prod.fst ++ fns.flatMap (fun p => p.2.callees)

/-- Number of universe entries not yet marked — the quantity each
new mark strictly decreases. -/
def unvisitedCount (fns : FunctionMap) (acc : List String) : Nat :=
  (deadUniv fns).countP (fun u => decide (¬u ∈ acc))

theorem unvisitedCount_anti (fns : FunctionMap) {acc acc' : List String}
    (h : acc ⊆ acc') : unvisitedCount fns acc' ≤ unvisitedCount fns acc := by
  refine List.countP_mono_left ?_
  intro u _ hu
  simp only [decide_eq_true_eq] at hu ⊢
  exact fun hin => hu (h hin)

theorem countP_notmem_insert_lt (acc : List String) (f : String) (hnf : f ∉ acc) :
    ∀ l : List String, f ∈ l →
      l.countP (fun u => decide (¬u ∈ f :: acc)) < l.countP (fun u => decide (¬u ∈ acc)) := by
  have hle : ∀ l : List String,
      l.countP (fun u => decide (¬u ∈ f :: acc)) ≤ l.countP (fun u => decide (¬u ∈ acc)) := by
    intro l
    refine List.countP_mono_left ?_
    intro u _ hu
    simp only [decide_eq_true_eq, List.mem_cons] at hu ⊢
    exact fun hin => hu (Or.inr hin)
  intro l
  induction l with
  | nil => intro hfl; exact absurd hfl (List.not_mem_nil f)
  | cons a l ih =>
      intro hfl
      rw [List.countP_cons, List.countP_cons]
      rcases List.mem_cons.mp hfl with heq | hfl'
      · subst heq
        have h1 : (decide (¬f ∈ f :: acc)) = false := by simp
        have h2 : (decide (¬f ∈ acc)) = true := by simpa using hnf
        rw [h1, h2]
        have := hle l
        simp only [Bool.false_eq_true, if_false, if_true]
        omega
      · have hrec := ih hfl'
        have hcond : (decide (¬a ∈ f :: acc) = true) → (decide (¬a ∈ acc) = true) := by
          simp only [decide_eq_true_eq, List.mem_cons]
          exact fun hu hin => hu (Or.inr hin)
        by_cases ha : (decide (¬a ∈ f :: acc)) = true
        · rw [ha, hcond ha]
          simp only [if_true]
          omega
        · rw [Bool.not_eq_true] at ha
          rw [ha]
          simp only [Bool.false_eq_true, if_false]
          by_cases hb : (decide (¬a ∈ acc)) = true
          · rw [hb]
            simp only [if_true]
            omega
          · rw [Bool.not_eq_true] at hb
            rw [hb]
            simp only [Bool.false_eq_true, if_false]
            omega

theorem unvisitedCount_insert_lt (fns : FunctionMap) {acc : List String} {f : String}
    (hfu : f ∈ deadUniv fns) (hnf : f ∉ acc) :
    unvisitedCount fns (f :: acc) < unvisitedCount fns acc :=
  countP_notmem_insert_lt acc f hnf (deadUniv fns) hfu

theorem key_mem_deadUniv {fns : FunctionMap} {f : String} {fn : FunctionCall}
    (h : fns.lookup f = some fn) : f ∈ deadUniv fns := by
  unfold deadUniv
  refine List.mem_append.mpr (Or.inl ?_)
  exact List.mem_map.mpr ⟨(f, fn), lookup_mem h, rfl⟩

theorem foldMark_mem (fns : FunctionMap) (fuel : Nat) (hfuel : 1 ≤ fuel) :
    ∀ (cs : List String) (acc0 : List String) (c : String), c ∈ cs →
      (c.data.contains '.') = false →
      c ∈ cs.foldl (fun a x =>
        if x.data.contains '.' then a else markReachable fuel x fns a) acc0 := by
  intro cs
  induction cs with
  | nil => intro acc0 c hc; exact absurd hc (List.not_mem_nil c)
  | cons d cs ih =>
      intro acc0 c hc hcf
      rw [List.foldl_cons]
      rcases List.mem_cons.mp hc with rfl | hc'
      · rw [if_neg (show ¬(c.data.contains '.' = true) from by rw [hcf]; exact Bool.false_ne_true)]
        exact markReachable_foldl_mono fns fuel cs _
          (markReachable_self_mem fns fuel c acc0 hfuel)
      · by_cases hd : (d.data.contains '.') = true
        · rw [if_pos hd]; exact ih acc0 c hc' hcf
        · rw [if_neg hd]; exact ih _ c hc' hcf

theorem markReachable_succ_mem {fns : FunctionMap} {fuel : Nat} {f : String}
    {acc : List String} (hf : f ∈ acc) :
    markReachable (fuel + 1) f fns acc = acc := by
  rw [markReachable, if_pos hf]

theorem markReachable_succ_none {fns : FunctionMap} {fuel : Nat} {f : String}
    {acc : List String} (hf : f ∉ acc) (hlk : fns.lookup f = none) :
    markReachable (fuel + 1) f fns acc = f :: acc := by
  rw [markReachable, if_neg hf, hlk]

theorem markReachable_succ_some {fns : FunctionMap} {fuel : Nat} {f : String}
    {acc : List String} {fn : FunctionCall} (hf : f ∉ acc) (hlk : fns.lookup f = some fn) :
    markReachable (fuel + 1) f fns acc =
      fn.callees.foldl
        (fun a c => if c.data.contains '.' then a else markReachable fuel c fns a)
        (f :: acc) := by
  rw [markReachable, if_neg hf, hlk]

theorem markReachable_closed (fns : FunctionMap) :
    ∀ (fuel : Nat) (f : String) (acc : List String),
      unvisitedCount fns acc + 1 < fuel →
      ∀ a ∈ markReachable fuel f fns acc, a ∉ acc →
        ∀ b, deadStep fns a b → b ∈ markReachable fuel f fns acc := by
  intro fuel
  induction fuel with
  | zero => intro f acc hb; omega
  | succ fuel ih =>
      intro f acc hfuel a ha hna b hstep
      by_cases hf : f ∈ acc
      · rw [markReachable_succ_mem hf] at ha
        exact absurd ha hna
      · cases hlk : fns.lookup f with
        | none =>
            rw [markReachable_succ_none hf hlk] at ha
            rcases List.mem_cons.mp ha with rfl | h'
            · obtain ⟨fc, hfc, _, _⟩ := hstep
              rw [hlk] at hfc
              exact absurd hfc (by simp)
            · exact absurd h' hna
        | some fn =>
            rw [markReachable_succ_some hf hlk] at ha ⊢
            have hdec := unvisitedCount_insert_lt fns (key_mem_deadUniv hlk) hf
            have hfuel1 : 1 ≤ fuel := by omega
            have hfold : ∀ (cs : List String) (acc0 : List String),
                unvisitedCount fns acc0 + 1 < fuel →
                ∀ a ∈ cs.foldl (fun x c =>
                    if c.data.contains '.' then x else markReachable fuel c fns x) acc0,
                  a ∉ acc0 → ∀ b, deadStep fns a b →
                    b ∈ cs.foldl (fun x c =>
                      if c.data.contains '.' then x else markReachable fuel c fns x) acc0 := by
              intro cs
              induction cs with
              | nil =>
                  intro acc0 _ a ha0 hna0
                  exact absurd ha0 hna0
              | cons c cs ihc =>
                  intro acc0 hb0 a ha0 hna0 b hstep0
                  rw [List.foldl_cons] at ha0 ⊢
                  by_cases hc : (c.data.contains '.') = true
                  · rw [if_pos hc] at ha0 ⊢
                    exact ihc acc0 hb0 a ha0 hna0 b hstep0
                  · rw [if_neg hc] at ha0 ⊢
                    by_cases ha1 : a ∈ markReachable fuel c fns acc0
                    · have hclosed := ih c acc0 hb0 a ha1 hna0 b hstep0
                      exact markReachable_foldl_mono fns fuel cs _ hclosed
                    · have hb1 : unvisitedCount fns (markReachable fuel c fns acc0) + 1 < fuel := by
                        have := unvisitedCount_anti fns (markReachable_mono fns fuel c acc0)
                        omega
                      exact ihc _ hb1 a ha0 ha1 b hstep0
            by_cases haf : a = f
            · subst haf
              obtain ⟨fc, hfc, hbc, hbf⟩ := hstep
              rw [hlk] at hfc
              obtain rfl : fn = fc := by injection hfc
              exact foldMark_mem fns fuel hfuel1 fn.callees (a :: acc) b hbc hbf
            · have hna' : a ∉ f :: acc := by
                intro hmem
                rcases List.mem_cons.mp hmem with rfl | h'
                · exact haf rfl
                · exact hna h'
              exact hfold fn.callees (f :: acc) (by omega) a ha hna' b hstep

/-- A sequence of `markReachable` calls, as `DetectDeadCode`'s two seed
loops perform them. -/
def runMarks (fuel : Nat) (fns : FunctionMap) : List String → List String → List String
  | [], acc => acc
  | s :: ss, acc => runMarks fuel fns ss (markReachable fuel s fns acc)

theorem runMarks_mono (fuel : Nat) (fns : FunctionMap) :
    ∀ (ss : List String) (acc : List String), acc ⊆ runMarks fuel fns ss acc := by
  intro ss
  induction ss with
  | nil => intro acc; exact fun x hx => hx
  | cons s ss ih =>
      intro acc
      rw [runMarks]
      exact fun x hx => ih _ (markReachable_mono fns fuel s acc hx)

theorem runMarks_seed_mem (fuel : Nat) (fns : FunctionMap) (hfuel : 1 ≤ fuel) :
    ∀ (ss : List String) (acc : List String) (s : String), s ∈ ss →
      s ∈ runMarks fuel fns ss acc := by
  intro ss
  induction ss with
  | nil => intro acc s hs; exact absurd hs (List.not_mem_nil s)
  | cons t ss ih =>
      intro acc s hs
      rw [runMarks]
      rcases List.mem_cons.mp hs with rfl | hs'
      · exact runMarks_mono fuel fns ss _ (markReachable_self_mem fns fuel s acc hfuel)
      · exact ih _ s hs'

theorem runMarks_sound (fuel : Nat) (fns : FunctionMap) :
    ∀ (ss : List String) (acc : List String) (x : String), x ∈ runMarks fuel fns ss acc →
      x ∈ acc ∨ ∃ s ∈ ss, Reaches fns s x := by
  intro ss
  induction ss with
  | nil => intro acc x hx; exact Or.inl hx
  | cons s ss ih =>
      intro acc x hx
      rw [runMarks] at hx
      rcases ih _ x hx with hin | ⟨t, ht, hr⟩
      · rcases markReachable_sound fns fuel s acc x hin with hin' | hr'
        · exact Or.inl hin'
        · exact Or.inr ⟨s, List.mem_cons_self s ss, hr'⟩
      · exact Or.inr ⟨t, List.mem_cons_of_mem s ht, hr⟩

theorem runMarks_closed (fuel : Nat) (fns : FunctionMap) :
    ∀ (ss : List String) (acc : List String), unvisitedCount fns acc + 1 < fuel →
      ∀ a ∈ runMarks fuel fns ss acc, a ∉ acc →
        ∀ b, deadStep fns a b → b ∈ runMarks fuel fns ss acc := by
  intro ss
  induction ss with
  | nil => intro acc _ a ha hna; exact absurd ha hna
  | cons s ss ih =>
      intro acc hb a ha hna b hstep
      rw [runMarks] at ha ⊢
      by_cases ha1 : a ∈ markReachable fuel s fns acc
      · have hclosed := markReachable_closed fns fuel s acc hb a ha1 hna b hstep
        exact runMarks_mono fuel fns ss _ hclosed
      · have hb1 : unvisitedCount fns (markReachable fuel s fns acc) + 1 < fuel := by
          have := unvisitedCount_anti fns (markReachable_mono fns fuel s acc)
          omega
        exact ih _ hb1 a ha ha1 b hstep

/-- The reachable set computed by `DetectDeadCode` equals `runMarks` over
entry points followed by the exported keys. -/
theorem DetectDeadCode_reachable_eq (functions : FunctionMap) (entryPoints : List String) :
    (DetectDeadCode functions entryPoints).reachable =
      runMarks (functions.length + totalCallees functions + 2) functions
        (entryPoints ++ (functions.map Prod.fst).filter (fun k => isExported k)) [] := by
  have hfold1 : ∀ (ss : List String) (acc : List String) (fuel : Nat),
      ss.foldl (fun a e => markReachable fuel e functions a) acc = runMarks fuel functions ss acc := by
    intro ss
    induction ss with
    | nil => intro acc fuel; rfl
    | cons s ss ih => intro acc fuel; rw [List.foldl_cons, runMarks, ih]
  have hfold2 : ∀ (l : FunctionMap) (acc : List String) (fuel : Nat),
      l.foldl (fun a p => if isExported p.1 then markReachable fuel p.1 functions a else a) acc =
        runMarks fuel functions ((l.map Prod.fst).filter (fun k => isExported k)) acc := by
    intro l
    induction l with
    | nil => intro acc fuel; rfl
    | cons p l ih =>
        intro acc fuel
        rw [List.foldl_cons, List.map_cons, List.filter_cons]
        by_cases hp : (isExported p.1 = true)
        · rw [if_pos hp, if_pos hp, runMarks, ih]
        · rw [if_neg hp, if_neg hp, ih]
  have happ : ∀ (s1 s2 : List String) (acc : List String) (fuel : Nat),
      runMarks fuel functions (s1 ++ s2) acc =
        runMarks fuel functions s2 (runMarks fuel functions s1 acc) := by
    intro s1
    induction s1 with
    | nil => intro s2 acc fuel; rfl
    | cons s s1 ih => intro s2 acc fuel; rw [List.cons_append, runMarks, runMarks, ih]
  rw [DetectDeadCode]
  rw [hfold1, hfold2, happ]

theorem length_flatMap_callees (fns : FunctionMap) :
    (fns.flatMap (fun p => p.2.callees)).length = totalCallees fns := by
  induction fns with
  | nil => rfl
  | cons p fns ih =>
      rw [totalCallees, List.map_cons, List.sum_cons, List.flatMap_cons, List.length_append, ih,
        totalCallees]

theorem deadCode_fuel_ok (fns : FunctionMap) :
    unvisitedCount fns [] + 1 < fns.length + totalCallees fns + 2 := by
  have h1 : unvisitedCount fns [] ≤ (deadUniv fns).length := List.countP_le_length _
  have h2 : (deadUniv fns).length = fns.length + totalCallees fns := by
    rw [deadUniv, List.length_append, List.length_map, length_flatMap_callees]
  omega

/-- The reachable set of `DetectDeadCode` is exactly the set of names
reachable from a seed (a declared entry point or an exported key). -/
theorem DetectDeadCode_reachable_iff (functions : FunctionMap) (entryPoints : List String)
    (x : String) :
    x ∈ (DetectDeadCode functions entryPoints).reachable ↔
      ∃ s, deadSeed functions entryPoints s ∧ Reaches functions s x := by
  rw [DetectDeadCode_reachable_eq]
  set fuel := functions.length + totalCallees functions + 2 with hfuel
  set seeds := entryPoints ++ (functions.map Prod.fst).filter (fun k => isExported k) with hseeds
  have hseed_iff : ∀ s, s ∈ seeds ↔ deadSeed functions entryPoints s := by
    intro s
    rw [hseeds, List.mem_append, List.mem_filter, deadSeed, lookup_isSome_iff_mem_keys]
  constructor
  · intro hx
    rcases runMarks_sound fuel functions seeds [] x hx with hin | ⟨s, hs, hr⟩
    · exact absurd hin (List.not_mem_nil x)
    · exact ⟨s, (hseed_iff s).mp hs, hr⟩
  · rintro ⟨s, hs, hr⟩
    have hs' : s ∈ seeds := (hseed_iff s).mpr hs
    have hself : s ∈ runMarks fuel functions seeds [] :=
      runMarks_seed_mem fuel functions (by omega) seeds [] s hs'
    clear hs hs'
    induction hr with
    | refl => exact hself
    | tail h1 h2 ih =>
        exact runMarks_closed fuel functions seeds [] (deadCode_fuel_ok functions) _ ih
          (List.not_mem_nil _) _ h2

/-- Shorthand for a function record with the given caller and callees,
other fields zero-valued. -/
def mkFC (caller : String) (cs : List String) : FunctionCall :=
  ⟨caller, "", "", [], [], cs, false, "", false, false⟩

/-- C6 amended: `DetectDeadCode` lists a name as unused iff it is a key
of the map, it is not reachable — along dot-free callee edges — from any
declared entry point *or exported key* (the code seeds reachability at
every exported function as well), its name is not exported, and it is not
itself an entry point. -/
theorem C6_dead_code_iff (functions : FunctionMap) (entryPoints : List String) (k : String) :
    k ∈ (DetectDeadCode functions entryPoints).unusedFunctions ↔
      (k ∈ functions.map Prod.fst ∧
        ¬(∃ s, deadSeed functions entryPoints s ∧ Reaches functions s k) ∧
        isExported k = false ∧ ¬(k ∈ entryPoints)) := by
  have hunf : (DetectDeadCode functions entryPoints).unusedFunctions =
      functions.filterMap (fun p =>
        if ¬(p.1 ∈ (DetectDeadCode functions entryPoints).reachable) ∧
            ¬isExported p.1 = true ∧ ¬(p.1 ∈ entryPoints)
        then some p.1 else none) := rfl
  rw [hunf, List.mem_filterMap]
  constructor
  · rintro ⟨p, hp, hpk⟩
    by_cases hcond : (¬(p.1 ∈ (DetectDeadCode functions entryPoints).reachable) ∧
        ¬isExported p.1 = true ∧ ¬(p.1 ∈ entryPoints))
    · rw [if_pos hcond] at hpk
      obtain rfl : p.1 = k := by injection hpk
      refine ⟨List.mem_map.mpr ⟨p, hp, rfl⟩, ?_, ?_, hcond.2.2⟩
      · rw [← DetectDeadCode_reachable_iff]
        exact hcond.1
      · simpa using hcond.2.1
    · rw [if_neg hcond] at hpk
      exact absurd hpk (by simp)
  · rintro ⟨hk, hnr, hne, hnent⟩
    rcases List.mem_map.mp hk with ⟨p, hp, rfl⟩
    refine ⟨p, hp, if_pos ⟨?_, by simp [hne], hnent⟩⟩
    rw [DetectDeadCode_reachable_iff]
    exact hnr

/-- The two-function map used to refute C6: exported `F` calls
unexported `g`; the only entry point is `main`. -/
def c6Map : FunctionMap := [("F", mkFC "F" ["g"]), ("g", mkFC "g" [])]

/-- C6 counterexample: `g` is a key, unexported, not an entry point and
unreachable from the entry point `main` — the claim says it must be
listed unused — yet `DetectDeadCode` lists nothing, because reachability
is also seeded at the exported `F`, which calls `g`. -/
theorem C6_counterexample :
    (DetectDeadCode c6Map ["main"]).unusedFunctions = [] ∧
      "g" ∈ c6Map.map Prod.fst ∧ isExported "g" = false ∧ ¬("g" ∈ ["main"]) ∧
      ¬(∃ s ∈ ["main"], Reaches c6Map s "g") := by
  refine ⟨by decide, by decide, by decide, by decide, ?_⟩
  rintro ⟨s, hs, hr⟩
  have hs' : s = "main" := List.mem_singleton.mp hs
  subst hs'
  rcases Relation.ReflTransGen.cases_head hr with heq | ⟨c, hstep, _⟩
  · exact absurd heq (by decide)
  · obtain ⟨fc, hlk, _, _⟩ := hstep
    have hnone : (c6Map.lookup "main") = none := by decide
    rw [hnone] at hlk
    exact Option.noConfusion hlk

/-!
## C1 — a direct self-call marks the function recursive

The proof tracks two invariants through `detectRecursion`: the map's
values only ever change by raising `IsRecursive` (`Good`), and once a
key's record is stored raised it stays raised (`LockedAt`), because every
store the algorithm performs writes a raised copy of the original record.
-/

theorem raiseRec_idem (fc : FunctionCall) : raiseRec (raiseRec fc) = raiseRec fc := rfl

theorem raiseRec_callees (fc : FunctionCall) : (raiseRec fc).callees = fc.callees := rfl

/-- The current map is the original with `IsRecursive` raised on some
entries: keys and positions coincide, values agree up to `raiseRec`. -/
def Good (orig cur : FunctionMap) : Prop :=
  List.Forall₂ (fun p q => q.1 = p.1 ∧ (q.2 = p.2 ∨ q.2 = raiseRec p.2)) orig cur

/-- The record of `k` is stored raised (whenever `k` is a key at all). -/
def LockedAt (orig cur : FunctionMap) (k : String) : Prop :=
  ∀ fc, orig.lookup k = some fc → cur.lookup k = some (raiseRec fc)

theorem good_refl (orig : FunctionMap) : Good orig orig := by
  induction orig with
  | nil => exact List.Forall₂.nil
  | cons p l ih => exact List.Forall₂.cons ⟨rfl, Or.inl rfl⟩ ih

theorem good_keys {orig cur : FunctionMap} (h : Good orig cur) :
    cur.map Prod.fst = orig.map Prod.fst := by
  induction h with
  | nil => rfl
  | cons hpq _ ih => simp [ih, hpq.1]

theorem good_lookup {orig cur : FunctionMap} (h : Good orig cur) {k : String}
    {fc : FunctionCall} (hlk : orig.lookup k = some fc) :
    cur.lookup k = some fc ∨ cur.lookup k = some (raiseRec fc) := by
  induction h with
  | nil => exact absurd hlk (by simp [List.lookup])
  | cons hpq hrest ih =>
      rename_i p q l l'
      rw [List.lookup] at hlk
      by_cases he : k = p.1
      · rw [show (k == p.1) = true from by simpa using he] at hlk
        obtain rfl : p.2 = fc := by injection hlk
        rw [List.lookup, show (k == q.1) = true from by simpa [hpq.1] using he]
        rcases hpq.2 with h2 | h2
        · exact Or.inl (by rw [h2])
        · exact Or.inr (by rw [h2])
      · rw [show (k == p.1) = false from by simpa using he] at hlk
        rw [List.lookup, show (k == q.1) = false from by simpa [hpq.1] using he]
        exact ih hlk

theorem good_lookup_rev {orig cur : FunctionMap} (h : Good orig cur) {k : String}
    {fc : FunctionCall} (hlk : cur.lookup k = some fc) :
    ∃ fc0, orig.lookup k = some fc0 ∧ (fc = fc0 ∨ fc = raiseRec fc0) := by
  induction h with
  | nil => exact absurd hlk (by simp [List.lookup])
  | cons hpq hrest ih =>
      rename_i p q l l'
      rw [List.lookup] at hlk
      by_cases he : k = q.1
      · rw [show (k == q.1) = true from by simpa using he] at hlk
        obtain rfl : q.2 = fc := by injection hlk
        rw [List.lookup, show (k == p.1) = true from by simpa [← hpq.1] using he]
        exact ⟨p.2, rfl, hpq.2⟩
      · rw [show (k == q.1) = false from by simpa using he] at hlk
        rw [List.lookup, show (k == p.1) = false from by simpa [← hpq.1] using he]
        exact ih hlk

theorem good_lookup_none {orig cur : FunctionMap} (h : Good orig cur) {k : String}
    (hlk : orig.lookup k = none) : cur.lookup k = none := by
  cases hcur : cur.lookup k with
  | none => rfl
  | some fc =>
      rcases good_lookup_rev h hcur with ⟨fc0, hfc0, _⟩
      rw [hlk] at hfc0
      exact Option.noConfusion hfc0

theorem updateAssoc_lookup_self {β : Type} {l : List (String × β)} {k : String}
    (v : β) (h : (l.lookup k).isSome = true) :
    (updateAssoc l k v).lookup k = some v := by
  induction l with
  | nil => exact absurd h (by simp [List.lookup])
  | cons p l ih =>
      rw [List.lookup] at h
      rw [updateAssoc, List.map_cons]
      by_cases he : k = p.1
      · rw [if_pos he.symm, List.lookup, show (k == k) = true from by simp]
      · rw [if_neg (Ne.symm he), List.lookup,
          show (k == p.1) = false from by simpa using he]
        rw [show (k == p.1) = false from by simpa using he] at h
        exact ih h

theorem updateAssoc_lookup_other {β : Type} {l : List (String × β)} {k k' : String}
    (v : β) (h : k' ≠ k) :
    (updateAssoc l k v).lookup k' = l.lookup k' := by
  induction l with
  | nil => rfl
  | cons p l ih =>
      rw [updateAssoc, List.map_cons]
      by_cases he : p.1 = k
      · rw [if_pos he, List.lookup, List.lookup,
          show (k' == k) = false from by simpa using h,
          show (k' == p.1) = false from by simpa [he] using h]
        exact ih
      · rw [if_neg he, List.lookup, List.lookup]
        by_cases he' : k' = p.1
        · rw [show (k' == p.1) = true from by simpa using he']
        · rw [show (k' == p.1) = false from by simpa using he']
          exact ih

theorem updateAssoc_not_mem {β : Type} {l : List (String × β)} {k : String} (v : β)
    (h : ¬k ∈ l.map Prod.fst) : updateAssoc l k v = l := by
  induction l with
  | nil => rfl
  | cons p l ih =>
      rw [List.map_cons] at h
      simp only [updateAssoc, List.map_cons]
      rw [if_neg (fun he => h (List.mem_cons.mpr (Or.inl he.symm)))]
      have ht : updateAssoc l k v = l := ih (fun hm => h (List.mem_cons.mpr (Or.inr hm)))
      rw [updateAssoc] at ht
      rw [ht]

theorem good_update {orig cur : FunctionMap} (hnd : (orig.map Prod.fst).Nodup)
    (h : Good orig cur) {k : String} {fc : FunctionCall}
    (hlk : orig.lookup k = some fc) :
    Good orig (updateAssoc cur k (raiseRec fc)) := by
  induction h with
  | nil => exact absurd hlk (by simp [List.lookup])
  | cons hpq hrest ih =>
      rename_i p q l l'
      rw [List.map_cons, List.nodup_cons] at hnd
      rw [List.lookup] at hlk
      simp only [updateAssoc, List.map_cons]
      by_cases he : k = p.1
      · rw [show (k == p.1) = true from by simpa using he] at hlk
        obtain rfl : p.2 = fc := by injection hlk
        rw [if_pos (hpq.1.trans he.symm)]
        refine List.Forall₂.cons ⟨he, Or.inr rfl⟩ ?_
        have hnot : ¬k ∈ l'.map Prod.fst := by
          rw [good_keys hrest]
          exact fun hm => hnd.1 (he ▸ hm)
        have ht := updateAssoc_not_mem (raiseRec p.2) hnot
        rw [updateAssoc] at ht
        rw [ht]
        exact hrest
      · rw [show (k == p.1) = false from by simpa using he] at hlk
        rw [if_neg (fun hh => he ((hpq.1.symm.trans hh).symm))]
        exact List.Forall₂.cons hpq (ih hnd.2 hlk)

theorem lockedAt_store_self {orig cur : FunctionMap} (hGood : Good orig cur) {k : String}
    {fc : FunctionCall} (hlk : orig.lookup k = some fc) :
    LockedAt orig (updateAssoc cur k (raiseRec fc)) k := by
  intro fc0 hfc0
  obtain rfl : fc = fc0 := by rw [hlk] at hfc0; injection hfc0
  refine updateAssoc_lookup_self (raiseRec fc) ?_
  rcases good_lookup hGood hlk with h | h <;> rw [h] <;> rfl

theorem lockedAt_store_other {orig cur : FunctionMap} {k k' : String}
    {fc' : FunctionCall} (h : LockedAt orig cur k) (hGood : Good orig cur)
    (hk' : orig.lookup k' = some fc') :
    LockedAt orig (updateAssoc cur k' (raiseRec fc')) k := by
  by_cases he : k = k'
  · subst he
    exact lockedAt_store_self hGood hk'
  · intro fc hfc
    rw [updateAssoc_lookup_other _ he]
    exact h fc hfc

theorem map_fst_map_preserve {β : Type} (l : List (String × β))
    (f : String × β → String × β) (hf : ∀ p, (f p).1 = p.1) :
    (l.map f).map Prod.fst = l.map Prod.fst := by
  induction l with
  | nil => rfl
  | cons p l ih => rw [List.map_cons, List.map_cons, List.map_cons, hf, ih]

/-- A node has been visited (`recData` membership). -/
def memRD (s : TarjanState) (k : String) : Prop :=
  (s.recData.lookup k).isSome = true

/-- A key that directly lists itself as a callee. -/
def selfLoopKey (orig : FunctionMap) (k : String) : Prop :=
  ∃ fc, orig.lookup k = some fc ∧ k ∈ fc.callees

theorem updateLowlinkMin_functions (s : TarjanState) (k : String) (v : Nat) :
    (updateLowlinkMin s k v).functions = s.functions := rfl

theorem updateLowlinkMin_memRD (s : TarjanState) (k : String) (v : Nat) (k' : String) :
    memRD (updateLowlinkMin s k v) k' ↔ memRD s k' := by
  unfold memRD updateLowlinkMin
  rw [lookup_isSome_iff_mem_keys, lookup_isSome_iff_mem_keys,
    map_fst_map_preserve _ _ (fun p => by by_cases h : p.1 = k <;> simp [h])]

theorem markNotInStack_map_fst (rd : List (String × FunctionNode)) (n : String) :
    (markNotInStack rd n).map Prod.fst = rd.map Prod.fst := by
  unfold markNotInStack
  exact map_fst_map_preserve _ _ (fun p => by by_cases h : p.1 = n <;> simp [h])

theorem popLoop_recData_fst (caller : String) :
    ∀ (st : List String) (rd : List (String × FunctionNode)),
      ((popLoop caller st rd).2.2).map Prod.fst = rd.map Prod.fst := by
  intro st
  induction st with
  | nil => intro rd; rfl
  | cons n rest ih =>
      intro rd
      rw [popLoop]
      by_cases he : n = caller
      · rw [if_pos he]
        exact markNotInStack_map_fst rd n
      · rw [if_neg he]
        have := ih (markNotInStack rd n)
        rw [this, markNotInStack_map_fst]

theorem raiseStep_none {fs : FunctionMap} {n : String} (hl : fs.lookup n = none) :
    raiseStep fs n = fs := by
  simp [raiseStep, hl]

theorem raiseStep_some {fs : FunctionMap} {n : String} {fc : FunctionCall}
    (hl : fs.lookup n = some fc) :
    raiseStep fs n = updateAssoc fs n (raiseRec fc) := by
  simp [raiseStep, hl]

theorem raiseFold_good {orig : FunctionMap} (hnd : (orig.map Prod.fst).Nodup) :
    ∀ (ns : List String) (fs : FunctionMap), Good orig fs →
      Good orig (ns.foldl raiseStep fs) ∧
      (∀ k, LockedAt orig fs k → LockedAt orig (ns.foldl raiseStep fs) k) := by
  intro ns
  induction ns with
  | nil => intro fs h; exact ⟨h, fun k hk => hk⟩
  | cons n ns ih =>
      intro fs h
      rw [List.foldl_cons]
      cases hl : fs.lookup n with
      | none =>
          rw [raiseStep_none hl]
          exact ih fs h
      | some fc =>
          rcases good_lookup_rev h hl with ⟨fc0, hfc0, hcase⟩
          have hraise : raiseRec fc = raiseRec fc0 := by
            rcases hcase with rfl | rfl
            · rfl
            · exact raiseRec_idem fc0
          rw [raiseStep_some hl, hraise]
          have hGood' := good_update hnd h hfc0
          refine ⟨(ih _ hGood').1, fun k hk => (ih _ hGood').2 k ?_⟩
          exact lockedAt_store_other hk h hfc0

theorem popSCC_good {orig : FunctionMap} (hnd : (orig.map Prod.fst).Nodup)
    {caller : String} {s : TarjanState} (h : Good orig s.functions) :
    Good orig (popSCC caller s).functions := by
  rw [popSCC]
  by_cases hlen : 1 < (popLoop caller s.stack s.recData).1.length
  · simpa [hlen] using (raiseFold_good hnd _ s.functions h).1
  · simpa [hlen] using h

theorem popSCC_locked {orig : FunctionMap} (hnd : (orig.map Prod.fst).Nodup)
    {caller : String} {s : TarjanState} (h : Good orig s.functions) (k : String)
    (hk : LockedAt orig s.functions k) :
    LockedAt orig (popSCC caller s).functions k := by
  rw [popSCC]
  by_cases hlen : 1 < (popLoop caller s.stack s.recData).1.length
  · simpa [hlen] using (raiseFold_good hnd _ s.functions h).2 k hk
  · simpa [hlen] using hk

theorem popSCC_memRD {caller : String} {s : TarjanState} (k : String) :
    memRD (popSCC caller s) k ↔ memRD s k := by
  rw [popSCC]
  unfold memRD
  rw [lookup_isSome_iff_mem_keys, lookup_isSome_iff_mem_keys]
  by_cases hlen : 1 < (popLoop caller s.stack s.recData).1.length <;>
    simp [hlen, popLoop_recData_fst]

theorem lookup_cons_self {β : Type} (k : String) (v : β) (l : List (String × β)) :
    List.lookup k ((k, v) :: l) = some v := by
  rw [List.lookup, show (k == k) = true from by simp]

theorem lookup_cons_ne {β : Type} {k k' : String} (v : β) (l : List (String × β))
    (h : k ≠ k') : List.lookup k ((k', v) :: l) = List.lookup k l := by
  rw [List.lookup, show (k == k') = false from by simpa using h]

/-- What one pass of the algorithm guarantees between two states: the map
stays a raised copy of the original, raised records stay raised, visited
nodes stay visited, and any key with a self-loop that gets visited during
the pass ends up stored raised. -/
def StepsOk (orig : FunctionMap) (s0 s1 : TarjanState) : Prop :=
  Good orig s1.functions ∧
  (∀ k, LockedAt orig s0.functions k → LockedAt orig s1.functions k) ∧
  (∀ k, memRD s0 k → memRD s1 k) ∧
  (∀ k, selfLoopKey orig k → ¬memRD s0 k → memRD s1 k → LockedAt orig s1.functions k)

theorem stepsOk_refl {orig : FunctionMap} {s : TarjanState}
    (h : Good orig s.functions) : StepsOk orig s s :=
  ⟨h, fun _ hk => hk, fun _ hk => hk, fun _ _ h0 h2 => absurd h2 h0⟩

theorem stepsOk_trans {orig : FunctionMap} {s0 s1 s2 : TarjanState}
    (a : StepsOk orig s0 s1) (b : StepsOk orig s1 s2) : StepsOk orig s0 s2 := by
  refine ⟨b.1, fun k hk => b.2.1 k (a.2.1 k hk), fun k hk => b.2.2.1 k (a.2.2.1 k hk), ?_⟩
  intro k hsl h0 h2
  by_cases h1 : memRD s1 k
  · exact b.2.1 k (a.2.2.2 k hsl h0 h1)
  · exact b.2.2.2 k hsl h1 h2

theorem stepsOk_updateLowlinkMin {orig : FunctionMap} {s : TarjanState}
    (h : Good orig s.functions) (k : String) (v : Nat) :
    StepsOk orig s (updateLowlinkMin s k v) := by
  refine ⟨?_, ?_, ?_, ?_⟩
  · rw [updateLowlinkMin_functions]; exact h
  · intro k' hk; rw [updateLowlinkMin_functions]; exact hk
  · intro k' hk; exact (updateLowlinkMin_memRD s k v k').mpr hk
  · intro k' _ h0 h2; exact absurd ((updateLowlinkMin_memRD s k v k').mp h2) h0

theorem stepsOk_popSCC {orig : FunctionMap} (hnd : (orig.map Prod.fst).Nodup)
    {caller : String} {s : TarjanState} (h : Good orig s.functions) :
    StepsOk orig s (popSCC caller s) :=
  ⟨popSCC_good hnd h, fun k hk => popSCC_locked hnd h k hk,
   fun k hk => (popSCC_memRD k).mpr hk,
   fun k _ h0 h2 => absurd ((popSCC_memRD k).mp h2) h0⟩

theorem calleeStep_ne_none {visit : String → TarjanState → TarjanState}
    {caller : String} {fnSnap : FunctionCall} {st : TarjanState} {c : String}
    (hc : c ≠ caller) (h : st.recData.lookup c = none) :
    ∃ cl, calleeStep visit caller fnSnap st c = updateLowlinkMin (visit c st) caller cl :=
  ⟨(match (visit c st).recData.lookup c with
    | some d => d.lowlink
    | none => 0),
   by simp only [calleeStep, if_neg hc, h]⟩

/-- What the algorithm guarantees for one call of the `tarjan` closure
with the given fuel (plus: with positive fuel the visited node enters
`recData`). -/
def TVSpec (orig : FunctionMap) (fuel : Nat) : Prop :=
  ∀ (c : String) (s : TarjanState), Good orig s.functions →
    StepsOk orig s (tarjanVisit fuel c s) ∧
    (1 ≤ fuel → memRD (tarjanVisit fuel c s) c)

theorem calleeStep_ok {orig : FunctionMap} (hnd : (orig.map Prod.fst).Nodup)
    {fuel : Nat} (ihT : TVSpec orig fuel) {caller : String}
    {fnSnap fc0 : FunctionCall} (hsnap : orig.lookup caller = some fc0)
    (hraise : raiseRec fnSnap = raiseRec fc0) (s0 : TarjanState) (c : String)
    (h : Good orig s0.functions) :
    StepsOk orig s0 (calleeStep (tarjanVisit fuel) caller fnSnap s0 c) ∧
    (c = caller →
      LockedAt orig (calleeStep (tarjanVisit fuel) caller fnSnap s0 c).functions caller) := by
  by_cases hc : c = caller
  · subst hc
    have he : calleeStep (tarjanVisit fuel) c fnSnap s0 c =
        ⟨updateAssoc s0.functions c (raiseRec fc0), s0.index, s0.stack, s0.recData⟩ := by
      rw [calleeStep, if_pos rfl, hraise]
    rw [he]
    refine ⟨⟨good_update hnd h hsnap, ?_, ?_, ?_⟩, ?_⟩
    · intro k hk
      exact lockedAt_store_other hk h hsnap
    · intro k hk; exact hk
    · intro k _ h0 h2; exact absurd h2 h0
    · intro _; exact lockedAt_store_self h hsnap
  · refine ⟨?_, fun hcc => absurd hcc hc⟩
    cases hrd : s0.recData.lookup c with
    | none =>
        obtain ⟨cl, he⟩ := calleeStep_ne_none hc hrd
        rw [he]
        have h1 := ihT c s0 h
        exact stepsOk_trans h1.1 (stepsOk_updateLowlinkMin h1.1.1 caller cl)
    | some d =>
        by_cases hin : d.inStack = true
        · have he : calleeStep (tarjanVisit fuel) caller fnSnap s0 c =
              updateLowlinkMin s0 caller d.index := by
            simp only [calleeStep, if_neg hc, hrd, hin, if_true]
          rw [he]
          exact stepsOk_updateLowlinkMin h caller d.index
        · have he : calleeStep (tarjanVisit fuel) caller fnSnap s0 c = s0 := by
            simp only [calleeStep, if_neg hc, hrd,
              show d.inStack = false from by simpa using hin,
              Bool.false_eq_true, if_false]
          rw [he]
          exact stepsOk_refl h

theorem calleeFold_ok {orig : FunctionMap} (hnd : (orig.map Prod.fst).Nodup)
    {fuel : Nat} (ihT : TVSpec orig fuel) {caller : String}
    {fnSnap fc0 : FunctionCall} (hsnap : orig.lookup caller = some fc0)
    (hraise : raiseRec fnSnap = raiseRec fc0) :
    ∀ (cs : List String) (s0 : TarjanState), Good orig s0.functions →
      StepsOk orig s0 (cs.foldl (calleeStep (tarjanVisit fuel) caller fnSnap) s0) ∧
      (caller ∈ cs →
        LockedAt orig
          (cs.foldl (calleeStep (tarjanVisit fuel) caller fnSnap) s0).functions caller) := by
  intro cs
  induction cs with
  | nil =>
      intro s0 h
      exact ⟨stepsOk_refl h, fun hm => absurd hm (List.not_mem_nil caller)⟩
  | cons c cs ih =>
      intro s0 h
      rw [List.foldl_cons]
      obtain ⟨hstep, hlockc⟩ := calleeStep_ok hnd ihT hsnap hraise s0 c h
      obtain ⟨hrest, hlockrest⟩ := ih _ hstep.1
      refine ⟨stepsOk_trans hstep hrest, ?_⟩
      intro hm
      rcases List.mem_cons.mp hm with he | hm'
      · exact hrest.2.1 caller (hlockc he.symm)
      · exact hlockrest hm'

theorem tarjanVisit_ok {orig : FunctionMap} (hnd : (orig.map Prod.fst).Nodup) :
    ∀ fuel : Nat, TVSpec orig fuel := by
  intro fuel
  induction fuel with
  | zero =>
      intro c s h
      exact ⟨stepsOk_refl h, fun h1 => absurd h1 (by omega)⟩
  | succ fuel ih =>
      intro c s h
      set s1 : TarjanState :=
        ⟨s.functions, s.index + 1, c :: s.stack,
          (c, ⟨s.index, s.index, true⟩) :: s.recData⟩ with hs1
      have hm1 : memRD s1 c := by
        unfold memRD
        simp only [hs1]
        rw [lookup_cons_self]
        rfl
      have hmono1 : ∀ k, memRD s k → memRD s1 k := by
        intro k hk
        unfold memRD at hk ⊢
        simp only [hs1]
        by_cases hkc : k = c
        · subst hkc; rw [lookup_cons_self]; rfl
        · rw [lookup_cons_ne _ _ hkc]; exact hk
      have hback1 : ∀ k, k ≠ c → memRD s1 k → memRD s k := by
        intro k hkc hk
        unfold memRD at hk ⊢
        simp only [hs1] at hk
        rw [lookup_cons_ne _ _ hkc] at hk
        exact hk
      cases hlk : s.functions.lookup c with
      | none =>
          have heq : tarjanVisit (fuel + 1) c s = popSCC c s1 := by
            rw [hs1]
            simp only [tarjanVisit, hlk]
            rw [lookup_cons_self]
            show (if s.index = s.index then _ else _) = _
            rw [if_pos rfl]
          rw [heq]
          have hpop := @stepsOk_popSCC orig hnd c s1 h
          refine ⟨⟨hpop.1, ?_, ?_, ?_⟩, fun _ => (popSCC_memRD c).mpr hm1⟩
          · intro k hk
            exact hpop.2.1 k hk
          · intro k hk
            exact hpop.2.2.1 k (hmono1 k hk)
          · intro k hsl h0 h2
            have hk1 : memRD s1 k := (popSCC_memRD k).mp h2
            have hkc : k = c := by
              by_contra hkc
              exact h0 (hback1 k hkc hk1)
            subst hkc
            obtain ⟨fc', hfc', _⟩ := hsl
            rcases good_lookup h hfc' with hcur | hcur <;>
              rw [hlk] at hcur <;> exact Option.noConfusion hcur
      | some fn =>
          obtain ⟨fc0, hfc0, hcase⟩ := good_lookup_rev h hlk
          have hraise : raiseRec fn = raiseRec fc0 := by
            rcases hcase with rfl | rfl
            · rfl
            · exact raiseRec_idem fc0
          set s2 : TarjanState :=
            fn.callees.foldl (calleeStep (tarjanVisit fuel) c fn) s1 with hs2
          have heq : tarjanVisit (fuel + 1) c s =
              match s2.recData.lookup c with
              | some rc => if rc.lowlink = rc.index then popSCC c s2 else s2
              | none => s2 := by
            rw [hs2, hs1]
            simp only [tarjanVisit, hlk]
          have hfold := calleeFold_ok hnd ih hfc0 hraise fn.callees s1
            (h : Good orig s1.functions)
          have hfin : ∀ t : TarjanState, StepsOk orig s2 t →
              StepsOk orig s t ∧ (1 ≤ fuel + 1 → memRD t c) := by
            intro t ht
            refine ⟨⟨ht.1, ?_, ?_, ?_⟩, fun _ => ht.2.2.1 c (hfold.1.2.2.1 c hm1)⟩
            · intro k hk
              exact ht.2.1 k (hfold.1.2.1 k hk)
            · intro k hk
              exact ht.2.2.1 k (hfold.1.2.2.1 k (hmono1 k hk))
            · intro k hsl h0 h2
              by_cases hkc : k = c
              · subst hkc
                obtain ⟨fc', hfc', hmem⟩ := hsl
                obtain rfl : fc0 = fc' := by rw [hfc0] at hfc'; injection hfc'
                have hmemfn : k ∈ fn.callees := by
                  rcases hcase with rfl | rfl
                  · exact hmem
                  · rw [raiseRec_callees]; exact hmem
                exact ht.2.1 k (hfold.2 hmemfn)
              · have h1 : ¬memRD s1 k := fun hm => h0 (hback1 k hkc hm)
                by_cases h2' : memRD s2 k
                · exact ht.2.1 k (hfold.1.2.2.2 k hsl h1 h2')
                · exact ht.2.2.2 k hsl h2' h2
          rw [heq]
          cases hrd : s2.recData.lookup c with
          | none => exact hfin s2 (stepsOk_refl hfold.1.1)
          | some rc =>
              show StepsOk orig s (if rc.lowlink = rc.index then popSCC c s2 else s2) ∧
                (1 ≤ fuel + 1 →
                  memRD (if rc.lowlink = rc.index then popSCC c s2 else s2) c)
              by_cases hif : rc.lowlink = rc.index
              · rw [if_pos hif]
                exact hfin (popSCC c s2) (stepsOk_popSCC hnd hfold.1.1)
              · rw [if_neg hif]
                exact hfin s2 (stepsOk_refl hfold.1.1)

theorem mainLoop_ok {orig : FunctionMap} (hnd : (orig.map Prod.fst).Nodup)
    (fuel : Nat) (hfuel : 1 ≤ fuel) :
    ∀ (ks : List String) (s : TarjanState), Good orig s.functions →
      (∀ k, selfLoopKey orig k → memRD s k → LockedAt orig s.functions k) →
      Good orig (ks.foldl (fun s k =>
          match s.recData.lookup k with
          | some _ => s
          | none => tarjanVisit fuel k s) s).functions ∧
      (∀ k, LockedAt orig s.functions k →
        LockedAt orig (ks.foldl (fun s k =>
          match s.recData.lookup k with
          | some _ => s
          | none => tarjanVisit fuel k s) s).functions k) ∧
      (∀ k, k ∈ ks → selfLoopKey orig k →
        LockedAt orig (ks.foldl (fun s k =>
          match s.recData.lookup k with
          | some _ => s
          | none => tarjanVisit fuel k s) s).functions k) := by
  intro ks
  induction ks with
  | nil =>
      intro s hGood hinv
      exact ⟨hGood, fun _ hk => hk, fun k hm _ => absurd hm (List.not_mem_nil k)⟩
  | cons k ks ih =>
      intro s hGood hinv
      rw [List.foldl_cons]
      cases hrd : s.recData.lookup k with
      | some d =>
          obtain ⟨G, L, P⟩ := ih s hGood hinv
          refine ⟨G, L, ?_⟩
          intro k0 hm hsl
          rcases List.mem_cons.mp hm with rfl | hm'
          · have hmrd : memRD s k0 := by unfold memRD; rw [hrd]; rfl
            exact L k0 (hinv k0 hsl hmrd)
          · exact P k0 hm' hsl
      | none =>
          have hT := tarjanVisit_ok hnd fuel k s hGood
          have hnotm : ¬memRD s k := by unfold memRD; rw [hrd]; simp
          have hinv' : ∀ k0, selfLoopKey orig k0 → memRD (tarjanVisit fuel k s) k0 →
              LockedAt orig (tarjanVisit fuel k s).functions k0 := by
            intro k0 hsl hm
            by_cases hm0 : memRD s k0
            · exact hT.1.2.1 k0 (hinv k0 hsl hm0)
            · exact hT.1.2.2.2 k0 hsl hm0 hm
          obtain ⟨G, L, P⟩ := ih (tarjanVisit fuel k s) hT.1.1 hinv'
          refine ⟨G, fun k0 hk => L k0 (hT.1.2.1 k0 hk), ?_⟩
          intro k0 hm hsl
          rcases List.mem_cons.mp hm with rfl | hm'
          · exact L k0 (hT.1.2.2.2 k0 hsl hnotm (hT.2 hfuel))
          · exact P k0 hm' hsl

/-- **C1.** If a record's callee list contains its own key (a direct
self-call), then after `detectRecursion` the record stored under that key
has `IsRecursive = true` — indeed it is exactly the original record with
the flag raised — regardless of the size of its strongly connected
component (the hypothesis asks nothing of the other entries). -/
theorem C1_self_call_marks_recursive (functions : FunctionMap)
    (hnd : (functions.map Prod.fst).Nodup) (k : String) (fc : FunctionCall)
    (hlk : functions.lookup k = some fc) (hself : k ∈ fc.callees) :
    (detectRecursion functions).lookup k = some (raiseRec fc) ∧
    (raiseRec fc).isRecursive = true := by
  have hinv0 : ∀ k', selfLoopKey functions k' →
      memRD (⟨functions, 0, [], []⟩ : TarjanState) k' →
      LockedAt functions (⟨functions, 0, [], []⟩ : TarjanState).functions k' := by
    intro k' _ hm
    exact absurd hm (by unfold memRD; simp [List.lookup])
  have hmain := mainLoop_ok hnd (functions.length + totalCallees functions + 1)
    (by omega) (functions.map (fun p => p.1)) ⟨functions, 0, [], []⟩
    (good_refl functions) hinv0
  have hmem : k ∈ functions.map (fun p => p.1) :=
    List.mem_map.mpr ⟨(k, fc), lookup_mem hlk, rfl⟩
  have hlock := hmain.2.2 k hmem ⟨fc, hlk, hself⟩
  exact ⟨hlock fc hlk, rfl⟩

theorem C1_self_call_marks_recursive_witness :
    (detectRecursion [("f", mkFC "f" ["f"])]).lookup "f" =
      some (raiseRec (mkFC "f" ["f"])) ∧
    (raiseRec (mkFC "f" ["f"])).isRecursive = true :=
  C1_self_call_marks_recursive [("f", mkFC "f" ["f"])] (by decide) "f"
    (mkFC "f" ["f"]) (by decide) (by decide)

/-!
## C2 — Tarjan marks exactly the nontrivial strongly connected components

The development below proves full functional correctness of
`detectRecursion`'s SCC detection: every member of a cycle through at
least two nodes is marked recursive, and a node in a singleton component
with no self-loop keeps its original record.  The invariants follow the
classical correctness argument for Tarjan's algorithm: the stack is
ordered by discovery index, every stack node can reach the innermost
active caller, lowlinks are justified by real paths, and popped segments
are closed under mutual reachability.
-/

/-- The call-graph edge relation of the input map. -/
def callEdge (orig : FunctionMap) (a b : String) : Prop :=
  ∃ fc, orig.lookup a = some fc ∧ b ∈ fc.callees

/-- Reachability along call edges. -/
def callReach (orig : FunctionMap) : String → String → Prop :=
  Relation.ReflTransGen (callEdge orig)

/-- Two nodes on a common cycle (mutually reachable). -/
def CallMate (orig : FunctionMap) (a b : String) : Prop :=
  callReach orig a b ∧ callReach orig b a

/-- Membership in a strongly connected component of size at least two. -/
def NontrivMate (orig : FunctionMap) (k : String) : Prop :=
  ∃ j, j ≠ k ∧ CallMate orig k j

/-- The record stored under `k` carries `IsRecursive = true`. -/
def raisedIn (fs : FunctionMap) (k : String) : Prop :=
  ∃ fc, fs.lookup k = some fc ∧ fc.isRecursive = true

/-- Discovery index of a visited node (0 when unvisited). -/
def idxN (s : TarjanState) (k : String) : Nat :=
  match s.recData.lookup k with
  | some r => r.index
  | none => 0

/-- Current lowlink of a visited node (0 when unvisited). -/
def lowN (s : TarjanState) (k : String) : Nat :=
  match s.recData.lookup k with
  | some r => r.lowlink
  | none => 0

/-- A node whose call has completed and whose component was popped. -/
def finS (s : TarjanState) (k : String) : Prop :=
  memRD s k ∧ ¬k ∈ s.stack

/-- The visited keys, for the termination measure. -/
def visKeys (s : TarjanState) : List String :=
  s.recData.map Prod.fst

/-- Number of universe nodes not yet visited: the bound on the nesting
depth of `tarjan` calls still possible from state `s`. -/
def muV (orig : FunctionMap) (s : TarjanState) : Nat :=
  unvisitedCount orig (visKeys s)

theorem memRD_iff_visKeys (s : TarjanState) (k : String) :
    memRD s k ↔ k ∈ visKeys s := by
  unfold memRD visKeys
  exact lookup_isSome_iff_mem_keys s.recData k

theorem callEdge_of_good {orig fs : FunctionMap} (h : Good orig fs) {a b : String}
    {fc : FunctionCall} (hlk : fs.lookup a = some fc) (hb : b ∈ fc.callees) :
    callEdge orig a b := by
  rcases good_lookup_rev h hlk with ⟨fc0, hfc0, hcase⟩
  refine ⟨fc0, hfc0, ?_⟩
  rcases hcase with rfl | rfl
  · exact hb
  · rw [raiseRec_callees] at hb; exact hb

theorem callee_mem_deadUniv {orig : FunctionMap} {a b : String}
    (h : callEdge orig a b) : b ∈ deadUniv orig := by
  rcases h with ⟨fc, hlk, hb⟩
  unfold deadUniv
  refine List.mem_append.mpr (Or.inr ?_)
  exact List.mem_flatMap.mpr ⟨(a, fc), lookup_mem hlk, hb⟩

theorem idxN_lookup {s : TarjanState} {k : String} {r : FunctionNode}
    (h : s.recData.lookup k = some r) : idxN s k = r.index := by
  unfold idxN; rw [h]

theorem lowN_lookup {s : TarjanState} {k : String} {r : FunctionNode}
    (h : s.recData.lookup k = some r) : lowN s k = r.lowlink := by
  unfold lowN; rw [h]

theorem lookup_mapIf {β : Type} (l : List (String × β)) (k : String) (gg : β → β) :
    (l.map (fun p => if p.1 = k then (k, gg p.2) else p)).lookup k =
      (l.lookup k).map gg := by
  induction l with
  | nil => rfl
  | cons p l ih =>
      rw [List.map_cons]
      by_cases he : p.1 = k
      · rw [if_pos he, List.lookup, List.lookup,
          show (k == k) = true from by simp,
          show (k == p.1) = true from by simpa using he.symm]
        rfl
      · rw [if_neg he, List.lookup, List.lookup,
          show (k == p.1) = false from by simpa using fun hh => he hh.symm]
        exact ih

theorem lookup_mapIf_ne {β : Type} (l : List (String × β)) (k : String) (gg : β → β)
    {k' : String} (h : k' ≠ k) :
    (l.map (fun p => if p.1 = k then (k, gg p.2) else p)).lookup k' = l.lookup k' := by
  induction l with
  | nil => rfl
  | cons p l ih =>
      rw [List.map_cons]
      by_cases he : p.1 = k
      · rw [if_pos he, List.lookup, List.lookup,
          show (k' == k) = false from by simpa using h,
          show (k' == p.1) = false from by simpa [he] using h]
        exact ih
      · rw [if_neg he, List.lookup, List.lookup]
        by_cases he' : k' = p.1
        · rw [show (k' == p.1) = true from by simpa using he']
        · rw [show (k' == p.1) = false from by simpa using he']
          exact ih

theorem updLow_lookup_self (s : TarjanState) (k : String) (v : Nat) :
    (updateLowlinkMin s k v).recData.lookup k =
      (s.recData.lookup k).map (fun r => { r with lowlink := min r.lowlink v }) :=
  lookup_mapIf s.recData k (fun r => { r with lowlink := min r.lowlink v })

theorem updLow_lookup_ne (s : TarjanState) (k : String) (v : Nat) {k' : String}
    (h : k' ≠ k) :
    (updateLowlinkMin s k v).recData.lookup k' = s.recData.lookup k' :=
  lookup_mapIf_ne s.recData k (fun r => { r with lowlink := min r.lowlink v }) h

theorem updLow_stack (s : TarjanState) (k : String) (v : Nat) :
    (updateLowlinkMin s k v).stack = s.stack := rfl

theorem updLow_index (s : TarjanState) (k : String) (v : Nat) :
    (updateLowlinkMin s k v).index = s.index := rfl

theorem updLow_idxN (s : TarjanState) (k : String) (v : Nat) (k' : String) :
    idxN (updateLowlinkMin s k v) k' = idxN s k' := by
  by_cases he : k' = k
  · subst he
    unfold idxN
    rw [updLow_lookup_self]
    cases s.recData.lookup k' <;> rfl
  · unfold idxN
    rw [updLow_lookup_ne s k v he]

theorem updLow_lowN_ne (s : TarjanState) (k : String) (v : Nat) {k' : String}
    (h : k' ≠ k) : lowN (updateLowlinkMin s k v) k' = lowN s k' := by
  unfold lowN
  rw [updLow_lookup_ne s k v h]

theorem updLow_lowN_self {s : TarjanState} {k : String} {r : FunctionNode}
    (hlk : s.recData.lookup k = some r) (v : Nat) :
    lowN (updateLowlinkMin s k v) k = min r.lowlink v := by
  unfold lowN
  rw [updLow_lookup_self, hlk]
  rfl

theorem updLow_visKeys (s : TarjanState) (k : String) (v : Nat) :
    visKeys (updateLowlinkMin s k v) = visKeys s :=
  map_fst_map_preserve s.recData _ (fun p => by by_cases h : p.1 = k <;> simp [h])

theorem mark_lookup_self (rd : List (String × FunctionNode)) (n : String) :
    (markNotInStack rd n).lookup n =
      (rd.lookup n).map (fun r => { r with inStack := false }) :=
  lookup_mapIf rd n (fun r => { r with inStack := false })

theorem mark_lookup_ne (rd : List (String × FunctionNode)) (n : String)
    {k : String} (h : k ≠ n) :
    (markNotInStack rd n).lookup k = rd.lookup k :=
  lookup_mapIf_ne rd n (fun r => { r with inStack := false }) h

theorem markFold_lookup_notmem {seg : List String} {k : String} (h : ¬k ∈ seg) :
    ∀ rd : List (String × FunctionNode),
      (seg.foldl markNotInStack rd).lookup k = rd.lookup k := by
  induction seg with
  | nil => intro rd; rfl
  | cons n seg ih =>
      intro rd
      rw [List.foldl_cons, ih (fun hm => h (List.mem_cons.mpr (Or.inr hm))),
        mark_lookup_ne rd n (fun he => h (List.mem_cons.mpr (Or.inl he)))]

theorem markFold_lookup_mem {seg : List String} {k : String} (h : k ∈ seg) :
    ∀ rd : List (String × FunctionNode),
      (seg.foldl markNotInStack rd).lookup k =
        (rd.lookup k).map (fun r => { r with inStack := false }) := by
  induction seg with
  | nil => exact absurd h (List.not_mem_nil k)
  | cons n seg ih =>
      intro rd
      rw [List.foldl_cons]
      by_cases hk : k ∈ seg
      · rw [ih hk]
        by_cases he : k = n
        · subst he
          rw [mark_lookup_self]
          cases rd.lookup k <;> rfl
        · rw [mark_lookup_ne rd n he]
      · have he : k = n := by
          rcases List.mem_cons.mp h with he | hm
          · exact he
          · exact absurd hm hk
        subst he
        rw [markFold_lookup_notmem hk, mark_lookup_self]

theorem markFold_visKeys (seg : List String) :
    ∀ rd : List (String × FunctionNode),
      (seg.foldl markNotInStack rd).map Prod.fst = rd.map Prod.fst := by
  induction seg with
  | nil => intro rd; rfl
  | cons n seg ih =>
      intro rd
      rw [List.foldl_cons, ih, markNotInStack_map_fst]

theorem popLoop_eq (caller : String) :
    ∀ (pre : List String) (post : List String)
      (rd : List (String × FunctionNode)), ¬caller ∈ pre →
      popLoop caller (pre ++ caller :: post) rd =
        (pre ++ [caller], post, (pre ++ [caller]).foldl markNotInStack rd) := by
  intro pre
  induction pre with
  | nil =>
      intro post rd _
      rw [List.nil_append, popLoop, if_pos rfl]
      rfl
  | cons n pre ih =>
      intro post rd h
      have hne : n ≠ caller := fun he => h (List.mem_cons.mpr (Or.inl he.symm))
      rw [List.cons_append, popLoop]
      simp only [if_neg hne]
      rw [ih post (markNotInStack rd n) (fun hm => h (List.mem_cons.mpr (Or.inr hm)))]
      rfl

theorem popSCC_eq {caller : String} {s : TarjanState} {pre post : List String}
    (hs : s.stack = pre ++ caller :: post) (hpre : ¬caller ∈ pre) :
    popSCC caller s =
      ⟨if 1 < (pre ++ [caller]).length then
          (pre ++ [caller]).foldl raiseStep s.functions
        else s.functions,
        s.index, post, (pre ++ [caller]).foldl markNotInStack s.recData⟩ := by
  simp only [popSCC, hs, popLoop_eq caller pre post s.recData hpre]

/-- The well-formedness invariant of `detectRecursion`'s state, relative
to the list `g` of currently active callers (innermost first): stack and
bookkeeping discipline, reachability facts justifying indexes and
lowlinks, and the component bookkeeping for finished nodes. -/
structure WFS (orig : FunctionMap) (s : TarjanState) (g : List String) : Prop where
  good : Good orig s.functions
  stackNodup : s.stack.Nodup
  stackVis : ∀ x, x ∈ s.stack → memRD s x
  flagCoh : ∀ k r, s.recData.lookup k = some r → (r.inStack = true ↔ k ∈ s.stack)
  idxBound : ∀ k r, s.recData.lookup k = some r → r.index < s.index
  idxInj : ∀ k k' r r', s.recData.lookup k = some r → s.recData.lookup k' = some r' →
    k ≠ k' → r.index ≠ r'.index
  stackSorted : s.stack.Pairwise (fun a b => idxN s b < idxN s a)
  graySub : ∀ z, z ∈ g → z ∈ s.stack
  grayOrder : g.Pairwise (fun a b => idxN s b < idxN s a)
  lowLe : ∀ k r, s.recData.lookup k = some r → r.lowlink ≤ r.index
  rup : ∀ x y, x ∈ s.stack → y ∈ s.stack → idxN s x ≤ idxN s y → callReach orig x y
  ljust : ∀ x, x ∈ s.stack → ∃ m, m ∈ s.stack ∧ idxN s m = lowN s x ∧ callReach orig x m
  strict : ∀ x, x ∈ s.stack → ¬x ∈ g → lowN s x < idxN s x
  ecl : ∀ a, memRD s a → ¬a ∈ g → ∀ b, callEdge orig a b → memRD s b
  edgeLow : ∀ a, memRD s a → ¬a ∈ g → ∀ b, callEdge orig a b → b ∈ s.stack →
    lowN s a ≤ idxN s b
  crec : ∀ x, finS s x → NontrivMate orig x → raisedIn s.functions x
  mateFin : ∀ x, finS s x → ∀ y, CallMate orig x y → finS s y
  noback : ∀ a b, finS s a → callEdge orig a b → finS s b
  rsound : ∀ k, raisedIn s.functions k →
    raisedIn orig k ∨ selfLoopKey orig k ∨ NontrivMate orig k

/-- The innermost active caller below a surviving stack node already
carries a lowlink no larger than the node's own. -/
def GProp (s : TarjanState) (g : List String) : Prop :=
  ∀ x, x ∈ s.stack → ¬x ∈ g →
    ∃ z, z ∈ g ∧ idxN s z < idxN s x ∧ lowN s z ≤ lowN s x ∧
      ∀ z', z' ∈ g → idxN s z' < idxN s x → idxN s z' ≤ idxN s z

theorem memRD_lookup {s : TarjanState} {k : String} (h : memRD s k) :
    ∃ r, s.recData.lookup k = some r :=
  Option.isSome_iff_exists.mp h

theorem finReach {orig : FunctionMap} {s : TarjanState} {g : List String}
    (W : WFS orig s g) {a b : String} (hf : finS s a) (hr : callReach orig a b) :
    finS s b := by
  induction hr with
  | refl => exact hf
  | tail _ he ih => exact W.noback _ _ ih he

theorem allReach {orig : FunctionMap} {s : TarjanState} {z0 : String}
    {rest : List String} (W : WFS orig s (z0 :: rest)) :
    ∀ x, x ∈ s.stack → callReach orig x z0 := by
  have main : ∀ n, ∀ x, x ∈ s.stack → idxN s x = n → callReach orig x z0 := by
    intro n
    induction n using Nat.strong_induction_on with
    | h n ih =>
        intro x hx hidx
        have hz0s : z0 ∈ s.stack := W.graySub z0 (List.mem_cons.mpr (Or.inl rfl))
        by_cases hle : idxN s x ≤ idxN s z0
        · exact W.rup x z0 hx hz0s hle
        · have hxg : ¬x ∈ z0 :: rest := by
            intro hxg
            rcases List.mem_cons.mp hxg with rfl | hxr
            · exact hle le_rfl
            · have := (List.pairwise_cons.mp W.grayOrder).1 x hxr
              omega
          have hstrict := W.strict x hx hxg
          obtain ⟨m, hm, hmi, hmr⟩ := W.ljust x hx
          have hlt : idxN s m < idxN s x := by omega
          have := ih (idxN s m) (by omega) m hm rfl
          exact hmr.trans this
  intro x hx
  exact main (idxN s x) x hx rfl

theorem WFS_push {orig : FunctionMap} {s : TarjanState} {g : List String}
    {c : String} {s1 : TarjanState} (W : WFS orig s g) (hnv : ¬memRD s c)
    (hpr : ∀ x, x ∈ s.stack → callReach orig x c)
    (h1 : s1.functions = s.functions) (h2 : s1.index = s.index + 1)
    (h3 : s1.stack = c :: s.stack)
    (h4 : s1.recData = (c, ⟨s.index, s.index, true⟩) :: s.recData) :
    WFS orig s1 (c :: g) := by
  have hcs : ¬c ∈ s.stack := fun h => hnv (W.stackVis c h)
  have hlkc : s1.recData.lookup c = some ⟨s.index, s.index, true⟩ := by
    rw [h4]; exact lookup_cons_self c _ _
  have hlkne : ∀ k, k ≠ c → s1.recData.lookup k = s.recData.lookup k := by
    intro k hk; rw [h4]; exact lookup_cons_ne _ _ hk
  have hmemne : ∀ k, memRD s k → k ≠ c := fun k hk he => hnv (he ▸ hk)
  have hidxc : idxN s1 c = s.index := by unfold idxN; rw [hlkc]
  have hlowc : lowN s1 c = s.index := by unfold lowN; rw [hlkc]
  have hidxne : ∀ k, k ≠ c → idxN s1 k = idxN s k := by
    intro k hk; unfold idxN; rw [hlkne k hk]
  have hlowne : ∀ k, k ≠ c → lowN s1 k = lowN s k := by
    intro k hk; unfold lowN; rw [hlkne k hk]
  have hmem1 : ∀ k, memRD s k → memRD s1 k := by
    intro k hk
    have hne := hmemne k hk
    unfold memRD at hk ⊢
    rw [hlkne k hne]
    exact hk
  have hmemc : memRD s1 c := by unfold memRD; rw [hlkc]; rfl
  have hmem1r : ∀ k, k ≠ c → memRD s1 k → memRD s k := by
    intro k hk hm
    unfold memRD at hm ⊢
    rw [hlkne k hk] at hm
    exact hm
  have hstklt : ∀ x, x ∈ s.stack → idxN s1 x < s.index := by
    intro x hx
    obtain ⟨r, hr⟩ := memRD_lookup (W.stackVis x hx)
    rw [hidxne x (hmemne x (W.stackVis x hx)), idxN_lookup hr]
    exact W.idxBound x r hr
  refine ⟨?_, ?_, ?_, ?_, ?_, ?_, ?_, ?_, ?_, ?_, ?_, ?_, ?_, ?_, ?_, ?_, ?_, ?_, ?_⟩
  · rw [h1]; exact W.good
  · rw [h3]; exact List.nodup_cons.mpr ⟨hcs, W.stackNodup⟩
  · intro x hx
    rw [h3] at hx
    rcases List.mem_cons.mp hx with rfl | hx'
    · exact hmemc
    · exact hmem1 x (W.stackVis x hx')
  · intro k r hk
    by_cases he : k = c
    · subst he
      rw [hlkc] at hk
      injection hk with hr
      rw [h3]
      constructor
      · intro _; exact List.mem_cons.mpr (Or.inl rfl)
      · intro _; rw [← hr]
    · rw [hlkne k he] at hk
      have hco := W.flagCoh k r hk
      rw [h3]
      constructor
      · intro hf; exact List.mem_cons.mpr (Or.inr (hco.mp hf))
      · intro hm
        rcases List.mem_cons.mp hm with he' | hm'
        · exact absurd he' he
        · exact hco.mpr hm'
  · intro k r hk
    rw [h2]
    by_cases he : k = c
    · subst he
      rw [hlkc] at hk
      injection hk with hr
      rw [← hr]
      show s.index < s.index + 1
      omega
    · rw [hlkne k he] at hk
      have := W.idxBound k r hk
      omega
  · intro k k' r r' hk hk' hne
    by_cases he : k = c <;> by_cases he' : k' = c
    · exact absurd (he.trans he'.symm) hne
    · subst he
      rw [hlkc] at hk
      injection hk with hr
      rw [hlkne k' he'] at hk'
      have := W.idxBound k' r' hk'
      rw [← hr]
      show s.index ≠ r'.index
      omega
    · subst he'
      rw [hlkc] at hk'
      injection hk' with hr
      rw [hlkne k he] at hk
      have := W.idxBound k r hk
      rw [← hr]
      show r.index ≠ s.index
      omega
    · rw [hlkne k he] at hk
      rw [hlkne k' he'] at hk'
      exact W.idxInj k k' r r' hk hk' hne
  · rw [h3]
    refine List.pairwise_cons.mpr ⟨?_, ?_⟩
    · intro y hy
      rw [hidxc]
      exact hstklt y hy
    · refine List.Pairwise.imp_of_mem ?_ W.stackSorted
      intro a b ha hb hab
      rw [hidxne a (hmemne a (W.stackVis a ha)),
        hidxne b (hmemne b (W.stackVis b hb))]
      exact hab
  · intro z hz
    rw [h3]
    rcases List.mem_cons.mp hz with rfl | hz'
    · exact List.mem_cons.mpr (Or.inl rfl)
    · exact List.mem_cons.mpr (Or.inr (W.graySub z hz'))
  · refine List.pairwise_cons.mpr ⟨?_, ?_⟩
    · intro z hz
      rw [hidxc]
      exact hstklt z (W.graySub z hz)
    · refine List.Pairwise.imp_of_mem ?_ W.grayOrder
      intro a b ha hb hab
      rw [hidxne a (hmemne a (W.stackVis a (W.graySub a ha))),
        hidxne b (hmemne b (W.stackVis b (W.graySub b hb)))]
      exact hab
  · intro k r hk
    by_cases he : k = c
    · subst he
      rw [hlkc] at hk
      injection hk with hr
      rw [← hr]
    · rw [hlkne k he] at hk
      exact W.lowLe k r hk
  · intro x y hx hy hle
    rw [h3] at hx hy
    rcases List.mem_cons.mp hx with hxe | hx'
    · rcases List.mem_cons.mp hy with hye | hy'
      · rw [hxe, hye]
        exact Relation.ReflTransGen.refl
      · exfalso
        rw [hxe, hidxc] at hle
        have := hstklt y hy'
        omega
    · rcases List.mem_cons.mp hy with hye | hy'
      · rw [hye]
        exact hpr x hx'
      · rw [hidxne x (hmemne x (W.stackVis x hx')),
          hidxne y (hmemne y (W.stackVis y hy'))] at hle
        exact W.rup x y hx' hy' hle
  · intro x hx
    rw [h3] at hx
    rcases List.mem_cons.mp hx with rfl | hx'
    · refine ⟨x, by rw [h3]; exact List.mem_cons.mpr (Or.inl rfl), ?_,
        Relation.ReflTransGen.refl⟩
      rw [hidxc, hlowc]
    · obtain ⟨m, hm, hmi, hmr⟩ := W.ljust x hx'
      refine ⟨m, by rw [h3]; exact List.mem_cons.mpr (Or.inr hm), ?_, hmr⟩
      rw [hidxne m (hmemne m (W.stackVis m hm)),
        hlowne x (hmemne x (W.stackVis x hx'))]
      exact hmi
  · intro x hx hxg
    have hxc : x ≠ c := fun he => hxg (by rw [he]; exact List.mem_cons.mpr (Or.inl rfl))
    rw [h3] at hx
    have hx' : x ∈ s.stack := by
      rcases List.mem_cons.mp hx with he | h'
      · exact absurd he hxc
      · exact h'
    have hxg' : ¬x ∈ g := fun hg => hxg (List.mem_cons.mpr (Or.inr hg))
    rw [hidxne x hxc, hlowne x hxc]
    exact W.strict x hx' hxg'
  · intro a ha hag b hb
    have hac : a ≠ c := fun he => hag (by rw [he]; exact List.mem_cons.mpr (Or.inl rfl))
    have hag' : ¬a ∈ g := fun hg => hag (List.mem_cons.mpr (Or.inr hg))
    exact hmem1 b (W.ecl a (hmem1r a hac ha) hag' b hb)
  · intro a ha hag b hb hbs
    have hac : a ≠ c := fun he => hag (by rw [he]; exact List.mem_cons.mpr (Or.inl rfl))
    have hag' : ¬a ∈ g := fun hg => hag (List.mem_cons.mpr (Or.inr hg))
    have ha' := hmem1r a hac ha
    rw [h3] at hbs
    rcases List.mem_cons.mp hbs with rfl | hb'
    · exact absurd (W.ecl a ha' hag' b hb) hnv
    · rw [hlowne a hac, hidxne b (hmemne b (W.stackVis b hb'))]
      exact W.edgeLow a ha' hag' b hb hb'
  · intro x hfx hnx
    obtain ⟨hm, hns⟩ := hfx
    have hxc : x ≠ c := fun he => hns (by rw [he, h3]; exact List.mem_cons.mpr (Or.inl rfl))
    have hfx' : finS s x :=
      ⟨hmem1r x hxc hm, fun hx => hns (by rw [h3]; exact List.mem_cons.mpr (Or.inr hx))⟩
    have := W.crec x hfx' hnx
    rw [h1]
    exact this
  · intro x hfx y hmt
    obtain ⟨hm, hns⟩ := hfx
    have hxc : x ≠ c := fun he => hns (by rw [he, h3]; exact List.mem_cons.mpr (Or.inl rfl))
    have hfx' : finS s x :=
      ⟨hmem1r x hxc hm, fun hx => hns (by rw [h3]; exact List.mem_cons.mpr (Or.inr hx))⟩
    obtain ⟨hmy, hny⟩ := W.mateFin x hfx' y hmt
    refine ⟨hmem1 y hmy, ?_⟩
    rw [h3]
    intro hy
    rcases List.mem_cons.mp hy with rfl | hy'
    · exact hnv hmy
    · exact hny hy'
  · intro a b hfa he
    obtain ⟨hm, hns⟩ := hfa
    have hac : a ≠ c := fun hh => hns (by rw [hh, h3]; exact List.mem_cons.mpr (Or.inl rfl))
    have hfa' : finS s a :=
      ⟨hmem1r a hac hm, fun hx => hns (by rw [h3]; exact List.mem_cons.mpr (Or.inr hx))⟩
    obtain ⟨hmb, hnb⟩ := W.noback a b hfa' he
    refine ⟨hmem1 b hmb, ?_⟩
    rw [h3]
    intro hy
    rcases List.mem_cons.mp hy with rfl | hy'
    · exact hnv hmb
    · exact hnb hy'
  · intro k hk
    rw [h1] at hk
    exact W.rsound k hk

theorem GProp_push {orig : FunctionMap} {s : TarjanState} {g : List String}
    {c : String} {s1 : TarjanState} (W : WFS orig s g) (GP : GProp s g)
    (hnv : ¬memRD s c) (h3 : s1.stack = c :: s.stack)
    (h4 : s1.recData = (c, ⟨s.index, s.index, true⟩) :: s.recData) :
    GProp s1 (c :: g) := by
  have hlkne : ∀ k, k ≠ c → s1.recData.lookup k = s.recData.lookup k := by
    intro k hk; rw [h4]; exact lookup_cons_ne _ _ hk
  have hmemne : ∀ k, memRD s k → k ≠ c := fun k hk he => hnv (he ▸ hk)
  have hidxne : ∀ k, k ≠ c → idxN s1 k = idxN s k := by
    intro k hk; unfold idxN; rw [hlkne k hk]
  have hlowne : ∀ k, k ≠ c → lowN s1 k = lowN s k := by
    intro k hk; unfold lowN; rw [hlkne k hk]
  have hidxc : idxN s1 c = s.index := by
    unfold idxN
    rw [h4, lookup_cons_self]
  have hstklt : ∀ x, x ∈ s.stack → idxN s1 x < s.index := by
    intro x hx
    obtain ⟨r, hr⟩ := memRD_lookup (W.stackVis x hx)
    rw [hidxne x (hmemne x (W.stackVis x hx)), idxN_lookup hr]
    exact W.idxBound x r hr
  intro x hx hxg
  have hxc : x ≠ c := fun he => hxg (by rw [he]; exact List.mem_cons.mpr (Or.inl rfl))
  rw [h3] at hx
  have hx' : x ∈ s.stack := by
    rcases List.mem_cons.mp hx with he | h'
    · exact absurd he hxc
    · exact h'
  have hxg' : ¬x ∈ g := fun hg => hxg (List.mem_cons.mpr (Or.inr hg))
  obtain ⟨z, hz, hzi, hzl, hzm⟩ := GP x hx' hxg'
  have hzc := hmemne z (W.stackVis z (W.graySub z hz))
  refine ⟨z, List.mem_cons.mpr (Or.inr hz), ?_, ?_, ?_⟩
  · rw [hidxne z hzc, hidxne x hxc]; exact hzi
  · rw [hlowne z hzc, hlowne x hxc]; exact hzl
  · intro z' hz' hlt
    rcases List.mem_cons.mp hz' with rfl | hz''
    · exfalso
      rw [hidxc] at hlt
      have := hstklt x hx'
      omega
    · have hz'c := hmemne z' (W.stackVis z' (W.graySub z' hz''))
      rw [hidxne z' hz'c, hidxne x hxc] at hlt
      rw [hidxne z' hz'c, hidxne z hzc]
      exact hzm z' hz'' hlt

theorem one_lt_length_of_two_mem {l : List String} {x j : String} (hx : x ∈ l)
    (hj : j ∈ l) (hne : x ≠ j) : 1 < l.length := by
  cases l with
  | nil => exact absurd hx (List.not_mem_nil x)
  | cons a t =>
      cases t with
      | nil =>
          rcases List.mem_cons.mp hx with rfl | hx'
          · rcases List.mem_cons.mp hj with he | hj'
            · exact absurd he.symm hne
            · exact absurd hj' (List.not_mem_nil j)
          · exact absurd hx' (List.not_mem_nil x)
      | cons b t' => simp [List.length_cons]

theorem exists_ne_mem_of_one_lt {l : List String} (h : 1 < l.length)
    (k : String) : ∃ j, j ∈ l ∧ (l.Nodup → k ∈ l → j ≠ k) := by
  cases l with
  | nil => simp at h
  | cons a t =>
      cases t with
      | nil => simp at h
      | cons b t' =>
          by_cases hk : k = a
          · refine ⟨b, List.mem_cons.mpr (Or.inr (List.mem_cons.mpr (Or.inl rfl))), ?_⟩
            intro hnd _
            subst hk
            rw [List.nodup_cons] at hnd
            exact fun he => hnd.1 (he ▸ List.mem_cons.mpr (Or.inl rfl))
          · exact ⟨a, List.mem_cons.mpr (Or.inl rfl), fun _ _ => fun he => hk he.symm⟩

theorem good_isSome {orig fs : FunctionMap} (h : Good orig fs) (k : String) :
    (orig.lookup k).isSome = true ↔ (fs.lookup k).isSome = true := by
  rw [lookup_isSome_iff_mem_keys, lookup_isSome_iff_mem_keys, good_keys h]

theorem raiseStep_isSome {fs : FunctionMap} {k : String} (n : String)
    (h : (fs.lookup k).isSome = true) : ((raiseStep fs n).lookup k).isSome = true := by
  cases hl : fs.lookup n with
  | none => rw [raiseStep_none hl]; exact h
  | some fc =>
      rw [raiseStep_some hl]
      by_cases he : k = n
      · subst he
        rw [updateAssoc_lookup_self _ (by rw [hl]; rfl)]
        rfl
      · rw [updateAssoc_lookup_other _ he]
        exact h

theorem raiseStep_raised_mono {fs : FunctionMap} {k : String} (n : String)
    (h : raisedIn fs k) : raisedIn (raiseStep fs n) k := by
  cases hl : fs.lookup n with
  | none => rw [raiseStep_none hl]; exact h
  | some fc =>
      rw [raiseStep_some hl]
      by_cases he : k = n
      · subst he
        exact ⟨raiseRec fc, updateAssoc_lookup_self _ (by rw [hl]; rfl), rfl⟩
      · obtain ⟨fc', hfc', hr⟩ := h
        exact ⟨fc', by rw [updateAssoc_lookup_other _ he]; exact hfc', hr⟩

theorem raiseFold_raised_mono {k : String} :
    ∀ (ns : List String) (fs : FunctionMap), raisedIn fs k →
      raisedIn (ns.foldl raiseStep fs) k := by
  intro ns
  induction ns with
  | nil => intro fs h; exact h
  | cons n t ih =>
      intro fs h
      rw [List.foldl_cons]
      exact ih _ (raiseStep_raised_mono n h)

theorem raiseFold_isSome {k : String} :
    ∀ (ns : List String) (fs : FunctionMap), (fs.lookup k).isSome = true →
      ((ns.foldl raiseStep fs).lookup k).isSome = true := by
  intro ns
  induction ns with
  | nil => intro fs h; exact h
  | cons n t ih =>
      intro fs h
      rw [List.foldl_cons]
      exact ih _ (raiseStep_isSome n h)

theorem raiseFold_raises {k : String} :
    ∀ (ns : List String) (fs : FunctionMap), k ∈ ns →
      (fs.lookup k).isSome = true → raisedIn (ns.foldl raiseStep fs) k := by
  intro ns
  induction ns with
  | nil => intro fs h; exact absurd h (List.not_mem_nil k)
  | cons n t ih =>
      intro fs hk hs
      rw [List.foldl_cons]
      by_cases hkt : k ∈ t
      · exact ih _ hkt (raiseStep_isSome n hs)
      · have he : k = n := by
          rcases List.mem_cons.mp hk with he | h'
          · exact he
          · exact absurd h' hkt
        subst he
        obtain ⟨fc, hfc⟩ := Option.isSome_iff_exists.mp hs
        refine raiseFold_raised_mono t _ ?_
        rw [raiseStep_some hfc]
        exact ⟨raiseRec fc, updateAssoc_lookup_self _ (by rw [hfc]; rfl), rfl⟩

theorem raiseFold_raised_rev {k : String} :
    ∀ (ns : List String) (fs : FunctionMap),
      raisedIn (ns.foldl raiseStep fs) k → raisedIn fs k ∨ k ∈ ns := by
  intro ns
  induction ns with
  | nil => intro fs h; exact Or.inl h
  | cons n t ih =>
      intro fs h
      rw [List.foldl_cons] at h
      rcases ih _ h with h' | h'
      · cases hl : fs.lookup n with
        | none => rw [raiseStep_none hl] at h'; exact Or.inl h'
        | some fc =>
            rw [raiseStep_some hl] at h'
            by_cases he : k = n
            · exact Or.inr (by rw [he]; exact List.mem_cons.mpr (Or.inl rfl))
            · obtain ⟨fc', hfc', hr⟩ := h'
              rw [updateAssoc_lookup_other _ he] at hfc'
              exact Or.inl ⟨fc', hfc', hr⟩
      · exact Or.inr (List.mem_cons.mpr (Or.inr h'))

theorem popOk {orig : FunctionMap} (hnd : (orig.map Prod.fst).Nodup)
    {s2 : TarjanState} {g : List String} {c : String} {pre post : List String}
    (W : WFS orig s2 (c :: g)) (GP : GProp s2 (c :: g))
    (hstk : s2.stack = pre ++ c :: post)
    (hlow : lowN s2 c = idxN s2 c)
    (hcEcl : ∀ b, callEdge orig c b → memRD s2 b)
    (hcEdge : ∀ b, callEdge orig c b → b ∈ s2.stack → lowN s2 c ≤ idxN s2 b) :
    WFS orig (popSCC c s2) g ∧
    (popSCC c s2).stack = post ∧
    (popSCC c s2).index = s2.index ∧
    (∀ k, ¬k ∈ pre ++ [c] → (popSCC c s2).recData.lookup k = s2.recData.lookup k) ∧
    visKeys (popSCC c s2) = visKeys s2 ∧
    (∀ k, raisedIn s2.functions k → raisedIn (popSCC c s2).functions k) ∧
    (∀ k, idxN (popSCC c s2) k = idxN s2 k) ∧
    (∀ k, lowN (popSCC c s2) k = lowN s2 k) ∧
    finS (popSCC c s2) c := by
  have hnd2 := W.stackNodup
  rw [hstk] at hnd2
  obtain ⟨hnd_pre, hnd_cpost, hdisj⟩ := List.nodup_append.mp hnd2
  have hc_pre : ¬c ∈ pre := fun h => hdisj h (List.mem_cons.mpr (Or.inl rfl))
  have hc_post : ¬c ∈ post := (List.nodup_cons.mp hnd_cpost).1
  have hnd_post := (List.nodup_cons.mp hnd_cpost).2
  have hS_nodup : (pre ++ [c]).Nodup := by
    refine List.nodup_append.mpr ⟨hnd_pre, List.nodup_singleton c, ?_⟩
    intro x hx hx'
    rw [List.mem_singleton] at hx'
    exact hc_pre (hx' ▸ hx)
  have hmem_stack : ∀ x, x ∈ s2.stack ↔ (x ∈ pre ∨ x = c ∨ x ∈ post) := by
    intro x; rw [hstk, List.mem_append, List.mem_cons]
  have hcstk : c ∈ s2.stack := (hmem_stack c).mpr (Or.inr (Or.inl rfl))
  have hS_stack : ∀ x, x ∈ pre ++ [c] → x ∈ s2.stack := by
    intro x hx
    rcases List.mem_append.mp hx with h | h
    · exact (hmem_stack x).mpr (Or.inl h)
    · rw [List.mem_singleton] at h
      exact (hmem_stack x).mpr (Or.inr (Or.inl h))
  have hsort := W.stackSorted
  rw [hstk] at hsort
  obtain ⟨hsort_pre, hsort_cpost, hcross⟩ := List.pairwise_append.mp hsort
  obtain ⟨hc_gt_post, hsort_post⟩ := List.pairwise_cons.mp hsort_cpost
  have hpre_gt : ∀ x, x ∈ pre → idxN s2 c < idxN s2 x :=
    fun x hx => hcross x hx c (List.mem_cons.mpr (Or.inl rfl))
  have hg_lt : ∀ z, z ∈ g → idxN s2 z < idxN s2 c := (List.pairwise_cons.mp W.grayOrder).1
  have hg_stack : ∀ z, z ∈ g → z ∈ s2.stack :=
    fun z hz => W.graySub z (List.mem_cons.mpr (Or.inr hz))
  have hg_post : ∀ z, z ∈ g → z ∈ post := by
    intro z hz
    rcases (hmem_stack z).mp (hg_stack z hz) with h | h | h
    · exact absurd (hg_lt z hz) (by have := hpre_gt z h; omega)
    · exact absurd (hg_lt z hz) (by rw [h]; omega)
    · exact h
  have hpre_notg : ∀ x, x ∈ pre → ¬x ∈ c :: g := by
    intro x hx hxg
    rcases List.mem_cons.mp hxg with he | hzg
    · exact hc_pre (he ▸ hx)
    · have h1 := hg_lt x hzg
      have h2 := hpre_gt x hx
      omega
  have hS_idx : ∀ x, x ∈ pre ++ [c] → idxN s2 c ≤ idxN s2 x := by
    intro x hx
    rcases List.mem_append.mp hx with h | h
    · exact le_of_lt (hpre_gt x h)
    · rw [List.mem_singleton] at h
      rw [h]
  have hlowle : ∀ k, memRD s2 k → lowN s2 k ≤ idxN s2 k := by
    intro k hk
    obtain ⟨r, hr⟩ := memRD_lookup hk
    rw [lowN_lookup hr, idxN_lookup hr]
    exact W.lowLe k r hr
  have hfloor : ∀ x, x ∈ pre → lowN s2 c ≤ lowN s2 x := by
    intro x hx
    obtain ⟨z, hz, hzi, hzl, hzm⟩ :=
      GP x ((hmem_stack x).mpr (Or.inl hx)) (hpre_notg x hx)
    have hzc : z = c := by
      rcases List.mem_cons.mp hz with he | hzg
      · exact he
      · have h1 := hzm c (List.mem_cons.mpr (Or.inl rfl)) (hpre_gt x hx)
        have h2 := hg_lt z hzg
        omega
    rw [← hzc]
    exact hzl
  have hstep : ∀ a, a ∈ pre ++ [c] → ∀ b, callEdge orig a b →
      memRD s2 b ∧ (b ∈ pre ++ [c] ∨ finS s2 b) := by
    intro a ha b he
    rcases List.mem_append.mp ha with hap | hac
    · have hmema : memRD s2 a := W.stackVis a ((hmem_stack a).mpr (Or.inl hap))
      have hag := hpre_notg a hap
      have hmb : memRD s2 b := W.ecl a hmema hag b he
      refine ⟨hmb, ?_⟩
      by_cases hbs : b ∈ s2.stack
      · rcases (hmem_stack b).mp hbs with h | h | h
        · exact Or.inl (List.mem_append.mpr (Or.inl h))
        · exact Or.inl (List.mem_append.mpr (Or.inr (by rw [h]; exact List.mem_singleton.mpr rfl)))
        · exfalso
          have h1 := W.edgeLow a hmema hag b he hbs
          have h2 := hc_gt_post b h
          have h3 := hfloor a hap
          omega
      · exact Or.inr ⟨hmb, hbs⟩
    · rw [List.mem_singleton] at hac
      subst hac
      have hmb := hcEcl b he
      refine ⟨hmb, ?_⟩
      by_cases hbs : b ∈ s2.stack
      · rcases (hmem_stack b).mp hbs with h | h | h
        · exact Or.inl (List.mem_append.mpr (Or.inl h))
        · exact Or.inl (List.mem_append.mpr (Or.inr (by rw [h]; exact List.mem_singleton.mpr rfl)))
        · exfalso
          have h1 := hcEdge b he hbs
          have h2 := hc_gt_post b h
          omega
      · exact Or.inr ⟨hmb, hbs⟩
  have hwalk : ∀ a b, callReach orig a b → a ∈ pre ++ [c] →
      b ∈ pre ++ [c] ∨ finS s2 b := by
    intro a b hr
    induction hr using Relation.ReflTransGen.head_induction_on with
    | refl => intro hb; exact Or.inl hb
    | head he hr ih =>
        intro ha
        obtain ⟨hm1, hcl⟩ := hstep _ ha _ he
        rcases hcl with h1 | h1
        · exact ih h1
        · exact Or.inr (finReach W h1 hr)
  have hm1 : ∀ x, x ∈ pre ++ [c] → CallMate orig x c := by
    intro x hx
    exact ⟨allReach W x (hS_stack x hx), W.rup c x hcstk (hS_stack x hx) (hS_idx x hx)⟩
  have hm2 : ∀ x, x ∈ pre ++ [c] → ∀ y, CallMate orig x y → y ∈ pre ++ [c] := by
    intro x hx y hmt
    rcases hwalk x y hmt.1 hx with h | h
    · exact h
    · exact absurd (hS_stack x hx) (W.mateFin y h x ⟨hmt.2, hmt.1⟩).2
  have hpop := popSCC_eq hstk hc_pre
  have e1 : (popSCC c s2).functions =
      (if 1 < (pre ++ [c]).length then (pre ++ [c]).foldl raiseStep s2.functions
       else s2.functions) := by rw [hpop]
  have e2 : (popSCC c s2).index = s2.index := by rw [hpop]
  have e3 : (popSCC c s2).stack = post := by rw [hpop]
  have e4 : (popSCC c s2).recData = (pre ++ [c]).foldl markNotInStack s2.recData := by
    rw [hpop]
  have hrdN : ∀ k, ¬k ∈ pre ++ [c] →
      (popSCC c s2).recData.lookup k = s2.recData.lookup k := by
    intro k hk
    rw [e4]
    exact markFold_lookup_notmem hk s2.recData
  have hrdS : ∀ k, k ∈ pre ++ [c] → (popSCC c s2).recData.lookup k =
      (s2.recData.lookup k).map (fun r => { r with inStack := false }) := by
    intro k hk
    rw [e4]
    exact markFold_lookup_mem hk s2.recData
  have hrec3 : ∀ k r, (popSCC c s2).recData.lookup k = some r →
      ∃ r0, s2.recData.lookup k = some r0 ∧ r.index = r0.index ∧
        r.lowlink = r0.lowlink := by
    intro k r hk
    by_cases hkS : k ∈ pre ++ [c]
    · rw [hrdS k hkS] at hk
      cases hl : s2.recData.lookup k with
      | none => rw [hl] at hk; exact Option.noConfusion hk
      | some r0 =>
          rw [hl] at hk
          injection hk with hr
          exact ⟨r0, rfl, by rw [← hr], by rw [← hr]⟩
    · rw [hrdN k hkS] at hk
      exact ⟨r, hk, rfl, rfl⟩
  have hidx3 : ∀ k, idxN (popSCC c s2) k = idxN s2 k := by
    intro k
    by_cases hkS : k ∈ pre ++ [c]
    · unfold idxN
      rw [hrdS k hkS]
      cases s2.recData.lookup k <;> rfl
    · unfold idxN
      rw [hrdN k hkS]
  have hlow3 : ∀ k, lowN (popSCC c s2) k = lowN s2 k := by
    intro k
    by_cases hkS : k ∈ pre ++ [c]
    · unfold lowN
      rw [hrdS k hkS]
      cases s2.recData.lookup k <;> rfl
    · unfold lowN
      rw [hrdN k hkS]
  have hvk : visKeys (popSCC c s2) = visKeys s2 := by
    unfold visKeys
    rw [e4]
    exact markFold_visKeys _ s2.recData
  have hmem3 : ∀ k, memRD (popSCC c s2) k ↔ memRD s2 k := by
    intro k
    rw [memRD_iff_visKeys, memRD_iff_visKeys, hvk]
  have hfin3 : ∀ k, finS s2 k → finS (popSCC c s2) k := by
    intro k hk
    refine ⟨(hmem3 k).mpr hk.1, ?_⟩
    rw [e3]
    intro h
    exact hk.2 ((hmem_stack k).mpr (Or.inr (Or.inr h)))
  have hfinS : ∀ k, k ∈ pre ++ [c] → finS (popSCC c s2) k := by
    intro k hk
    refine ⟨(hmem3 k).mpr (W.stackVis k (hS_stack k hk)), ?_⟩
    rw [e3]
    intro h
    rcases List.mem_append.mp hk with h' | h'
    · exact hdisj h' (List.mem_cons.mpr (Or.inr h))
    · rw [List.mem_singleton] at h'
      exact hc_post (h' ▸ h)
  have hfin3r : ∀ k, finS (popSCC c s2) k → k ∈ pre ++ [c] ∨ finS s2 k := by
    intro k hk
    by_cases hkS : k ∈ pre ++ [c]
    · exact Or.inl hkS
    · refine Or.inr ⟨(hmem3 k).mp hk.1, ?_⟩
      intro h
      rcases (hmem_stack k).mp h with h' | h' | h'
      · exact hkS (List.mem_append.mpr (Or.inl h'))
      · exact hkS (List.mem_append.mpr (Or.inr (by rw [h']; exact List.mem_singleton.mpr rfl)))
      · exact hk.2 (by rw [e3]; exact h')
  have hraise3 : ∀ k, raisedIn s2.functions k → raisedIn (popSCC c s2).functions k := by
    intro k hk
    rw [e1]
    by_cases hlen : 1 < (pre ++ [c]).length
    · rw [if_pos hlen]
      exact raiseFold_raised_mono _ _ hk
    · rw [if_neg hlen]
      exact hk
  have hkeyS : ∀ x, NontrivMate orig x → (s2.functions.lookup x).isSome = true := by
    intro x hx
    obtain ⟨j, hj, hmt⟩ := hx
    rcases Relation.ReflTransGen.cases_head hmt.1 with he | hex
    · exact absurd he.symm hj
    · obtain ⟨b1, he1, _⟩ := hex
      obtain ⟨fc, hfc, _⟩ := he1
      exact (good_isSome W.good x).mp (by rw [hfc]; rfl)
  refine ⟨⟨?_, ?_, ?_, ?_, ?_, ?_, ?_, ?_, ?_, ?_, ?_, ?_, ?_, ?_, ?_, ?_, ?_, ?_, ?_⟩,
    e3, e2, hrdN, hvk, hraise3, hidx3, hlow3,
    hfinS c (List.mem_append.mpr (Or.inr (List.mem_singleton.mpr rfl)))⟩
  · rw [e1]
    by_cases hlen : 1 < (pre ++ [c]).length
    · rw [if_pos hlen]
      exact (raiseFold_good hnd (pre ++ [c]) s2.functions W.good).1
    · rw [if_neg hlen]
      exact W.good
  · rw [e3]
    exact hnd_post
  · intro x hx
    rw [e3] at hx
    exact (hmem3 x).mpr (W.stackVis x ((hmem_stack x).mpr (Or.inr (Or.inr hx))))
  · intro k r hk
    by_cases hkS : k ∈ pre ++ [c]
    · rw [hrdS k hkS] at hk
      cases hl : s2.recData.lookup k with
      | none => rw [hl] at hk; exact Option.noConfusion hk
      | some r0 =>
          rw [hl] at hk
          injection hk with hr
          rw [e3]
          constructor
          · intro hf
            rw [← hr] at hf
            simp at hf
          · intro hm
            exfalso
            rcases List.mem_append.mp hkS with h' | h'
            · exact hdisj h' (List.mem_cons.mpr (Or.inr hm))
            · rw [List.mem_singleton] at h'
              exact hc_post (h' ▸ hm)
    · rw [hrdN k hkS] at hk
      have hco := W.flagCoh k r hk
      rw [e3]
      constructor
      · intro hf
        rcases (hmem_stack k).mp (hco.mp hf) with h' | h' | h'
        · exact absurd (List.mem_append.mpr (Or.inl h')) hkS
        · exact absurd (List.mem_append.mpr
            (Or.inr (by rw [h']; exact List.mem_singleton.mpr rfl))) hkS
        · exact h'
      · intro hm
        exact hco.mpr ((hmem_stack k).mpr (Or.inr (Or.inr hm)))
  · intro k r hk
    rw [e2]
    obtain ⟨r0, h0, hi, _⟩ := hrec3 k r hk
    rw [hi]
    exact W.idxBound k r0 h0
  · intro k k' r r' hk hk' hne
    obtain ⟨r0, h0, hi, _⟩ := hrec3 k r hk
    obtain ⟨r0', h0', hi', _⟩ := hrec3 k' r' hk'
    rw [hi, hi']
    exact W.idxInj k k' r0 r0' h0 h0' hne
  · rw [e3]
    refine List.Pairwise.imp_of_mem ?_ hsort_post
    intro a b _ _ hab
    rw [hidx3 a, hidx3 b]
    exact hab
  · intro z hz
    rw [e3]
    exact hg_post z hz
  · refine List.Pairwise.imp_of_mem ?_ ((List.pairwise_cons.mp W.grayOrder).2)
    intro a b _ _ hab
    rw [hidx3 a, hidx3 b]
    exact hab
  · intro k r hk
    obtain ⟨r0, h0, hi, hl⟩ := hrec3 k r hk
    rw [hi, hl]
    exact W.lowLe k r0 h0
  · intro x y hx hy hle
    rw [e3] at hx hy
    rw [hidx3 x, hidx3 y] at hle
    exact W.rup x y ((hmem_stack x).mpr (Or.inr (Or.inr hx)))
      ((hmem_stack y).mpr (Or.inr (Or.inr hy))) hle
  · intro x hx
    rw [e3] at hx
    have hxs : x ∈ s2.stack := (hmem_stack x).mpr (Or.inr (Or.inr hx))
    obtain ⟨m, hm, hmi, hmr⟩ := W.ljust x hxs
    have hmx : idxN s2 m < idxN s2 c := by
      have h1 := hlowle x (W.stackVis x hxs)
      have h2 := hc_gt_post x hx
      omega
    have hm_post : m ∈ post := by
      rcases (hmem_stack m).mp hm with h' | h' | h'
      · have := hpre_gt m h'
        omega
      · rw [h'] at hmx
        omega
      · exact h'
    refine ⟨m, by rw [e3]; exact hm_post, ?_, hmr⟩
    rw [hidx3 m, hlow3 x]
    exact hmi
  · intro x hx hxg
    rw [e3] at hx
    have hxs : x ∈ s2.stack := (hmem_stack x).mpr (Or.inr (Or.inr hx))
    have hxcg : ¬x ∈ c :: g := by
      intro h
      rcases List.mem_cons.mp h with he | h'
      · exact hc_post (he ▸ hx)
      · exact hxg h'
    rw [hlow3 x, hidx3 x]
    exact W.strict x hxs hxcg
  · intro a ha hag b he
    have ha2 := (hmem3 a).mp ha
    by_cases hac : a = c
    · subst hac
      exact (hmem3 b).mpr (hcEcl b he)
    · have hacg : ¬a ∈ c :: g := by
        intro h
        rcases List.mem_cons.mp h with he' | h'
        · exact hac he'
        · exact hag h'
      exact (hmem3 b).mpr (W.ecl a ha2 hacg b he)
  · intro a ha hag b he hbs
    rw [e3] at hbs
    have hbs2 : b ∈ s2.stack := (hmem_stack b).mpr (Or.inr (Or.inr hbs))
    rw [hlow3 a, hidx3 b]
    by_cases hac : a = c
    · subst hac
      exact hcEdge b he hbs2
    · have hacg : ¬a ∈ c :: g := by
        intro h
        rcases List.mem_cons.mp h with he' | h'
        · exact hac he'
        · exact hag h'
      exact W.edgeLow a ((hmem3 a).mp ha) hacg b he hbs2
  · intro x hfx hnx
    rcases hfin3r x hfx with hxS | hxold
    · obtain ⟨j, hj, hmt⟩ := hnx
      have hjS := hm2 x hxS j hmt
      have hlen : 1 < (pre ++ [c]).length :=
        one_lt_length_of_two_mem hxS hjS (fun he => hj he.symm)
      rw [e1, if_pos hlen]
      exact raiseFold_raises _ _ hxS (hkeyS x ⟨j, hj, hmt⟩)
    · exact hraise3 x (W.crec x hxold hnx)
  · intro x hfx y hmt
    rcases hfin3r x hfx with hxS | hxold
    · exact hfinS y (hm2 x hxS y hmt)
    · exact hfin3 y (W.mateFin x hxold y hmt)
  · intro a b hfa he
    rcases hfin3r a hfa with haS | haold
    · obtain ⟨hmb, hcl⟩ := hstep a haS b he
      rcases hcl with h | h
      · exact hfinS b h
      · exact hfin3 b h
    · exact hfin3 b (W.noback a b haold he)
  · intro k hk
    rw [e1] at hk
    by_cases hlen : 1 < (pre ++ [c]).length
    · rw [if_pos hlen] at hk
      rcases raiseFold_raised_rev _ _ hk with h | h
      · exact W.rsound k h
      · obtain ⟨j, hjS, hjne⟩ := exists_ne_mem_of_one_lt hlen k
        have hne := hjne hS_nodup h
        have hmk := hm1 k h
        have hmj := hm1 j hjS
        exact Or.inr (Or.inr ⟨j, hne, ⟨hmk.1.trans hmj.2, hmj.1.trans hmk.2⟩⟩)
    · rw [if_neg hlen] at hk
      exact W.rsound k hk

theorem muV_push {orig : FunctionMap} {s s1 : TarjanState} {c : String}
    {r : FunctionNode} (hnv : ¬memRD s c) (hU : c ∈ deadUniv orig)
    (h4 : s1.recData = (c, r) :: s.recData) : muV orig s1 < muV orig s := by
  have hvk : visKeys s1 = c :: visKeys s := by
    unfold visKeys
    rw [h4]
    rfl
  unfold muV
  rw [hvk]
  unfold unvisitedCount
  exact countP_notmem_insert_lt (visKeys s) c
    (fun h => hnv ((memRD_iff_visKeys s c).mpr h)) (deadUniv orig) hU

theorem muV_anti {orig : FunctionMap} {s t : TarjanState}
    (h : ∀ k, memRD s k → memRD t k) : muV orig t ≤ muV orig s := by
  unfold muV
  refine unvisitedCount_anti orig ?_
  intro k hk
  rw [← memRD_iff_visKeys] at hk
  rw [← memRD_iff_visKeys]
  exact h k hk

/-- Precondition of one `tarjan` call: a well-formed state whose whole
stack reaches the unvisited node about to be pushed, with enough fuel. -/
def TVpre (orig : FunctionMap) (fuel : Nat) (c : String) (s : TarjanState)
    (g : List String) : Prop :=
  WFS orig s g ∧ GProp s g ∧ ¬memRD s c ∧
  (∀ x, x ∈ s.stack → callReach orig x c) ∧
  c ∈ deadUniv orig ∧ muV orig s < fuel

/-- Postcondition of one `tarjan` call. -/
def TVpost (orig : FunctionMap) (c : String) (s : TarjanState)
    (g : List String) (t : TarjanState) : Prop :=
  WFS orig t g ∧
  (∃ pre, t.stack = pre ++ s.stack ∧ ∀ x, x ∈ pre → s.index ≤ idxN t x) ∧
  (∀ k, memRD s k → t.recData.lookup k = s.recData.lookup k) ∧
  memRD t c ∧ idxN t c = s.index ∧
  s.index < t.index ∧
  muV orig t < muV orig s ∧
  (∀ k, raisedIn s.functions k → raisedIn t.functions k) ∧
  ((t.stack = s.stack ∧ lowN t c = idxN t c) ∨ c ∈ t.stack) ∧
  (∀ x, x ∈ t.stack → s.index ≤ idxN t x → lowN t c ≤ lowN t x ∧ idxN t c ≤ idxN t x)

/-- The full specification of `tarjanVisit` at a given fuel. -/
def TV2 (orig : FunctionMap) (fuel : Nat) : Prop :=
  ∀ c s g, TVpre orig fuel c s g → TVpost orig c s g (tarjanVisit fuel c s)

theorem GProp_congr {s t : TarjanState} {g : List String} (GP : GProp s g)
    (h3 : t.stack = s.stack) (h4 : t.recData = s.recData) : GProp t g := by
  have hidx : ∀ k, idxN t k = idxN s k := by intro k; unfold idxN; rw [h4]
  have hlow : ∀ k, lowN t k = lowN s k := by intro k; unfold lowN; rw [h4]
  intro x hx hxg
  rw [h3] at hx
  obtain ⟨z, hz, hzi, hzl, hzm⟩ := GP x hx hxg
  refine ⟨z, hz, ?_, ?_, ?_⟩
  · rw [hidx z, hidx x]; exact hzi
  · rw [hlow z, hlow x]; exact hzl
  · intro z' hz' hlt
    rw [hidx z', hidx x] at hlt
    rw [hidx z', hidx z]
    exact hzm z' hz' hlt

theorem GProp_updLow {s : TarjanState} {g : List String} {c : String}
    (GP : GProp s g) (hcg : c ∈ g) (v : Nat) :
    GProp (updateLowlinkMin s c v) g := by
  intro x hx hxg
  rw [updLow_stack] at hx
  have hxc : x ≠ c := fun he => hxg (he ▸ hcg)
  obtain ⟨z, hz, hzi, hzl, hzm⟩ := GP x hx hxg
  refine ⟨z, hz, ?_, ?_, ?_⟩
  · rw [updLow_idxN, updLow_idxN]; exact hzi
  · rw [updLow_lowN_ne s c v hxc]
    by_cases hzc : z = c
    · subst hzc
      cases hl : s.recData.lookup z with
      | none =>
          have h0 : lowN (updateLowlinkMin s z v) z = 0 := by
            unfold lowN
            rw [updLow_lookup_self, hl]
            rfl
          rw [h0]
          exact Nat.zero_le _
      | some r =>
          rw [updLow_lowN_self hl v]
          rw [lowN_lookup hl] at hzl
          exact le_trans (min_le_left _ _) hzl
    · rw [updLow_lowN_ne s c v hzc]
      exact hzl
  · intro z' hz' hlt
    rw [updLow_idxN, updLow_idxN] at hlt
    rw [updLow_idxN, updLow_idxN]
    exact hzm z' hz' hlt

theorem WFS_setFunctions {orig : FunctionMap} {s t : TarjanState} {g : List String}
    (W : WFS orig s g) (hF1 : Good orig t.functions)
    (hF2 : ∀ k, raisedIn s.functions k → raisedIn t.functions k)
    (hF3 : ∀ k, raisedIn t.functions k →
      raisedIn orig k ∨ selfLoopKey orig k ∨ NontrivMate orig k)
    (h2 : t.index = s.index) (h3 : t.stack = s.stack) (h4 : t.recData = s.recData) :
    WFS orig t g := by
  have hidx : ∀ k, idxN t k = idxN s k := by intro k; unfold idxN; rw [h4]
  have hlow : ∀ k, lowN t k = lowN s k := by intro k; unfold lowN; rw [h4]
  have hmem : ∀ k, memRD t k ↔ memRD s k := by intro k; unfold memRD; rw [h4]
  have hfin : ∀ k, finS t k ↔ finS s k := by
    intro k
    unfold finS
    rw [h3]
    constructor
    · intro ⟨a, b⟩; exact ⟨(hmem k).mp a, b⟩
    · intro ⟨a, b⟩; exact ⟨(hmem k).mpr a, b⟩
  refine ⟨hF1, ?_, ?_, ?_, ?_, ?_, ?_, ?_, ?_, ?_, ?_, ?_, ?_, ?_, ?_, ?_, ?_, ?_, ?_⟩
  · rw [h3]; exact W.stackNodup
  · intro x hx
    rw [h3] at hx
    exact (hmem x).mpr (W.stackVis x hx)
  · intro k r hk
    rw [h4] at hk
    rw [h3]
    exact W.flagCoh k r hk
  · intro k r hk
    rw [h4] at hk
    rw [h2]
    exact W.idxBound k r hk
  · intro k k' r r' hk hk' hne
    rw [h4] at hk hk'
    exact W.idxInj k k' r r' hk hk' hne
  · rw [h3]
    refine List.Pairwise.imp_of_mem ?_ W.stackSorted
    intro a b _ _ hab
    rw [hidx a, hidx b]
    exact hab
  · intro z hz
    rw [h3]
    exact W.graySub z hz
  · refine List.Pairwise.imp_of_mem ?_ W.grayOrder
    intro a b _ _ hab
    rw [hidx a, hidx b]
    exact hab
  · intro k r hk
    rw [h4] at hk
    exact W.lowLe k r hk
  · intro x y hx hy hle
    rw [h3] at hx hy
    rw [hidx x, hidx y] at hle
    exact W.rup x y hx hy hle
  · intro x hx
    rw [h3] at hx
    obtain ⟨m, hm, hmi, hmr⟩ := W.ljust x hx
    exact ⟨m, by rw [h3]; exact hm, by rw [hidx m, hlow x]; exact hmi, hmr⟩
  · intro x hx hxg
    rw [h3] at hx
    rw [hlow x, hidx x]
    exact W.strict x hx hxg
  · intro a ha hag b hb
    exact (hmem b).mpr (W.ecl a ((hmem a).mp ha) hag b hb)
  · intro a ha hag b hb hbs
    rw [h3] at hbs
    rw [hlow a, hidx b]
    exact W.edgeLow a ((hmem a).mp ha) hag b hb hbs
  · intro x hf hn
    exact hF2 x (W.crec x ((hfin x).mp hf) hn)
  · intro x hf y hmt
    exact (hfin y).mpr (W.mateFin x ((hfin x).mp hf) y hmt)
  · intro a b hf he
    exact (hfin b).mpr (W.noback a b ((hfin a).mp hf) he)
  · exact hF3

theorem WFS_updLow {orig : FunctionMap} {s : TarjanState} {g' : List String}
    {c : String} (W : WFS orig s g') (hcg : c ∈ g') (v : Nat)
    (hjust : lowN s c ≤ v ∨ ∃ m, m ∈ s.stack ∧ idxN s m = v ∧ callReach orig c m) :
    WFS orig (updateLowlinkMin s c v) g' := by
  have hlk3 : ∀ k r, (updateLowlinkMin s c v).recData.lookup k = some r →
      ∃ r0, s.recData.lookup k = some r0 ∧ r.index = r0.index ∧
        r.inStack = r0.inStack ∧ r.lowlink ≤ r0.lowlink := by
    intro k r hk
    by_cases he : k = c
    · subst he
      rw [updLow_lookup_self] at hk
      cases hl : s.recData.lookup k with
      | none => rw [hl] at hk; exact Option.noConfusion hk
      | some r0 =>
          rw [hl] at hk
          injection hk with hr
          refine ⟨r0, rfl, by rw [← hr], by rw [← hr], ?_⟩
          rw [← hr]
          exact min_le_left _ _
    · rw [updLow_lookup_ne s c v he] at hk
      exact ⟨r, hk, rfl, rfl, le_rfl⟩
  have hfin : ∀ k, finS (updateLowlinkMin s c v) k ↔ finS s k := by
    intro k
    unfold finS
    rw [updLow_stack]
    constructor
    · intro ⟨a, b⟩; exact ⟨(updateLowlinkMin_memRD s c v k).mp a, b⟩
    · intro ⟨a, b⟩; exact ⟨(updateLowlinkMin_memRD s c v k).mpr a, b⟩
  refine ⟨?_, ?_, ?_, ?_, ?_, ?_, ?_, ?_, ?_, ?_, ?_, ?_, ?_, ?_, ?_, ?_, ?_, ?_, ?_⟩
  · rw [updateLowlinkMin_functions]
    exact W.good
  · rw [updLow_stack]
    exact W.stackNodup
  · intro x hx
    rw [updLow_stack] at hx
    exact (updateLowlinkMin_memRD s c v x).mpr (W.stackVis x hx)
  · intro k r hk
    obtain ⟨r0, h0, _, hins, _⟩ := hlk3 k r hk
    rw [hins, updLow_stack]
    exact W.flagCoh k r0 h0
  · intro k r hk
    obtain ⟨r0, h0, hi, _, _⟩ := hlk3 k r hk
    rw [hi, updLow_index]
    exact W.idxBound k r0 h0
  · intro k k' r r' hk hk' hne
    obtain ⟨r0, h0, hi, _, _⟩ := hlk3 k r hk
    obtain ⟨r0', h0', hi', _, _⟩ := hlk3 k' r' hk'
    rw [hi, hi']
    exact W.idxInj k k' r0 r0' h0 h0' hne
  · rw [updLow_stack]
    refine List.Pairwise.imp_of_mem ?_ W.stackSorted
    intro a b _ _ hab
    rw [updLow_idxN, updLow_idxN]
    exact hab
  · intro z hz
    rw [updLow_stack]
    exact W.graySub z hz
  · refine List.Pairwise.imp_of_mem ?_ W.grayOrder
    intro a b _ _ hab
    rw [updLow_idxN, updLow_idxN]
    exact hab
  · intro k r hk
    obtain ⟨r0, h0, hi, _, hll⟩ := hlk3 k r hk
    rw [hi]
    exact le_trans hll (W.lowLe k r0 h0)
  · intro x y hx hy hle
    rw [updLow_stack] at hx hy
    rw [updLow_idxN, updLow_idxN] at hle
    exact W.rup x y hx hy hle
  · intro x hx
    rw [updLow_stack] at hx
    by_cases hxc : x = c
    · subst hxc
      obtain ⟨rc, hrc⟩ := memRD_lookup (W.stackVis x hx)
      rw [updLow_lowN_self hrc v]
      by_cases hv : v < rc.lowlink
      · have hmin : min rc.lowlink v = v := min_eq_right (le_of_lt hv)
        rcases hjust with hle | ⟨m, hm, hmi, hmr⟩
        · rw [lowN_lookup hrc] at hle
          omega
        · exact ⟨m, by rw [updLow_stack]; exact hm,
            by rw [updLow_idxN, hmin]; exact hmi, hmr⟩
      · have hmin : min rc.lowlink v = rc.lowlink := min_eq_left (by omega)
        obtain ⟨m, hm, hmi, hmr⟩ := W.ljust x hx
        refine ⟨m, by rw [updLow_stack]; exact hm, ?_, hmr⟩
        rw [updLow_idxN, hmin, hmi, lowN_lookup hrc]
    · rw [updLow_lowN_ne s c v hxc]
      obtain ⟨m, hm, hmi, hmr⟩ := W.ljust x hx
      exact ⟨m, by rw [updLow_stack]; exact hm, by rw [updLow_idxN]; exact hmi, hmr⟩
  · intro x hx hxg
    rw [updLow_stack] at hx
    have hxc : x ≠ c := fun he => hxg (he ▸ hcg)
    rw [updLow_lowN_ne s c v hxc, updLow_idxN]
    exact W.strict x hx hxg
  · intro a ha hag b hb
    exact (updateLowlinkMin_memRD s c v b).mpr
      (W.ecl a ((updateLowlinkMin_memRD s c v a).mp ha) hag b hb)
  · intro a ha hag b hb hbs
    have hac : a ≠ c := fun he => hag (he ▸ hcg)
    rw [updLow_stack] at hbs
    rw [updLow_lowN_ne s c v hac, updLow_idxN]
    exact W.edgeLow a ((updateLowlinkMin_memRD s c v a).mp ha) hag b hb hbs
  · intro x hf hn
    have : raisedIn s.functions x := W.crec x ((hfin x).mp hf) hn
    rw [updateLowlinkMin_functions]
    exact this
  · intro x hf y hmt
    exact (hfin y).mpr (W.mateFin x ((hfin x).mp hf) y hmt)
  · intro a b hf he
    exact (hfin b).mpr (W.noback a b ((hfin a).mp hf) he)
  · intro k hk
    rw [updateLowlinkMin_functions] at hk
    exact W.rsound k hk

theorem WFS_degray {orig : FunctionMap} {s : TarjanState} {g : List String}
    {c : String} (W : WFS orig s (c :: g))
    (hcst : c ∈ s.stack → lowN s c < idxN s c)
    (hecl : ∀ b, callEdge orig c b → memRD s b)
    (hedge : ∀ b, callEdge orig c b → b ∈ s.stack → lowN s c ≤ idxN s b) :
    WFS orig s g := by
  refine ⟨W.good, W.stackNodup, W.stackVis, W.flagCoh, W.idxBound, W.idxInj,
    W.stackSorted, ?_, ?_, W.lowLe, W.rup, W.ljust, ?_, ?_, ?_,
    W.crec, W.mateFin, W.noback, W.rsound⟩
  · intro z hz
    exact W.graySub z (List.mem_cons.mpr (Or.inr hz))
  · exact (List.pairwise_cons.mp W.grayOrder).2
  · intro x hx hxg
    by_cases hxc : x = c
    · subst hxc
      exact hcst hx
    · refine W.strict x hx ?_
      intro h
      rcases List.mem_cons.mp h with he | h'
      · exact hxc he
      · exact hxg h'
  · intro a ha hag b hb
    by_cases hac : a = c
    · subst hac
      exact hecl b hb
    · refine W.ecl a ha ?_ b hb
      intro h
      rcases List.mem_cons.mp h with he | h'
      · exact hac he
      · exact hag h'
  · intro a ha hag b hb hbs
    by_cases hac : a = c
    · subst hac
      exact hedge b hb hbs
    · refine W.edgeLow a ha ?_ b hb hbs
      intro h
      rcases List.mem_cons.mp h with he | h'
      · exact hac he
      · exact hag h'

/-- Invariant carried through the callee loop of one `tarjan` call:
`c` is the caller (innermost gray), `i0` its discovery index, `σ` the
stack below it, `ρ₀` the records on entry, `baseF` the map on entry,
`μ1` the measure bound, `done` the processed callees. -/
def FoldInv (orig : FunctionMap) (c : String) (g : List String) (i0 : Nat)
    (σ : List String) (ρ₀ : List (String × FunctionNode)) (baseF : FunctionMap)
    (μ1 : Nat) (done : List String) (cur : TarjanState) : Prop :=
  WFS orig cur (c :: g) ∧ GProp cur (c :: g) ∧
  (∃ pre, cur.stack = pre ++ c :: σ ∧ ∀ x, x ∈ pre → i0 < idxN cur x) ∧
  idxN cur c = i0 ∧ i0 < cur.index ∧
  (∀ k, (ρ₀.lookup k).isSome = true → cur.recData.lookup k = ρ₀.lookup k) ∧
  muV orig cur ≤ μ1 ∧
  (∀ k, raisedIn baseF k → raisedIn cur.functions k) ∧
  (∀ b, b ∈ done → memRD cur b ∧ (b ∈ cur.stack → lowN cur c ≤ idxN cur b))

theorem calleeStep_ne_none_eq {visit : String → TarjanState → TarjanState}
    {caller : String} (fnSnap : FunctionCall) {st : TarjanState} {c2 : String}
    {d2 : FunctionNode} (hc : c2 ≠ caller) (h : st.recData.lookup c2 = none)
    (h2 : (visit c2 st).recData.lookup c2 = some d2) :
    calleeStep visit caller fnSnap st c2 =
      updateLowlinkMin (visit c2 st) caller d2.lowlink := by
  simp only [calleeStep, if_neg hc, h, h2]

theorem memRD_of_lookup {s : TarjanState} {k : String} {r : FunctionNode}
    (h : s.recData.lookup k = some r) : memRD s k := by
  unfold memRD
  rw [h]
  rfl

theorem not_memRD_of_lookup {s : TarjanState} {k : String}
    (h : s.recData.lookup k = none) : ¬memRD s k := by
  unfold memRD
  rw [h]
  simp

theorem tarjanCalleeStep_ok {orig : FunctionMap} (hnd : (orig.map Prod.fst).Nodup)
    {fuel : Nat} (ihT : TV2 orig fuel) {c : String} {g : List String} {i0 : Nat}
    {σ : List String} {ρ₀ : List (String × FunctionNode)} {baseF : FunctionMap}
    {μ1 : Nat} {fc0 fn : FunctionCall} (hfc0 : orig.lookup c = some fc0)
    (hsnap : raiseRec fn = raiseRec fc0) (hρc : ρ₀.lookup c = none)
    (hμf : μ1 < fuel) (c2 : String) (hc2 : c2 ∈ fc0.callees)
    {done : List String} {cur : TarjanState}
    (INV : FoldInv orig c g i0 σ ρ₀ baseF μ1 done cur) :
    FoldInv orig c g i0 σ ρ₀ baseF μ1 (done ++ [c2])
      (calleeStep (tarjanVisit fuel) c fn cur c2) := by
  obtain ⟨W, GP, ⟨pre, hshape, hpre⟩, hidxc, hic, hold, hμ, hrm, hacc⟩ := INV
  have hcstk : c ∈ cur.stack := by
    rw [hshape]
    exact List.mem_append.mpr (Or.inr (List.mem_cons.mpr (Or.inl rfl)))
  have hmc : memRD cur c := W.stackVis c hcstk
  obtain ⟨rc, hrc⟩ := memRD_lookup hmc
  have hlowc_le : lowN cur c ≤ i0 := by
    rw [← hidxc, lowN_lookup hrc, idxN_lookup hrc]
    exact W.lowLe c rc hrc
  have hedge : callEdge orig c c2 := ⟨fc0, hfc0, hc2⟩
  have hρne : ∀ k, (ρ₀.lookup k).isSome = true → k ≠ c := by
    intro k hk he
    rw [he, hρc] at hk
    simp at hk
  by_cases hc2c : c2 = c
  · -- self-loop: store the raised snapshot
    subst hc2c
    have he : calleeStep (tarjanVisit fuel) c2 fn cur c2 =
        ⟨updateAssoc cur.functions c2 (raiseRec fc0), cur.index, cur.stack,
          cur.recData⟩ := by
      rw [calleeStep, if_pos rfl, hsnap]
    rw [he]
    have hT : updateAssoc cur.functions c2 (raiseRec fc0) =
        raiseStep cur.functions c2 := by
      rcases good_lookup W.good hfc0 with hfcc | hfcc
      · rw [raiseStep_some hfcc]
      · rw [raiseStep_some hfcc, raiseRec_idem]
    refine ⟨?_, GProp_congr GP rfl rfl, ⟨pre, hshape, hpre⟩, hidxc, hic, hold, hμ,
      ?_, ?_⟩
    · refine WFS_setFunctions W ?_ ?_ ?_ rfl rfl rfl
      · exact good_update hnd W.good hfc0
      · intro k hk
        show raisedIn (updateAssoc cur.functions c2 (raiseRec fc0)) k
        rw [hT]
        exact raiseStep_raised_mono c2 hk
      · intro k hk
        by_cases hkc : k = c2
        · subst hkc
          exact Or.inr (Or.inl ⟨fc0, hfc0, hc2⟩)
        · obtain ⟨fc', hfc', hr⟩ := hk
          rw [show (⟨updateAssoc cur.functions c2 (raiseRec fc0), cur.index,
              cur.stack, cur.recData⟩ : TarjanState).functions =
              updateAssoc cur.functions c2 (raiseRec fc0) from rfl,
            updateAssoc_lookup_other _ hkc] at hfc'
          exact W.rsound k ⟨fc', hfc', hr⟩
    · intro k hk
      show raisedIn (updateAssoc cur.functions c2 (raiseRec fc0)) k
      rw [hT]
      exact raiseStep_raised_mono c2 (hrm k hk)
    · intro b hb
      rcases List.mem_append.mp hb with hb' | hb'
      · exact hacc b hb'
      · rw [List.mem_singleton] at hb'
        rw [hb']
        refine ⟨hmc, fun _ => ?_⟩
        show lowN cur c2 ≤ idxN cur c2
        rw [hidxc]
        exact hlowc_le
  · cases hrd : cur.recData.lookup c2 with
    | some d =>
        by_cases hin : d.inStack = true
        · -- already on the stack: only the caller's lowlink shrinks
          have he : calleeStep (tarjanVisit fuel) c fn cur c2 =
              updateLowlinkMin cur c d.index := by
            simp only [calleeStep, if_neg hc2c, hrd, hin, if_true]
          rw [he]
          have hc2stk : c2 ∈ cur.stack := (W.flagCoh c2 d hrd).mp hin
          refine ⟨?_, GProp_updLow GP (List.mem_cons.mpr (Or.inl rfl)) d.index,
            ⟨pre, by rw [updLow_stack]; exact hshape,
              fun x hx => by rw [updLow_idxN]; exact hpre x hx⟩,
            by rw [updLow_idxN]; exact hidxc,
            by rw [updLow_index]; exact hic, ?_, ?_, ?_, ?_⟩
          · refine WFS_updLow W (List.mem_cons.mpr (Or.inl rfl)) d.index
              (Or.inr ⟨c2, hc2stk, idxN_lookup hrd, Relation.ReflTransGen.single hedge⟩)
          · intro k hk
            rw [updLow_lookup_ne cur c d.index (hρne k hk)]
            exact hold k hk
          · have hμeq : muV orig (updateLowlinkMin cur c d.index) = muV orig cur := by
              unfold muV
              rw [updLow_visKeys]
            rw [hμeq]
            exact hμ
          · intro k hk
            rw [updateLowlinkMin_functions]
            exact hrm k hk
          · intro b hb
            rcases List.mem_append.mp hb with hb' | hb'
            · obtain ⟨hmb, hsb⟩ := hacc b hb'
              refine ⟨(updateLowlinkMin_memRD cur c d.index b).mpr hmb, ?_⟩
              intro hbs
              rw [updLow_stack] at hbs
              rw [updLow_lowN_self hrc d.index, updLow_idxN]
              have h1 := hsb hbs
              rw [lowN_lookup hrc] at h1
              have h2 := min_le_left rc.lowlink d.index
              omega
            · rw [List.mem_singleton] at hb'
              subst hb'
              refine ⟨(updateLowlinkMin_memRD cur c d.index b).mpr
                (memRD_of_lookup hrd), ?_⟩
              intro _
              rw [updLow_lowN_self hrc d.index, updLow_idxN, idxN_lookup hrd]
              exact min_le_right _ _
        · -- visited but finished: nothing changes
          have he : calleeStep (tarjanVisit fuel) c fn cur c2 = cur := by
            simp only [calleeStep, if_neg hc2c, hrd,
              show d.inStack = false from by simpa using hin,
              Bool.false_eq_true, if_false]
          rw [he]
          refine ⟨W, GP, ⟨pre, hshape, hpre⟩, hidxc, hic, hold, hμ, hrm, ?_⟩
          intro b hb
          rcases List.mem_append.mp hb with hb' | hb'
          · exact hacc b hb'
          · rw [List.mem_singleton] at hb'
            subst hb'
            exact ⟨memRD_of_lookup hrd,
              fun hbs => ((hin ((W.flagCoh b d hrd).mpr hbs)).elim)⟩
    | none =>
        -- unvisited: recursive call, then the caller's lowlink shrinks
        have hpre2 : TVpre orig fuel c2 cur (c :: g) := by
          refine ⟨W, GP, not_memRD_of_lookup hrd, ?_,
            callee_mem_deadUniv hedge, by omega⟩
          intro x hx
          exact (allReach W x hx).trans (Relation.ReflTransGen.single hedge)
        have hpost := ihT c2 cur (c :: g) hpre2
        obtain ⟨W', ⟨pre', hshape2, hpre2'⟩, hold', hmem', hidx', himono', hμ',
          hrm', hdich', hgpp'⟩ := hpost
        obtain ⟨d2, hd2⟩ := memRD_lookup hmem'
        have he := calleeStep_ne_none_eq fn hc2c hrd hd2
        rw [he]
        have hlowd2 : lowN (tarjanVisit fuel c2 cur) c2 = d2.lowlink :=
          lowN_lookup hd2
        have hidxd2 : idxN (tarjanVisit fuel c2 cur) c2 = d2.index :=
          idxN_lookup hd2
        have hidxp : ∀ k, memRD cur k →
            idxN (tarjanVisit fuel c2 cur) k = idxN cur k := by
          intro k hk
          unfold idxN
          rw [hold' k hk]
        have hlowp : ∀ k, memRD cur k →
            lowN (tarjanVisit fuel c2 cur) k = lowN cur k := by
          intro k hk
          unfold lowN
          rw [hold' k hk]
        have hmemp : ∀ k, memRD cur k → memRD (tarjanVisit fuel c2 cur) k := by
          intro k hk
          have h2 := hold' k hk
          unfold memRD at hk ⊢
          rw [h2]
          exact hk
        have hcvis : ∀ x, x ∈ cur.stack → memRD cur x := W.stackVis
        have hnew_ge : ∀ x, x ∈ pre' → cur.index ≤ idxN (tarjanVisit fuel c2 cur) x :=
          hpre2'
        have hold_lt : ∀ x, memRD cur x →
            idxN (tarjanVisit fuel c2 cur) x < cur.index := by
          intro x hx
          obtain ⟨r, hr⟩ := memRD_lookup hx
          rw [hidxp x hx, idxN_lookup hr]
          exact W.idxBound x r hr
        have hnotpre' : ∀ x, memRD cur x → ¬x ∈ pre' := by
          intro x hx hxp
          have h1 := hnew_ge x hxp
          have h2 := hold_lt x hx
          omega
        have hjust : lowN (tarjanVisit fuel c2 cur) c ≤ d2.lowlink ∨
            ∃ m, m ∈ (tarjanVisit fuel c2 cur).stack ∧
              idxN (tarjanVisit fuel c2 cur) m = d2.lowlink ∧ callReach orig c m := by
          rcases hdich' with ⟨_, hpoplow⟩ | hsurv
          · left
            rw [hlowd2, hidxd2] at hpoplow
            rw [hlowp c hmc, lowN_lookup hrc]
            have h1 := W.lowLe c rc hrc
            have h2 : rc.index = i0 := by rw [← hidxc, idxN_lookup hrc]
            have h3 : d2.index = cur.index := by rw [← hidxd2]; exact hidx'
            omega
          · right
            obtain ⟨m, hm, hmi, hmr⟩ := W'.ljust c2 hsurv
            rw [hlowd2] at hmi
            exact ⟨m, hm, hmi, (Relation.ReflTransGen.single hedge).trans hmr⟩
        refine ⟨WFS_updLow W' (List.mem_cons.mpr (Or.inl rfl)) d2.lowlink hjust,
          ?_, ?_, ?_, ?_, ?_, ?_, ?_, ?_⟩
        · -- GProp after restoring the caller's lowlink
          intro x hx hxg
          rw [updLow_stack] at hx
          have hxc : x ≠ c :=
            fun hh => hxg (hh ▸ List.mem_cons.mpr (Or.inl rfl))
          have hxg2 : ¬x ∈ g := fun hh => hxg (List.mem_cons.mpr (Or.inr hh))
          have hlowtc : lowN (updateLowlinkMin (tarjanVisit fuel c2 cur) c
              d2.lowlink) c = min (lowN (tarjanVisit fuel c2 cur) c) d2.lowlink := by
            obtain ⟨rc', hrc'⟩ := memRD_lookup (hmemp c hmc)
            rw [updLow_lowN_self hrc' d2.lowlink, lowN_lookup hrc']
          have hidxtc : idxN (updateLowlinkMin (tarjanVisit fuel c2 cur) c
              d2.lowlink) c = i0 := by
            rw [updLow_idxN, hidxp c hmc, hidxc]
          rw [hshape2] at hx
          rcases List.mem_append.mp hx with hxn | hxo
          · -- new survivor: the caller is its innermost gray and now bounds it
            have hgx := hgpp' x (by rw [hshape2]; exact List.mem_append.mpr (Or.inl hxn))
              (hnew_ge x hxn)
            refine ⟨c, List.mem_cons.mpr (Or.inl rfl), ?_, ?_, ?_⟩
            · rw [hidxtc, updLow_idxN]
              have := hnew_ge x hxn
              omega
            · rw [hlowtc, updLow_lowN_ne _ _ _ hxc]
              have h1 := hgx.1
              rw [hlowd2] at h1
              exact le_trans (min_le_right _ _) h1
            · intro z' hz' hlt
              rcases List.mem_cons.mp hz' with rfl | hz''
              · rw [hidxtc]
              · have hz'v : memRD cur z' :=
                  hcvis z' (W.graySub z' (List.mem_cons.mpr (Or.inr hz'')))
                rw [updLow_idxN, hidxp z' hz'v, hidxtc]
                have hzlt := (List.pairwise_cons.mp W.grayOrder).1 z' hz''
                rw [hidxc] at hzlt
                omega
          · -- node already present before the nested call
            have hxv : memRD cur x := hcvis x hxo
            obtain ⟨z, hz, hzi, hzl, hzm⟩ := GP x hxo hxg
            have hzv : memRD cur z :=
              hcvis z (W.graySub z hz)
            refine ⟨z, hz, ?_, ?_, ?_⟩
            · rw [updLow_idxN, updLow_idxN, hidxp z hzv, hidxp x hxv]
              exact hzi
            · rw [updLow_lowN_ne _ _ _ hxc, hlowp x hxv]
              rcases List.mem_cons.mp hz with rfl | hzg
              · rw [hlowtc, hlowp z hmc]
                exact le_trans (min_le_left _ _) hzl
              · have hzc : z ≠ c := by
                  intro hh
                  subst hh
                  have := (List.pairwise_cons.mp W.grayOrder).1 z hzg
                  omega
                rw [updLow_lowN_ne _ _ _ hzc, hlowp z hzv]
                exact hzl
            · intro z' hz' hlt
              have hz'v : memRD cur z' :=
                hcvis z' (W.graySub z' hz')
              rw [updLow_idxN, updLow_idxN, hidxp z' hz'v, hidxp x hxv] at hlt
              rw [updLow_idxN, updLow_idxN, hidxp z' hz'v, hidxp z hzv]
              exact hzm z' hz' hlt
        · -- stack shape
          refine ⟨pre' ++ pre, ?_, ?_⟩
          · rw [updLow_stack, hshape2, hshape, List.append_assoc]
          · intro x hx
            rw [updLow_idxN]
            rcases List.mem_append.mp hx with hxn | hxo
            · have := hnew_ge x hxn
              omega
            · have hxv : memRD cur x := by
                refine hcvis x ?_
                rw [hshape]
                exact List.mem_append.mpr (Or.inl hxo)
              rw [hidxp x hxv]
              exact hpre x hxo
        · rw [updLow_idxN, hidxp c hmc]
          exact hidxc
        · rw [updLow_index]
          omega
        · intro k hk
          have hkc := hρne k hk
          have hcur := hold k hk
          have hkv : memRD cur k := by
            unfold memRD
            rw [hcur]
            exact hk
          rw [updLow_lookup_ne (tarjanVisit fuel c2 cur) c d2.lowlink hkc,
            hold' k hkv]
          exact hcur
        · have hμeq : muV orig (updateLowlinkMin (tarjanVisit fuel c2 cur) c
              d2.lowlink) = muV orig (tarjanVisit fuel c2 cur) := by
            unfold muV
            rw [updLow_visKeys]
          rw [hμeq]
          omega
        · intro k hk
          rw [updateLowlinkMin_functions]
          exact hrm' k (hrm k hk)
        · intro b hb
          rcases List.mem_append.mp hb with hb' | hb'
          · obtain ⟨hmb, hsb⟩ := hacc b hb'
            refine ⟨(updateLowlinkMin_memRD _ _ _ b).mpr (hmemp b hmb), ?_⟩
            intro hbs
            rw [updLow_stack, hshape2] at hbs
            have hbo : b ∈ cur.stack := by
              rcases List.mem_append.mp hbs with hbn | hbo
              · exact absurd hbn (hnotpre' b hmb)
              · exact hbo
            have h1 := hsb hbo
            obtain ⟨rc', hrc'⟩ := memRD_lookup (hmemp c hmc)
            rw [updLow_lowN_self hrc' d2.lowlink, updLow_idxN, hidxp b hmb]
            have h2 : rc'.lowlink = lowN cur c := by
              rw [← lowN_lookup hrc']
              exact hlowp c hmc
            have h3 := min_le_left rc'.lowlink d2.lowlink
            omega
          · rw [List.mem_singleton] at hb'
            rw [hb']
            refine ⟨(updateLowlinkMin_memRD _ _ _ c2).mpr hmem', ?_⟩
            intro _
            obtain ⟨rc', hrc'⟩ := memRD_lookup (hmemp c hmc)
            rw [updLow_lowN_self hrc' d2.lowlink, updLow_idxN, hidxd2]
            have h1 := W'.lowLe c2 d2 hd2
            have h2 := min_le_right rc'.lowlink d2.lowlink
            omega

theorem tarjanFold_ok {orig : FunctionMap} (hnd : (orig.map Prod.fst).Nodup)
    {fuel : Nat} (ihT : TV2 orig fuel) {c : String} {g : List String} {i0 : Nat}
    {σ : List String} {ρ₀ : List (String × FunctionNode)} {baseF : FunctionMap}
    {μ1 : Nat} {fc0 fn : FunctionCall} (hfc0 : orig.lookup c = some fc0)
    (hsnap : raiseRec fn = raiseRec fc0) (hρc : ρ₀.lookup c = none)
    (hμf : μ1 < fuel) :
    ∀ (cs done : List String) (cur : TarjanState),
      (∀ b, b ∈ cs → b ∈ fc0.callees) →
      FoldInv orig c g i0 σ ρ₀ baseF μ1 done cur →
      FoldInv orig c g i0 σ ρ₀ baseF μ1 (done ++ cs)
        (cs.foldl (calleeStep (tarjanVisit fuel) c fn) cur) := by
  intro cs
  induction cs with
  | nil =>
      intro done cur _ hInv
      rw [List.append_nil]
      exact hInv
  | cons c2 cs ih =>
      intro done cur hcs hInv
      rw [List.foldl_cons, List.append_cons]
      exact ih (done ++ [c2]) _ (fun b hb => hcs b (List.mem_cons.mpr (Or.inr hb)))
        (tarjanCalleeStep_ok hnd ihT hfc0 hsnap hρc hμf c2
          (hcs c2 (List.mem_cons.mpr (Or.inl rfl))) hInv)

theorem tarjanVisit_TV2 {orig : FunctionMap} (hnd : (orig.map Prod.fst).Nodup) :
    ∀ fuel : Nat, TV2 orig fuel := by
  intro fuel
  induction fuel with
  | zero =>
      intro c s g hpre
      exact absurd hpre.2.2.2.2.2 (by omega)
  | succ fuel ih =>
      intro c s g hpre
      obtain ⟨W, GP, hnv, hrch, hU, hμ⟩ := hpre
      set s1 : TarjanState :=
        ⟨s.functions, s.index + 1, c :: s.stack,
          (c, ⟨s.index, s.index, true⟩) :: s.recData⟩ with hs1
      have W1 : WFS orig s1 (c :: g) :=
        WFS_push W hnv hrch (by rw [hs1]) (by rw [hs1]) (by rw [hs1]) (by rw [hs1])
      have GP1 : GProp s1 (c :: g) := GProp_push W GP hnv (by rw [hs1]) (by rw [hs1])
      have hμ1 : muV orig s1 < muV orig s := muV_push hnv hU (by rw [hs1])
      have hidxc1 : idxN s1 c = s.index := by
        unfold idxN
        simp only [hs1]
        rw [lookup_cons_self]
      have hlowc1 : lowN s1 c = s.index := by
        unfold lowN
        simp only [hs1]
        rw [lookup_cons_self]
      have hmemc1 : memRD s1 c := by
        unfold memRD
        simp only [hs1]
        rw [lookup_cons_self]
        rfl
      have hlkne1 : ∀ k, k ≠ c → s1.recData.lookup k = s.recData.lookup k := by
        intro k hk
        simp only [hs1]
        exact lookup_cons_ne _ _ hk
      have hρne : ∀ k, memRD s k → k ≠ c := fun k hk he => hnv (he ▸ hk)
      have hold1 : ∀ k, memRD s k → s1.recData.lookup k = s.recData.lookup k :=
        fun k hk => hlkne1 k (hρne k hk)
      have hidxold : ∀ k, memRD s k → idxN s k < s.index := by
        intro k hk
        obtain ⟨r, hr⟩ := memRD_lookup hk
        rw [idxN_lookup hr]
        exact W.idxBound k r hr
      have hρcnone : s.recData.lookup c = none := by
        cases hh : s.recData.lookup c with
        | none => rfl
        | some r => exact absurd (memRD_of_lookup hh) hnv
      cases hlk : s.functions.lookup c with
      | some fn =>
          obtain ⟨fc0, hfc0, hcase⟩ := good_lookup_rev W.good hlk
          have hsnap : raiseRec fn = raiseRec fc0 := by
            rcases hcase with rfl | rfl
            · rfl
            · exact raiseRec_idem fc0
          have hcallees : fn.callees = fc0.callees := by
            rcases hcase with rfl | rfl
            · rfl
            · exact raiseRec_callees fc0
          set s2 : TarjanState :=
            fn.callees.foldl (calleeStep (tarjanVisit fuel) c fn) s1 with hs2
          have heq : tarjanVisit (fuel + 1) c s =
              match s2.recData.lookup c with
              | some rc2 => if rc2.lowlink = rc2.index then popSCC c s2 else s2
              | none => s2 := by
            rw [hs2, hs1]
            simp only [tarjanVisit, hlk]
          have hInv0 : FoldInv orig c g s.index s.stack s.recData s.functions
              (muV orig s1) [] s1 := by
            refine ⟨W1, GP1, ⟨[], by simp [hs1], ?_⟩, hidxc1, ?_, hold1, le_rfl,
              fun k hk => hk, ?_⟩
            · intro x hx
              exact absurd hx (List.not_mem_nil x)
            · simp only [hs1]
              omega
            · intro b hb
              exact absurd hb (List.not_mem_nil b)
          have hμf : muV orig s1 < fuel := by omega
          have hFold := tarjanFold_ok hnd ih hfc0 hsnap hρcnone hμf fn.callees [] s1
            (fun b hb => by rw [← hcallees]; exact hb) hInv0
          rw [List.nil_append, ← hs2] at hFold
          obtain ⟨W2, GP2, ⟨pre2, hshape2, hpre2⟩, hidxc2, hic2, hold2, hμ2, hrm2,
            hacc2⟩ := hFold
          have hmc2 : memRD s2 c := W2.stackVis c (by
            rw [hshape2]
            exact List.mem_append.mpr (Or.inr (List.mem_cons.mpr (Or.inl rfl))))
          obtain ⟨rc2, hrc2⟩ := memRD_lookup hmc2
          have hecl2 : ∀ b, callEdge orig c b → memRD s2 b := by
            intro b hb
            obtain ⟨fcx, hfcx, hbx⟩ := hb
            obtain rfl : fc0 = fcx := by
              rw [hfc0] at hfcx
              injection hfcx
            exact (hacc2 b (by rw [hcallees]; exact hbx)).1
          have hedge2 : ∀ b, callEdge orig c b → b ∈ s2.stack →
              lowN s2 c ≤ idxN s2 b := by
            intro b hb hbs
            obtain ⟨fcx, hfcx, hbx⟩ := hb
            obtain rfl : fc0 = fcx := by
              rw [hfc0] at hfcx
              injection hfcx
            exact (hacc2 b (by rw [hcallees]; exact hbx)).2 hbs
          have hidx2old : ∀ k, memRD s k → idxN s2 k = idxN s k := by
            intro k hk
            unfold idxN
            rw [hold2 k hk]
          have hnotpre2 : ∀ k, memRD s k → ¬k ∈ pre2 := by
            intro k hk hkp
            have h1 := hpre2 k hkp
            have h2 := hidx2old k hk
            have h3 := hidxold k hk
            omega
          rw [heq, hrc2]
          show TVpost orig c s g (if rc2.lowlink = rc2.index then popSCC c s2 else s2)
          by_cases hif : rc2.lowlink = rc2.index
          · rw [if_pos hif]
            have hlow2 : lowN s2 c = idxN s2 c := by
              rw [lowN_lookup hrc2, idxN_lookup hrc2]
              exact hif
            obtain ⟨W3, e3stk, e3idx, hrdN3, hvk3, hraise3, hidx33, hlow33, hfin3⟩ :=
              popOk hnd W2 GP2 hshape2 hlow2 hecl2 hedge2
            have hm3 : ∀ k, memRD (popSCC c s2) k ↔ memRD s2 k := by
              intro k
              rw [memRD_iff_visKeys, memRD_iff_visKeys, hvk3]
            refine ⟨W3, ⟨[], by rw [e3stk, List.nil_append], fun x hx => absurd hx (List.not_mem_nil x)⟩,
              ?_, (hm3 c).mpr hmc2, ?_, ?_, ?_, ?_, ?_, ?_⟩
            · intro k hk
              have hknot : ¬k ∈ pre2 ++ [c] := by
                intro hm
                rcases List.mem_append.mp hm with h' | h'
                · exact hnotpre2 k hk h'
                · rw [List.mem_singleton] at h'
                  exact hρne k hk h'
              rw [hrdN3 k hknot]
              exact hold2 k hk
            · rw [hidx33 c]
              exact hidxc2
            · rw [e3idx]
              exact hic2
            · have hμ3 : muV orig (popSCC c s2) = muV orig s2 := by
                unfold muV
                rw [hvk3]
              rw [hμ3]
              omega
            · intro k hk
              exact hraise3 k (hrm2 k hk)
            · exact Or.inl ⟨e3stk, by rw [hlow33 c, hidx33 c]; exact hlow2⟩
            · intro x hx hge
              exfalso
              rw [e3stk] at hx
              have hxv : memRD s x := W.stackVis x hx
              rw [hidx33 x, hidx2old x hxv] at hge
              have := hidxold x hxv
              omega
          · rw [if_neg hif]
            have hstrict2 : lowN s2 c < idxN s2 c := by
              rw [lowN_lookup hrc2, idxN_lookup hrc2]
              have := W2.lowLe c rc2 hrc2
              omega
            have W3 := WFS_degray W2 (fun _ => hstrict2) hecl2 hedge2
            have hcstk2 : c ∈ s2.stack := by
              rw [hshape2]
              exact List.mem_append.mpr (Or.inr (List.mem_cons.mpr (Or.inl rfl)))
            refine ⟨W3, ⟨pre2 ++ [c], ?_, ?_⟩, hold2, hmc2, hidxc2, hic2, ?_, hrm2,
              Or.inr hcstk2, ?_⟩
            · rw [hshape2, List.append_cons]
            · intro x hx
              rcases List.mem_append.mp hx with h' | h'
              · have := hpre2 x h'
                omega
              · rw [List.mem_singleton] at h'
                rw [h', hidxc2]
            · omega
            · intro x hx hge
              by_cases hxc : x = c
              · rw [hxc]
                exact ⟨le_rfl, le_rfl⟩
              · have hgt : idxN s2 c < idxN s2 x := by
                  rcases Nat.lt_or_ge (idxN s2 c) (idxN s2 x) with h | h
                  · exact h
                  · exfalso
                    obtain ⟨rx, hrx⟩ := memRD_lookup (W2.stackVis x hx)
                    obtain ⟨rcc, hrcc⟩ := memRD_lookup hmc2
                    have hinj := W2.idxInj x c rx rcc hrx hrcc hxc
                    have e1 : rx.index = idxN s2 x := (idxN_lookup hrx).symm
                    have e2 : rcc.index = idxN s2 c := (idxN_lookup hrcc).symm
                    rw [hidxc2] at h e2
                    omega
                have hxnotg : ¬x ∈ c :: g := by
                  intro hm
                  rcases List.mem_cons.mp hm with he | hzg
                  · exact hxc he
                  · have h1 := (List.pairwise_cons.mp W2.grayOrder).1 x hzg
                    omega
                obtain ⟨z, hz, hzi, hzl, hzm⟩ := GP2 x hx hxnotg
                have hzc : z = c := by
                  rcases List.mem_cons.mp hz with he | hzg
                  · exact he
                  · exfalso
                    have h1 := (List.pairwise_cons.mp W2.grayOrder).1 z hzg
                    have h2 := hzm c (List.mem_cons.mpr (Or.inl rfl)) hgt
                    omega
                subst hzc
                exact ⟨hzl, le_of_lt hzi⟩
      | none =>
          have heq : tarjanVisit (fuel + 1) c s = popSCC c s1 := by
            rw [hs1]
            simp only [tarjanVisit, hlk]
            rw [lookup_cons_self]
            show (if s.index = s.index then _ else _) = _
            rw [if_pos rfl]
          have hnoedge : ∀ b, ¬callEdge orig c b := by
            intro b hb
            obtain ⟨fcx, hfcx, _⟩ := hb
            have h1 : (s.functions.lookup c).isSome = true :=
              (good_isSome W.good c).mp (by rw [hfcx]; rfl)
            rw [hlk] at h1
            simp at h1
          have hstk1 : s1.stack = [] ++ c :: s.stack := by simp [hs1]
          have hlow1 : lowN s1 c = idxN s1 c := by rw [hlowc1, hidxc1]
          obtain ⟨W3, e3stk, e3idx, hrdN3, hvk3, hraise3, hidx33, hlow33, hfin3⟩ :=
            popOk hnd W1 GP1 hstk1 hlow1 (fun b hb => absurd hb (hnoedge b))
              (fun b hb _ => absurd hb (hnoedge b))
          have hm3 : ∀ k, memRD (popSCC c s1) k ↔ memRD s1 k := by
            intro k
            rw [memRD_iff_visKeys, memRD_iff_visKeys, hvk3]
          rw [heq]
          refine ⟨W3, ⟨[], by rw [e3stk, List.nil_append], fun x hx => absurd hx (List.not_mem_nil x)⟩,
            ?_, (hm3 c).mpr hmemc1, ?_, ?_, ?_, ?_, ?_, ?_⟩
          · intro k hk
            have hknot : ¬k ∈ ([] : List String) ++ [c] := by
              intro hm
              rcases List.mem_append.mp hm with h' | h'
              · exact absurd h' (List.not_mem_nil k)
              · rw [List.mem_singleton] at h'
                exact hρne k hk h'
            rw [hrdN3 k hknot]
            exact hold1 k hk
          · rw [hidx33 c]
            exact hidxc1
          · rw [e3idx]
            simp only [hs1]
            omega
          · have hμ3 : muV orig (popSCC c s1) = muV orig s1 := by
              unfold muV
              rw [hvk3]
            rw [hμ3]
            omega
          · intro k hk
            exact hraise3 k hk
          · exact Or.inl ⟨e3stk, by rw [hlow33 c, hidx33 c]; exact hlow1⟩
          · intro x hx hge
            exfalso
            rw [e3stk] at hx
            have hxv : memRD s x := W.stackVis x hx
            have h2 : idxN s1 x = idxN s x := by
              unfold idxN
              rw [hold1 x hxv]
            rw [hidx33 x, h2] at hge
            have := hidxold x hxv
            omega

theorem GProp_of_empty {s : TarjanState} {g : List String} (h : s.stack = []) :
    GProp s g := by
  intro x hx _
  rw [h] at hx
  exact absurd hx (List.not_mem_nil x)

theorem detectLoop_ok {orig : FunctionMap} (hnd : (orig.map Prod.fst).Nodup)
    (fuel : Nat) :
    ∀ (ks : List String) (s : TarjanState),
      WFS orig s [] → s.stack = [] → muV orig s < fuel →
      (∀ k, k ∈ ks → k ∈ deadUniv orig) →
      WFS orig (ks.foldl (fun s k =>
          match s.recData.lookup k with
          | some _ => s
          | none => tarjanVisit fuel k s) s) [] ∧
      (ks.foldl (fun s k =>
          match s.recData.lookup k with
          | some _ => s
          | none => tarjanVisit fuel k s) s).stack = [] ∧
      muV orig (ks.foldl (fun s k =>
          match s.recData.lookup k with
          | some _ => s
          | none => tarjanVisit fuel k s) s) ≤ muV orig s ∧
      (∀ k, memRD s k → memRD (ks.foldl (fun s k =>
          match s.recData.lookup k with
          | some _ => s
          | none => tarjanVisit fuel k s) s) k) ∧
      (∀ k, k ∈ ks → memRD (ks.foldl (fun s k =>
          match s.recData.lookup k with
          | some _ => s
          | none => tarjanVisit fuel k s) s) k) := by
  intro ks
  induction ks with
  | nil =>
      intro s hW hstk hμ _
      exact ⟨hW, hstk, le_rfl, fun _ hk => hk,
        fun k hk => absurd hk (List.not_mem_nil k)⟩
  | cons k0 ks ih =>
      intro s hW hstk hμ hks
      rw [List.foldl_cons]
      cases hrd : s.recData.lookup k0 with
      | some d =>
          obtain ⟨G, S, M, O, P⟩ := ih s hW hstk hμ
            (fun k hk => hks k (List.mem_cons.mpr (Or.inr hk)))
          refine ⟨G, S, M, O, ?_⟩
          intro k hk
          rcases List.mem_cons.mp hk with rfl | hk'
          · exact O k (memRD_of_lookup hrd)
          · exact P k hk'
      | none =>
          have hstep : (match (none : Option FunctionNode) with
              | some _ => s
              | none => tarjanVisit fuel k0 s) = tarjanVisit fuel k0 s := rfl
          rw [hstep]
          have hpre : TVpre orig fuel k0 s [] := by
            refine ⟨hW, GProp_of_empty hstk, not_memRD_of_lookup hrd, ?_,
              hks k0 (List.mem_cons.mpr (Or.inl rfl)), hμ⟩
            intro x hx
            rw [hstk] at hx
            exact absurd hx (List.not_mem_nil x)
          obtain ⟨W', ⟨pre', hshape', hpre'⟩, hold', hmem', hidx', himono', hμ',
            hrm', hdich', hgpp'⟩ := tarjanVisit_TV2 hnd fuel k0 s [] hpre
          have hstk' : (tarjanVisit fuel k0 s).stack = [] := by
            rcases hdich' with ⟨h1, _⟩ | hsurv
            · rw [h1, hstk]
            · exfalso
              have hs1 : lowN (tarjanVisit fuel k0 s) k0 <
                  idxN (tarjanVisit fuel k0 s) k0 :=
                W'.strict k0 hsurv (List.not_mem_nil k0)
              obtain ⟨m, hm, hmi, _⟩ := W'.ljust k0 hsurv
              have hmp : m ∈ pre' := by
                rw [hshape', hstk, List.append_nil] at hm
                exact hm
              have h1 := hpre' m hmp
              rw [hidx'] at hs1
              omega
          have hmono : ∀ k, memRD s k → memRD (tarjanVisit fuel k0 s) k := by
            intro k hk
            have h2 := hold' k hk
            unfold memRD at hk ⊢
            rw [h2]
            exact hk
          obtain ⟨G, S, M, O, P⟩ := ih (tarjanVisit fuel k0 s) W' hstk' (by omega)
            (fun k hk => hks k (List.mem_cons.mpr (Or.inr hk)))
          refine ⟨G, S, by omega, fun k hk => O k (hmono k hk), ?_⟩
          intro k hk
          rcases List.mem_cons.mp hk with rfl | hk'
          · exact O k hmem'
          · exact P k hk'

theorem callReach_no_edges {m : FunctionMap} {a : String}
    (h : ∀ x, ¬callEdge m a x) {b : String} (hr : callReach m a b) : b = a := by
  rcases Relation.ReflTransGen.cases_head hr with he | ⟨x, hx, _⟩
  · exact he.symm
  · exact absurd hx (h x)

theorem WFS_init (functions : FunctionMap) :
    WFS functions (⟨functions, 0, [], []⟩ : TarjanState) [] := by
  have hmem0 : ∀ a : String, ¬memRD (⟨functions, 0, [], []⟩ : TarjanState) a := by
    intro a ha
    unfold memRD at ha
    simp [List.lookup] at ha
  refine ⟨good_refl functions, List.nodup_nil, ?_, ?_, ?_, ?_, List.Pairwise.nil,
    ?_, List.Pairwise.nil, ?_, ?_, ?_, ?_, ?_, ?_, ?_, ?_, ?_, ?_⟩
  · intro x hx
    exact absurd hx (List.not_mem_nil x)
  · intro k r hk
    exact Option.noConfusion hk
  · intro k r hk
    exact Option.noConfusion hk
  · intro k k' r r' hk _ _
    exact Option.noConfusion hk
  · intro z hz
    exact absurd hz (List.not_mem_nil z)
  · intro k r hk
    exact Option.noConfusion hk
  · intro x y hx _ _
    exact absurd hx (List.not_mem_nil x)
  · intro x hx
    exact absurd hx (List.not_mem_nil x)
  · intro x hx _
    exact absurd hx (List.not_mem_nil x)
  · intro a ha _ b _
    exact absurd ha (hmem0 a)
  · intro a ha _ b _ _
    exact absurd ha (hmem0 a)
  · intro x hf _
    exact absurd hf.1 (hmem0 x)
  · intro x hf y _
    exact absurd hf.1 (hmem0 x)
  · intro a b hf _
    exact absurd hf.1 (hmem0 a)
  · intro k hk
    exact Or.inl hk

/-- **C2.** Tarjan's detection in `detectRecursion` is exactly right about
strongly connected components: (1) any two distinct mutually reachable
nodes of the call graph (a cycle through more than one node) are both
stored with `IsRecursive = true` — here stated for the first, by symmetry
for all members — and (2) a key in a singleton component (no distinct
mutually reachable partner) with no self-loop keeps its original record,
in particular `IsRecursive` stays `false`. -/
theorem C2_scc_marking (functions : FunctionMap)
    (hnd : (functions.map Prod.fst).Nodup) :
    (∀ u v, u ≠ v → CallMate functions u v →
      raisedIn (detectRecursion functions) u) ∧
    (∀ k fc, functions.lookup k = some fc → fc.isRecursive = false →
      ¬k ∈ fc.callees → (∀ j, j ≠ k → ¬CallMate functions k j) →
      (detectRecursion functions).lookup k = some fc) := by
  have hμ0 : muV functions (⟨functions, 0, [], []⟩ : TarjanState) <
      functions.length + totalCallees functions + 1 := by
    have h1 : muV functions (⟨functions, 0, [], []⟩ : TarjanState) ≤
        (deadUniv functions).length := by
      unfold muV unvisitedCount
      exact List.countP_le_length _
    have h2 : (deadUniv functions).length =
        functions.length + totalCallees functions := by
      unfold deadUniv
      rw [List.length_append, List.length_map, length_flatMap_callees]
    omega
  have hkeys : ∀ k, k ∈ functions.map (fun p => p.1) → k ∈ deadUniv functions := by
    intro k hk
    unfold deadUniv
    exact List.mem_append.mpr (Or.inl hk)
  obtain ⟨GF, SF, _, _, PF⟩ := detectLoop_ok hnd
    (functions.length + totalCallees functions + 1)
    (functions.map (fun p => p.1)) ⟨functions, 0, [], []⟩ (WFS_init functions)
    rfl hμ0 hkeys
  have hDR : detectRecursion functions =
      ((functions.map (fun p => p.1)).foldl (fun (s : TarjanState) (k : String) =>
        match s.recData.lookup k with
        | some _ => s
        | none => tarjanVisit (functions.length + totalCallees functions + 1) k s)
        ⟨functions, 0, [], []⟩).functions := rfl
  constructor
  · intro u v hne hmt
    have hukey : ∃ fcu, functions.lookup u = some fcu := by
      rcases Relation.ReflTransGen.cases_head hmt.1 with he | ⟨b1, he1, _⟩
      · exact absurd he hne
      · obtain ⟨fcu, hfcu, _⟩ := he1
        exact ⟨fcu, hfcu⟩
    obtain ⟨fcu, hfcu⟩ := hukey
    have hmemu := PF u (List.mem_map.mpr ⟨(u, fcu), lookup_mem hfcu, rfl⟩)
    have hfinu : finS ((functions.map (fun p => p.1)).foldl
        (fun (s : TarjanState) (k : String) =>
        match s.recData.lookup k with
        | some _ => s
        | none => tarjanVisit (functions.length + totalCallees functions + 1) k s)
        ⟨functions, 0, [], []⟩) u := by
      refine ⟨hmemu, ?_⟩
      rw [SF]
      exact List.not_mem_nil u
    have hr := GF.crec u hfinu ⟨v, hne.symm, hmt⟩
    rw [hDR]
    exact hr
  · intro k fc hlkk hrec hself hmate
    rcases good_lookup GF.good hlkk with h | h
    · rw [hDR]
      exact h
    · have hr : raisedIn ((functions.map (fun p => p.1)).foldl
          (fun (s : TarjanState) (k : String) =>
          match s.recData.lookup k with
          | some _ => s
          | none => tarjanVisit (functions.length + totalCallees functions + 1) k s)
          ⟨functions, 0, [], []⟩).functions k := ⟨raiseRec fc, h, rfl⟩
      rcases GF.rsound k hr with h1 | h1 | h1
      · obtain ⟨fc', hfc', hr'⟩ := h1
        rw [hlkk] at hfc'
        obtain rfl : fc = fc' := by injection hfc'
        rw [hrec] at hr'
        exact (Bool.false_ne_true hr').elim
      · obtain ⟨fc', hfc', hmem⟩ := h1
        rw [hlkk] at hfc'
        obtain rfl : fc = fc' := by injection hfc'
        exact (hself hmem).elim
      · obtain ⟨j, hj, hmt⟩ := h1
        exact (hmate j hj hmt).elim

theorem C2_scc_marking_witness :
    raisedIn (detectRecursion [("a", mkFC "a" ["b"]), ("b", mkFC "b" ["c"]),
      ("c", mkFC "c" ["a"]), ("d", mkFC "d" [])]) "a" ∧
    (detectRecursion [("a", mkFC "a" ["b"]), ("b", mkFC "b" ["c"]),
      ("c", mkFC "c" ["a"]), ("d", mkFC "d" [])]).lookup "d" =
      some (mkFC "d" []) := by
  have hC := C2_scc_marking [("a", mkFC "a" ["b"]), ("b", mkFC "b" ["c"]),
    ("c", mkFC "c" ["a"]), ("d", mkFC "d" [])] (by decide)
  constructor
  · refine hC.1 "a" "b" (by decide) ?_
    constructor
    · exact Relation.ReflTransGen.single ⟨mkFC "a" ["b"], by decide, by decide⟩
    · exact Relation.ReflTransGen.head
        (show callEdge [("a", mkFC "a" ["b"]), ("b", mkFC "b" ["c"]),
            ("c", mkFC "c" ["a"]), ("d", mkFC "d" [])] "b" "c" from
          ⟨mkFC "b" ["c"], by decide, by decide⟩)
        (Relation.ReflTransGen.single
          (show callEdge [("a", mkFC "a" ["b"]), ("b", mkFC "b" ["c"]),
              ("c", mkFC "c" ["a"]), ("d", mkFC "d" [])] "c" "a" from
            ⟨mkFC "c" ["a"], by decide, by decide⟩))
  · refine hC.2 "d" (mkFC "d" []) (by decide) (by decide) (by decide) ?_
    intro j hj hmt
    have hne : ∀ x, ¬callEdge [("a", mkFC "a" ["b"]), ("b", mkFC "b" ["c"]),
        ("c", mkFC "c" ["a"]), ("d", mkFC "d" [])] "d" x := by
      intro x hx
      obtain ⟨fc, hfc, hmem⟩ := hx
      have h2 : List.lookup "d" [("a", mkFC "a" ["b"]), ("b", mkFC "b" ["c"]),
          ("c", mkFC "c" ["a"]), ("d", mkFC "d" [])] = some (mkFC "d" []) := by
        decide
      rw [h2] at hfc
      have h3 : mkFC "d" [] = fc := by injection hfc
      rw [← h3] at hmem
      exact absurd hmem (List.not_mem_nil x)
    exact hj (callReach_no_edges hne hmt.1)
